import Mathlib

/-!
Shallow embedding of the `nfx-containers` hash-table engines and proofs about
the specification claims.

Two engines are modelled, following the template implementation files:

* the Robin Hood open-addressing engine of
  `src/include/nfx/detail/containers/FastHashSet.inl` (namespace `Nfx.RH`);
* the CHD perfect-hash engine of
  `src/include/nfx/detail/containers/PerfectHashMap.inl` (namespace `Nfx.CHD`).

Modelling conventions:

* keys are `Nat` and `KeyEqual` is instantiated with equality on `Nat`;
  the `Hasher` capability is an arbitrary function `hasher : Nat → Nat`
  passed explicitly (the hash functions live outside this repository and the
  spec treats them as an opaque capability);
* machine integers (`size_t`, `uint32_t`, the hash values) are modelled as
  `Nat`; overflow is irrelevant to the claims settled here because every
  quantity involved (sizes, capacities, probe distances) stays far below the
  machine word range in the states the claims quantify over;
* the C++ `while` loops are modelled as fuel-indexed recursions returning
  `Option`; `none` means the source loop would not have terminated within the
  given number of iterations.  Every fuel bound used by a public operation is
  proved sufficient under the table invariant, so under the invariant the
  model never returns `none` and agrees with the source exactly;
* `hash & m_mask` is modelled as `hash &&& mask` (`Nat.land`), exactly as in
  the source; the power-of-two invariant turns it into `hash % capacity`.
-/

namespace Nfx

namespace RH

/-- Bucket structure of the Robin Hood engine, from `FastHashSet.h`
(`struct Bucket { TKey key{}; HashType hash{}; uint32_t distance{}; bool occupied{}; }`). -/
structure Bucket where
  key : Nat
  hash : Nat
  distance : Nat
  occupied : Bool
deriving Repr, DecidableEq

/-- Value-initialized bucket, the C++ `Bucket{}`. -/
def Bucket.emptyB : Bucket := ⟨0, 0, 0, false⟩

instance : Inhabited Bucket := ⟨Bucket.emptyB⟩

/-- State of a `FastHashSet`: the bucket array plus the `m_size`,
`m_capacity` and `m_mask` fields. -/
structure Table where
  buckets : List Bucket
  size : Nat
  capacity : Nat
  mask : Nat
deriving Repr, DecidableEq

/-- `INITIAL_CAPACITY = 32` from `FastHashSet.h`. -/
def INITIAL_CAPACITY : Nat := 32

/-- `MAX_LOAD_FACTOR_PERCENT = 75` from `FastHashSet.h`. -/
def MAX_LOAD_FACTOR_PERCENT : Nat := 75

/-- Default constructor: capacity `INITIAL_CAPACITY`, all buckets
value-initialized. -/
def Table.emptyTable : Table :=
  ⟨List.replicate INITIAL_CAPACITY Bucket.emptyB, 0, INITIAL_CAPACITY, INITIAL_CAPACITY - 1⟩

/-- Fuel-indexed form of the capacity-doubling loop
`while (capacity < target) capacity <<= 1`; structural recursion keeps it
kernel-computable. -/
def growPow2Aux : Nat → Nat → Nat → Nat
  | 0, _, cap => cap
  | fuel + 1, target, cap => if cap < target then growPow2Aux fuel target (2 * cap) else cap

/-- Doubling loop `while (capacity < target) capacity <<= 1` shared by the
explicit-capacity constructor and `reserve` (and, in the CHD engine, the
`tableSize` computation).  Fuel `target` is sufficient for every `cap ≥ 1`
(the loop is only ever entered at `cap = 1`): `2 ^ target ≥ target`. -/
def growPow2 (target : Nat) (cap : Nat) : Nat := growPow2Aux target target cap

/-- Explicit-capacity constructor `FastHashSet(size_t initialCapacity)`. -/
def Table.withCapacity (initialCapacity : Nat) : Table :=
  ⟨List.replicate (growPow2 initialCapacity 1) Bucket.emptyB, 0,
    growPow2 initialCapacity 1, growPow2 initialCapacity 1 - 1⟩

/-- Read of `m_buckets[pos]`.  In the source every index is pre-masked and
hence in bounds; the default is never reached under the length invariant. -/
def bAt (st : Table) (pos : Nat) : Bucket := st.buckets.getD pos Bucket.emptyB

/-- Write of `m_buckets[pos] = b`. -/
def setB (st : Table) (pos : Nat) (b : Bucket) : Table :=
  { st with buckets := st.buckets.set pos b }

/-- Increment of `m_size`. -/
def incSize (st : Table) : Table := { st with size := st.size + 1 }

/-- Decrement of `m_size`. -/
def decSize (st : Table) : Table := { st with size := st.size - 1 }

/-- Probe loop of `FastHashSet::find`.  The returned value is `none` when the
fuel runs out (the source loop would still be running), `some none` for the
source's `nullptr`, and `some (some k)` for a pointer to the stored key `k`. -/
def findLoop (st : Table) (key hash : Nat) : Nat → Nat → Nat → Option (Option Nat)
  | 0, _, _ => none
  | fuel + 1, pos, distance =>
    if (bAt st pos).occupied = false ∨ distance > (bAt st pos).distance then
      some none
    else if (bAt st pos).hash = hash ∧ (bAt st pos).key = key then
      some (some (bAt st pos).key)
    else
      findLoop st key hash fuel ((pos + 1) &&& st.mask) (distance + 1)

/-- `FastHashSet::find`.  Fuel `capacity + 1` is sufficient under the table
invariant (the probe distance strictly increases and every recorded distance
is below `capacity`). -/
def Table.find (hasher : Nat → Nat) (st : Table) (key : Nat) : Option (Option Nat) :=
  findLoop st key (hasher key) (st.capacity + 1) (hasher key &&& st.mask) 0

/-- `FastHashSet::contains`: `find(key) != nullptr`. -/
def Table.containsKey (hasher : Nat → Nat) (st : Table) (key : Nat) : Option Bool :=
  (st.find hasher key).map Option.isSome

/-- `FastHashSet::shouldResize`: `(m_size * 100) >= (m_capacity * MAX_LOAD_FACTOR_PERCENT)`. -/
def Table.shouldResize (st : Table) : Bool :=
  decide (st.size * 100 ≥ st.capacity * MAX_LOAD_FACTOR_PERCENT)

/-- Outcome of the first probe loop of `FastHashSet::insertInternal`: the
key already exists, or a candidate insertion point `pos` with probe distance
`distance` was determined (either by reaching an unoccupied bucket or by the
Robin Hood break `distance > bucket.distance`). -/
inductive ProbeOut where
  | found : ProbeOut
  | place : Nat → Nat → ProbeOut
deriving Repr, DecidableEq

/-- First probe loop of `insertInternal` (`while (m_buckets[pos].occupied)`,
checking for an existing key or the Robin Hood displacement point). -/
def insProbe (st : Table) (key hash : Nat) : Nat → Nat → Nat → Option ProbeOut
  | 0, _, _ => none
  | fuel + 1, pos, distance =>
    if (bAt st pos).occupied then
      if (bAt st pos).hash = hash ∧ (bAt st pos).key = key then
        some ProbeOut.found
      else if distance > (bAt st pos).distance then
        some (ProbeOut.place pos distance)
      else
        insProbe st key hash fuel ((pos + 1) &&& st.mask) (distance + 1)
    else
      some (ProbeOut.place pos distance)

/-- Robin Hood displacement loop of `insertInternal`: while the slot is
occupied, swap the incoming bucket with the resident when the incoming one is
farther from home, then advance and increment the carried distance; place the
carried bucket at the first unoccupied slot. -/
def dispLoop : Nat → Table → Nat → Bucket → Option Table
  | 0, _, _, _ => none
  | fuel + 1, st, pos, nb =>
    if (bAt st pos).occupied then
      if nb.distance > (bAt st pos).distance then
        dispLoop fuel (setB st pos nb) ((pos + 1) &&& st.mask)
          { bAt st pos with distance := (bAt st pos).distance + 1 }
      else
        dispLoop fuel st ((pos + 1) &&& st.mask) { nb with distance := nb.distance + 1 }
    else
      some (setB st pos nb)

/-- Body of `insertInternal` after the `shouldResize` check: fast path on an
empty home slot, then the first probe loop, then the displacement loop.
Returns the `bool` result of `insertInternal` and the new table. -/
def insertCore (hasher : Nat → Nat) (st : Table) (key : Nat) : Option (Bool × Table) :=
  if (bAt st (hasher key &&& st.mask)).occupied = false then
    some (true, incSize (setB st (hasher key &&& st.mask) ⟨key, hasher key, 0, true⟩))
  else
    match insProbe st key (hasher key) st.capacity (hasher key &&& st.mask) 0 with
    | none => none
    | some ProbeOut.found => some (false, st)
    | some (ProbeOut.place p d) =>
      (dispLoop st.capacity st p ⟨key, hasher key, d, true⟩).map
        (fun st2 => (true, incSize st2))

/-- Freshly allocated table of the given capacity, as produced inside
`resize`/`reserve` before re-insertion. -/
def freshTable (newCapacity : Nat) : Table :=
  ⟨List.replicate newCapacity Bucket.emptyB, 0, newCapacity, newCapacity - 1⟩

/-- Re-insertion sweep of `resize`/`reserve`: for every occupied bucket of
the old array, insert its key into the accumulating table with the given
insert operation. -/
def reinsertList (ins : Table → Nat → Option (Bool × Table)) : List Bucket → Table → Option Table
  | [], st => some st
  | b :: rest, st =>
    if b.occupied then
      (ins st b.key).bind (fun r => reinsertList ins rest r.2)
    else
      reinsertList ins rest st

/-- `FastHashSet::insertInternal` with an explicit bound `rf` on the depth of
nested automatic resizes (`insertInternal` calls `resize`, whose re-inserts
call `insertInternal` again; under the load-factor invariant one level is
enough and the bound is never hit). -/
def insertInternalF (hasher : Nat → Nat) : Nat → Table → Nat → Option (Bool × Table)
  | 0 => fun st key =>
    if st.shouldResize then none else insertCore hasher st key
  | rf + 1 => fun st key =>
    if st.shouldResize then
      (reinsertList (insertInternalF hasher rf) st.buckets (freshTable (2 * st.capacity))).bind
        (fun st2 => insertCore hasher st2 key)
    else
      insertCore hasher st key

/-- `FastHashSet::resize`: double the capacity and re-insert every occupied
bucket via `insertInternal` (re-insertions at nested-resize depth `rf`). -/
def Table.resizeOp (hasher : Nat → Nat) (rf : Nat) (st : Table) : Option Table :=
  reinsertList (insertInternalF hasher rf) st.buckets (freshTable (2 * st.capacity))

/-- `FastHashSet::insert` (and `emplace`, which constructs the key and calls
`insertInternal` on it). -/
def Table.insert (hasher : Nat → Nat) (st : Table) (key : Nat) : Option (Bool × Table) :=
  insertInternalF hasher 1 st key

/-- `FastHashSet::reserve`. -/
def Table.reserveOp (hasher : Nat → Nat) (st : Table) (minCapacity : Nat) : Option Table :=
  if minCapacity > st.capacity then
    if growPow2 minCapacity 1 > st.capacity then
      reinsertList (insertInternalF hasher 1) st.buckets (freshTable (growPow2 minCapacity 1))
    else some st
  else some st

/-- Probe loop of `FastHashSet::erase(key)`
(`while (distance <= m_buckets[pos].distance && m_buckets[pos].occupied)`).
Returns the position of the matching bucket, or `some none` when absent. -/
def eraseFind (st : Table) (key hash : Nat) : Nat → Nat → Nat → Option (Option Nat)
  | 0, _, _ => none
  | fuel + 1, pos, distance =>
    if distance ≤ (bAt st pos).distance ∧ (bAt st pos).occupied then
      if (bAt st pos).hash = hash ∧ (bAt st pos).key = key then
        some (some pos)
      else
        eraseFind st key hash fuel ((pos + 1) &&& st.mask) (distance + 1)
    else
      some none

/-- Backward-shift loop of `FastHashSet::eraseAtPosition`: pull each
subsequent displaced occupant back one slot and decrement its distance, then
zero the vacated slot. -/
def eraseShift : Nat → Table → Nat → Nat → Option Table
  | 0, _, _, _ => none
  | fuel + 1, st, pos, nextPos =>
    if (bAt st nextPos).occupied ∧ (bAt st nextPos).distance > 0 then
      eraseShift fuel
        (setB st pos { bAt st nextPos with distance := (bAt st nextPos).distance - 1 })
        nextPos ((nextPos + 1) &&& st.mask)
    else
      some (setB st pos Bucket.emptyB)

/-- `FastHashSet::erase(key)`: locate the key, then backward-shift delete and
decrement `m_size`; return `false` and leave the table unchanged when the key
is absent. -/
def Table.erase (hasher : Nat → Nat) (st : Table) (key : Nat) : Option (Bool × Table) :=
  match eraseFind st key (hasher key) (st.capacity + 1) (hasher key &&& st.mask) 0 with
  | none => none
  | some none => some (false, st)
  | some (some pos) =>
    (eraseShift (st.capacity + 1) st pos ((pos + 1) &&& st.mask)).map
      (fun st2 => (true, decSize st2))

/-- `FastHashSet::clear`: mark every bucket unoccupied with distance 0 (keys
and hashes are left in place) and zero `m_size`. -/
def Table.clearOp (st : Table) : Table :=
  { st with
    buckets := st.buckets.map (fun b => { b with occupied := false, distance := 0 }),
    size := 0 }

/-- Scan for an unoccupied slot, used by `tryEmplace` after its resize. -/
def scanEmptySlot (st : Table) : Nat → Nat → Option Nat
  | 0, _ => none
  | fuel + 1, idx =>
    if (bAt st idx).occupied then scanEmptySlot st fuel ((idx + 1) &&& st.mask)
    else some idx

/-- Probe loop of `FastHashSet::tryEmplace`.  Note that the source places the
new bucket with `distance = 0` whatever the actual probe displacement is, and
performs no Robin Hood displacement. -/
def tryEmplaceLoop (hasher : Nat → Nat) (st : Table) (key hash : Nat) :
    Nat → Nat → Option (Bool × Table)
  | 0, _ => none
  | fuel + 1, idx =>
    if (bAt st idx).occupied then
      if (bAt st idx).hash = hash ∧ (bAt st idx).key = key then
        some (false, st)
      else
        tryEmplaceLoop hasher st key hash fuel ((idx + 1) &&& st.mask)
    else
      if st.shouldResize then
        (Table.resizeOp hasher 0 st).bind (fun st2 =>
          (scanEmptySlot st2 (st2.capacity + 1) (hash &&& st2.mask)).map (fun idx2 =>
            (true, incSize (setB st2 idx2 ⟨key, hash, 0, true⟩))))
      else
        some (true, incSize (setB st idx ⟨key, hash, 0, true⟩))

/-- `FastHashSet::tryEmplace` (the iterator half of the return value is
dropped; the inserted/found flag and the table state are kept). -/
def Table.tryEmplace (hasher : Nat → Nat) (st : Table) (key : Nat) : Option (Bool × Table) :=
  tryEmplaceLoop hasher st key (hasher key) (st.capacity + 1) (hasher key &&& st.mask)

/-- Number of occupied buckets. -/
def occCount (st : Table) : Nat := st.buckets.countP (fun b => b.occupied)

/-- Key membership: some occupied bucket stores `k`. -/
def Table.MemKey (st : Table) (k : Nat) : Prop :=
  ∃ i < st.capacity, (bAt st i).occupied = true ∧ (bAt st i).key = k

instance (st : Table) (k : Nat) : Decidable (st.MemKey k) := by
  unfold Table.MemKey; infer_instance

/-- Key membership ignoring one designated slot: some occupied bucket other
than `pos` stores `k`.  Used to track membership across the in-place swaps of
the displacement loop. -/
def Table.MemExcept (st : Table) (pos k : Nat) : Prop :=
  ∃ i, i < st.capacity ∧ i ≠ pos ∧ (bAt st i).occupied = true ∧ (bAt st i).key = k

/-- Predecessor position on the circular bucket array. -/
def prevIdx (st : Table) (i : Nat) : Nat := (i + st.capacity - 1) % st.capacity

/-- Pairwise distinctness of the keys stored in occupied buckets. -/
def distinctKeys (st : Table) : Prop :=
  ∀ i < st.capacity, ∀ j < st.capacity,
    (bAt st i).occupied = true → (bAt st j).occupied = true → i ≠ j →
      (bAt st i).key ≠ (bAt st j).key

/-- Slot-level invariant of the Robin Hood engine.  `dist_ok` states that the
recorded `distance` is the exact number of probe steps from the ideal slot
`hash & mask` to the bucket's position, `chain_ok` is the Robin Hood probe
chain condition, and `distinct` pairwise key distinctness of occupied
buckets. -/
structure SlotInv (hasher : Nat → Nat) (st : Table) : Prop where
  cap_pow : ∃ k, st.capacity = 2 ^ k
  mask_eq : st.mask = st.capacity - 1
  len_eq : st.buckets.length = st.capacity
  hash_ok : ∀ i < st.capacity, (bAt st i).occupied = true →
    (bAt st i).hash = hasher (bAt st i).key
  dist_lt : ∀ i < st.capacity, (bAt st i).occupied = true →
    (bAt st i).distance < st.capacity
  dist_ok : ∀ i < st.capacity, (bAt st i).occupied = true →
    i = ((bAt st i).hash + (bAt st i).distance) % st.capacity
  chain_ok : ∀ i < st.capacity, (bAt st i).occupied = true → 0 < (bAt st i).distance →
    (bAt st (prevIdx st i)).occupied = true ∧
      (bAt st i).distance ≤ (bAt st (prevIdx st i)).distance + 1
  distinct : distinctKeys st

/-- Full invariant: the slot-level invariant plus the size-accounting and
load-factor facts.  The load-factor bound is attainable with equality;
capacities 1 and 2, reachable through the explicit-capacity constructor, can
exceed it and are carved out. -/
structure Inv (hasher : Nat → Nat) (st : Table) : Prop where
  slots : SlotInv hasher st
  size_eq : st.size = occCount st
  lf_ok : st.size * 100 ≤ st.capacity * 75 ∨ st.capacity ≤ 2

/-- Invariant of the Robin Hood displacement loop: the table satisfies the
slot-level invariant, and the carried candidate bucket `nb` is a
well-formed bucket for the current probe position whose key is absent from
the table, with the probe-chain condition linking it to its predecessor. -/
structure CandInv (hasher : Nat → Nat) (st : Table) (pos : Nat) (nb : Bucket) : Prop where
  slots : SlotInv hasher st
  nb_occ : nb.occupied = true
  nb_hash : nb.hash = hasher nb.key
  nb_pos : pos = (nb.hash + nb.distance) % st.capacity
  nb_fresh : ∀ i < st.capacity, (bAt st i).occupied = true → (bAt st i).key ≠ nb.key
  nb_chain : 0 < nb.distance → (bAt st (prevIdx st pos)).occupied = true ∧
    nb.distance ≤ (bAt st (prevIdx st pos)).distance + 1

end RH

namespace CHD

/-- Construction failure of `PerfectHashMap` (the `std::invalid_argument`
thrown on duplicate keys). -/
inductive ChdErr where
  | duplicateKeys : ChdErr
deriving Repr, DecidableEq

instance {ε α : Type} [DecidableEq ε] [DecidableEq α] : DecidableEq (Except ε α) :=
  fun a b =>
    match a, b with
    | Except.ok x, Except.ok y =>
      if h : x = y then isTrue (by rw [h]) else isFalse (by intro hc; cases hc; exact h rfl)
    | Except.error x, Except.error y =>
      if h : x = y then isTrue (by rw [h]) else isFalse (by intro hc; cases hc; exact h rfl)
    | Except.ok _, Except.error _ => isFalse (by intro hc; cases hc)
    | Except.error _, Except.ok _ => isFalse (by intro hc; cases hc)

/-- State of a `PerfectHashMap`: `m_table` (key/value pairs), `m_seeds`
(signed seeds indexed by home bucket), `m_occupied`, `m_itemCount`. -/
structure ChdState where
  table : List (Nat × Nat)
  seeds : List Int
  occupied : List Bool
  itemCount : Nat
deriving Repr, DecidableEq

/-- Default-constructed (empty) `PerfectHashMap`. -/
def ChdState.emptyMap : ChdState := ⟨[], [], [], 0⟩

/-- Duplicate scan of the constructor: insert each key into a transient
uniqueness set; report a duplicate as soon as an insertion fails. -/
def dupScan : List (Nat × Nat) → List Nat → Bool
  | [], _ => false
  | (k, _) :: rest, seen =>
    if k ∈ seen then true else dupScan rest (k :: seen)

/-- Table sizing of the constructor:
`tableSize = 1; while (tableSize < itemCount) tableSize <<= 1; tableSize <<= 1`. -/
def chdTableSize (itemCount : Nat) : Nat := 2 * RH.growPow2 itemCount 1

/-- Bucketing pass: for each item index `i`, append `(i, hash)` to the bucket
`hash & (tableSize - 1)`. -/
def fillBuckets (hasher : Nat → Nat) (ts : Nat) (items : List (Nat × Nat)) :
    List (List (Nat × Nat)) :=
  (List.range items.length).foldl
    (fun bks i =>
      bks.set (hasher (items.getD i (0, 0)).1 &&& (ts - 1))
        (bks.getD (hasher (items.getD i (0, 0)).1 &&& (ts - 1)) [] ++
          [(i, hasher (items.getD i (0, 0)).1)]))
    (List.replicate ts [])

/-- Insertion into a list sorted by descending bucket size (model of the
`std::sort` by `a.second->size() > b.second->size()`; the sort order is only
used as a performance heuristic, and the proofs rely only on the result being
a permutation of the non-empty buckets). -/
def insertBySizeDesc (x : Nat × List (Nat × Nat)) :
    List (Nat × List (Nat × Nat)) → List (Nat × List (Nat × Nat))
  | [] => [x]
  | y :: ys =>
    if y.2.length < x.2.length then x :: y :: ys else y :: insertBySizeDesc x ys

/-- Sort of the indexed non-empty buckets by descending size. -/
def sortBySizeDesc (l : List (Nat × List (Nat × Nat))) : List (Nat × List (Nat × Nat)) :=
  l.foldr insertBySizeDesc []

/-- Seed check of the multi-item placement: compute each member's candidate
slot `seedMix(seed, hash, tableSize) & (tableSize - 1)` and reject the seed
on a globally occupied slot, a slot reserved for a single-item bucket, or an
intra-bucket collision; on success return the candidate slots in order. -/
def chdCheckSeed (seedMix : Nat → Nat → Nat → Nat) (ts : Nat) (occ : List Bool)
    (bks : List (List (Nat × Nat))) (seed : Nat) :
    List (Nat × Nat) → List Nat → Option (List Nat)
  | [], positions => some positions
  | (_, h) :: rest, positions =>
    if occ.getD (seedMix seed h ts &&& (ts - 1)) false then none
    else if (bks.getD (seedMix seed h ts &&& (ts - 1)) []).length = 1 then none
    else if (seedMix seed h ts &&& (ts - 1)) ∈ positions then none
    else chdCheckSeed seedMix ts occ bks seed rest (positions ++ [seedMix seed h ts &&& (ts - 1)])

/-- Seed search `for (seed = 1; !seedFound; ++seed)` with an explicit fuel
bound; `none` means no seed below the bound passed the checks (the source
loop would still be running). -/
def chdFindSeed (seedMix : Nat → Nat → Nat → Nat) (ts : Nat) (occ : List Bool)
    (bks : List (List (Nat × Nat))) (bucket : List (Nat × Nat)) :
    Nat → Nat → Option (Nat × List Nat)
  | 0, _ => none
  | fuel + 1, seed =>
    match chdCheckSeed seedMix ts occ bks seed bucket [] with
    | some ps => some (seed, ps)
    | none => chdFindSeed seedMix ts occ bks bucket fuel (seed + 1)

/-- Placement of all members of a bucket at their computed slots. -/
def placeAll (items : List (Nat × Nat)) :
    List (Nat × Nat) → List (Nat × Nat) → List Bool → List (Nat × Nat) × List Bool
  | [], table, occ => (table, occ)
  | (i, pos) :: rest, table, occ =>
    placeAll items rest (table.set pos (items.getD i (0, 0))) (occ.set pos true)

/-- Processing loop over the sorted buckets: single-item buckets are placed
directly at their home slot with the negative seed sentinel; multi-item
buckets run the seed search and place every member on success. -/
def chdProcess (seedMix : Nat → Nat → Nat → Nat) (ts : Nat) (items : List (Nat × Nat))
    (bks : List (List (Nat × Nat))) (bound : Nat) :
    List (Nat × List (Nat × Nat)) → List (Nat × Nat) → List Int → List Bool →
      Option (List (Nat × Nat) × List Int × List Bool)
  | [], table, seeds, occ => some (table, seeds, occ)
  | (bIdx, bucket) :: rest, table, seeds, occ =>
    if bucket.length = 1 then
      chdProcess seedMix ts items bks bound rest
        (table.set bIdx (items.getD (bucket.headD (0, 0)).1 (0, 0)))
        (seeds.set bIdx (-(Int.ofNat bIdx + 1)))
        (occ.set bIdx true)
    else
      match chdFindSeed seedMix ts occ bks bucket bound 1 with
      | none => none
      | some (seed, ps) =>
        match placeAll items ((bucket.map Prod.fst).zip ps) table occ with
        | (table2, occ2) =>
          chdProcess seedMix ts items bks bound rest table2
            (seeds.set ((bucket.headD (0, 0)).2 &&& (ts - 1)) (Int.ofNat seed)) occ2

/-- `PerfectHashMap` constructor with an explicit fuel bound for the
per-bucket seed searches.  `none` means some seed search exceeded the bound
(the source constructor would still be looping); `some (.error e)` is the
thrown construction failure; `some (.ok st)` a completed construction. -/
def buildCHD (hasher : Nat → Nat) (seedMix : Nat → Nat → Nat → Nat) (bound : Nat)
    (items : List (Nat × Nat)) : Option (Except ChdErr ChdState) :=
  if items.length = 0 then
    some (Except.ok ⟨items, [], [], 0⟩)
  else if dupScan items [] then
    some (Except.error ChdErr.duplicateKeys)
  else
    (chdProcess seedMix (chdTableSize items.length) items
        (fillBuckets hasher (chdTableSize items.length) items) bound
        (sortBySizeDesc
          ((fillBuckets hasher (chdTableSize items.length) items).enum.filter
            (fun p => !p.2.isEmpty)))
        (List.replicate (chdTableSize items.length) (0, 0))
        (List.replicate (chdTableSize items.length) 0)
        (List.replicate (chdTableSize items.length) false)).map
      (fun r => Except.ok ⟨r.1, r.2.1, r.2.2, items.length⟩)

/-- Slot computation shared by `find`/`contains`/`at`: read the seed of the
home bucket; a negative seed encodes direct placement at slot `-seed - 1`,
a non-negative seed re-hashes with `seedMix`. -/
def chdPosition (seedMix : Nat → Nat → Nat → Nat) (st : ChdState) (hv : Nat) : Nat :=
  if st.seeds.getD (hv &&& (st.table.length - 1)) 0 < 0 then
    (-(st.seeds.getD (hv &&& (st.table.length - 1)) 0) - 1).toNat
  else
    seedMix (st.seeds.getD (hv &&& (st.table.length - 1)) 0).toNat hv st.table.length

/-- `PerfectHashMap::find`. -/
def ChdState.find (hasher : Nat → Nat) (seedMix : Nat → Nat → Nat → Nat)
    (st : ChdState) (key : Nat) : Option Nat :=
  if st.table.isEmpty then none
  else
    if st.occupied.getD (chdPosition seedMix st (hasher key)) false = true ∧
        (st.table.getD (chdPosition seedMix st (hasher key)) (0, 0)).1 = key then
      some (st.table.getD (chdPosition seedMix st (hasher key)) (0, 0)).2
    else none

/-- `PerfectHashMap::contains`. -/
def ChdState.containsKey (hasher : Nat → Nat) (seedMix : Nat → Nat → Nat → Nat)
    (st : ChdState) (key : Nat) : Bool :=
  if st.table.isEmpty then false
  else
    decide (st.occupied.getD (chdPosition seedMix st (hasher key)) false = true ∧
      (st.table.getD (chdPosition seedMix st (hasher key)) (0, 0)).1 = key)

/-- `PerfectHashMap::at`: a found value or the `std::out_of_range` failure. -/
def ChdState.atKey (hasher : Nat → Nat) (seedMix : Nat → Nat → Nat → Nat)
    (st : ChdState) (key : Nat) : Except Unit Nat :=
  match st.find hasher seedMix key with
  | some v => Except.ok v
  | none => Except.error ()

/-- `PerfectHashMap::size`: the physical table size. -/
def ChdState.sizeOp (st : ChdState) : Nat := st.table.length

/-- `PerfectHashMap::count`: the logical item count. -/
def ChdState.countOp (st : ChdState) : Nat := st.itemCount

/-- `PerfectHashMap::isEmpty`. -/
def ChdState.isEmptyOp (st : ChdState) : Bool := decide (st.itemCount = 0)

end CHD

/-- Fold of `insert` over a list of keys (a finite sequence of insert calls);
`none` propagates a hit fuel bound, which never occurs under the invariant. -/
def RH.insertList (hasher : Nat → Nat) (st : RH.Table) (ks : List Nat) : Option RH.Table :=
  ks.foldl (fun acc k => acc.bind (fun t => (t.insert hasher k).map Prod.snd)) (some st)

/-- Identity hasher, a concrete instantiation of the `Hasher` capability used
by the counterexamples and witnesses. -/
def idHasher : Nat → Nat := fun k => k

/-- Constant hasher, a degenerate but contract-satisfying (pure,
deterministic) instantiation of the `Hasher` capability. -/
def constHasher : Nat → Nat := fun _ => 0

/-- Constant seed-mixing function; it is deterministic and always produces a
value in `[0, tableSize)`, so it satisfies the stated `seedMix` contract. -/
def constMix : Nat → Nat → Nat → Nat := fun _ _ _ => 0

/-- Table obtained by `tryEmplace(0)` then `tryEmplace(32)` on a
default-constructed table under the identity hasher: both keys have home
slot 0, so the second lands in slot 1 after one probe step. -/
def c3State : Option RH.Table :=
  (RH.Table.emptyTable.tryEmplace idHasher 0).bind
    (fun r => (r.2.tryEmplace idHasher 32).map Prod.snd)

/-- Modelled from the spec, fuel-indexed: starting from `cap`, double while
still `≤ n`. -/
def specPow2GtLoop : Nat → Nat → Nat → Nat
  | 0, _, cap => cap
  | fuel + 1, n, cap => if cap ≤ n then specPow2GtLoop fuel n (2 * cap) else cap

/-- Modelled from the spec: the smallest power of two strictly greater than
`n` (start at 1 and double while still `≤ n`; fuel `n + 1` is sufficient). -/
def specPow2Gt (n : Nat) : Nat := specPow2GtLoop (n + 1) n 1

/-- Input batch of five pairwise-distinct keys used by the C7 counterexample. -/
def c7Items : List (Nat × Nat) :=
  [(0, 10), (1, 11), (2, 12), (3, 13), (4, 14)]

/-- Input batch with two equal-hash (under `constHasher`) but distinct keys
used by the C9 counterexample. -/
def c9Items : List (Nat × Nat) := [(0, 0), (1, 1)]

/-- Bucket array produced for `c9Items` under `constHasher` (table size 4,
both items in home bucket 0). -/
def c9Bks : List (List (Nat × Nat)) := [[(0, 0), (1, 0)], [], [], []]

/-- Perfect-hash state built from `c7Items`, used by the C7 witness. -/
def c7Built : CHD.ChdState :=
  match CHD.buildCHD idHasher constMix 10 c7Items with
  | some (Except.ok st) => st
  | _ => CHD.ChdState.emptyMap

/-!
### Theorems

General lemmas about the embedded operations, followed by one theorem per
claim (with witnesses and counterexamples where applicable).
-/

namespace CHD

/-- The duplicate scan reports `true` whenever the remaining keys contain an
internal duplicate or share a key with the already-seen set. -/
theorem dupScan_true (items : List (Nat × Nat)) :
    ∀ seen : List Nat,
      (¬ (items.map Prod.fst).Nodup ∨ ∃ k ∈ items.map Prod.fst, k ∈ seen) →
        dupScan items seen = true := by
  induction items with
  | nil =>
    intro seen h
    rcases h with h | ⟨k, hk, _⟩
    · exact absurd List.nodup_nil h
    · simp at hk
  | cons p rest ih =>
    intro seen h
    rcases p with ⟨k, v⟩
    show (if k ∈ seen then true else dupScan rest (k :: seen)) = true
    by_cases hks : k ∈ seen
    · simp [hks]
    · rw [if_neg hks]
      apply ih
      rcases h with h | ⟨x, hx, hxseen⟩
      · rw [List.map_cons, List.nodup_cons] at h
        push_neg at h
        by_cases hmem : k ∈ rest.map Prod.fst
        · exact Or.inr ⟨k, hmem, List.mem_cons_self k seen⟩
        · exact Or.inl (h hmem)
      · rcases List.mem_cons.mp hx with rfl | hx'
        · exact absurd hxseen hks
        · exact Or.inr ⟨x, hx', List.mem_cons_of_mem k hxseen⟩

/-- Lengths of the table and occupancy arrays are preserved by `placeAll`. -/
theorem placeAll_lengths (items : List (Nat × Nat)) :
    ∀ ps table occ, ((placeAll items ps table occ).1.length = table.length) ∧
      ((placeAll items ps table occ).2.length = occ.length) := by
  intro ps
  induction ps with
  | nil => intro table occ; exact ⟨rfl, rfl⟩
  | cons p rest ih =>
    intro table occ
    rcases p with ⟨i, pos⟩
    have h := ih (table.set pos (items.getD i (0, 0))) (occ.set pos true)
    simpa [placeAll, List.length_set] using h

/-- Lengths of the table and occupancy arrays are preserved by `chdProcess`. -/
theorem chdProcess_lengths (seedMix : Nat → Nat → Nat → Nat) (ts : Nat)
    (items : List (Nat × Nat)) (bks : List (List (Nat × Nat))) (bound : Nat) :
    ∀ l table seeds occ t2 s2 o2,
      chdProcess seedMix ts items bks bound l table seeds occ = some (t2, s2, o2) →
        t2.length = table.length ∧ o2.length = occ.length := by
  intro l
  induction l with
  | nil =>
    intro table seeds occ t2 s2 o2 h
    simp [chdProcess] at h
    obtain ⟨h1, _, h3⟩ := h
    rw [h1, h3]
    exact ⟨rfl, rfl⟩
  | cons p rest ih =>
    intro table seeds occ t2 s2 o2 h
    rcases p with ⟨bIdx, bucket⟩
    by_cases hlen : bucket.length = 1
    · rw [chdProcess, if_pos hlen] at h
      have h2 := ih _ _ _ _ _ _ h
      simpa [List.length_set] using h2
    · rw [chdProcess, if_neg hlen] at h
      rcases hfs : chdFindSeed seedMix ts occ bks bucket bound 1 with _ | ⟨seed, ps⟩
      · rw [hfs] at h; exact absurd h (by simp)
      · rw [hfs] at h
        have hpl := placeAll_lengths items ((bucket.map Prod.fst).zip ps) table occ
        have h2 := ih _ _ _ _ _ _ h
        constructor
        · rw [h2.1, hpl.1]
        · rw [h2.2, hpl.2]

end CHD

/-- Claim C10: on a default-constructed (empty) PerfectHashMap, every query
is total and reports absence: `find` returns null, `contains` is false, `at`
raises the not-found error, `size()` is 0 and `isEmpty()` is true (the empty
guard fires before any array access). -/
theorem C10_empty_perfect_map_total :
    ∀ (hasher : Nat → Nat) (seedMix : Nat → Nat → Nat → Nat) (k : Nat),
      CHD.ChdState.emptyMap.find hasher seedMix k = none ∧
      CHD.ChdState.emptyMap.containsKey hasher seedMix k = false ∧
      CHD.ChdState.emptyMap.atKey hasher seedMix k = Except.error () ∧
      CHD.ChdState.emptyMap.sizeOp = 0 ∧
      CHD.ChdState.emptyMap.isEmptyOp = true := by
  intro hasher seedMix k
  refine ⟨rfl, rfl, ?_, rfl, rfl⟩
  rfl

/-- Claim C8: constructing a PerfectHashMap from a batch containing two keys
equal under KeyEqual raises the duplicate-key construction error, for every
seed-search bound (so before any table work begins: no table state is ever
produced). -/
theorem C8_duplicate_rejection (hasher : Nat → Nat) (seedMix : Nat → Nat → Nat → Nat)
    (bound : Nat) (items : List (Nat × Nat)) (i j : Nat) (hij : i < j)
    (hj : j < items.length)
    (heq : (items.getD i (0, 0)).1 = (items.getD j (0, 0)).1) :
    CHD.buildCHD hasher seedMix bound items = some (Except.error CHD.ChdErr.duplicateKeys) := by
  have hi : i < items.length := Nat.lt_trans hij hj
  have hlen : items.length ≠ 0 := by omega
  have hnodup : ¬ (items.map Prod.fst).Nodup := by
    intro hnd
    have hijne : (items.map Prod.fst).get ⟨i, by simpa using hi⟩ ≠
        (items.map Prod.fst).get ⟨j, by simpa using hj⟩ := by
      intro hcontra
      have := (List.Nodup.get_inj_iff hnd).mp hcontra
      simp only [Fin.mk.injEq] at this
      omega
    apply hijne
    have hgi : (items.map Prod.fst).get ⟨i, by simpa using hi⟩ = (items.getD i (0, 0)).1 := by
      simp [List.getD_eq_getElem?_getD, List.getElem?_eq_getElem hi]
    have hgj : (items.map Prod.fst).get ⟨j, by simpa using hj⟩ = (items.getD j (0, 0)).1 := by
      simp [List.getD_eq_getElem?_getD, List.getElem?_eq_getElem hj]
    rw [hgi, hgj, heq]
  have hscan : CHD.dupScan items [] = true :=
    CHD.dupScan_true items [] (Or.inl hnodup)
  unfold CHD.buildCHD
  rw [if_neg hlen, if_pos hscan]

/-- Witness for C8 at the spec's concrete scenario `[("k",1),("k",2)]`
(keys modelled as the number 7). -/
theorem C8_duplicate_rejection_witness :
    CHD.buildCHD idHasher constMix 5 [(7, 1), (7, 2)] =
      some (Except.error CHD.ChdErr.duplicateKeys) :=
  C8_duplicate_rejection idHasher constMix 5 [(7, 1), (7, 2)] 0 1
    (by decide) (by decide) (by decide)

namespace RH

/-- The doubling loop sends powers of two to powers of two. -/
theorem growPow2Aux_pow (fuel : Nat) :
    ∀ target j, ∃ k, growPow2Aux fuel target (2 ^ j) = 2 ^ k := by
  induction fuel with
  | zero => intro target j; exact ⟨j, rfl⟩
  | succ fuel ih =>
    intro target j
    show ∃ k, (if 2 ^ j < target then growPow2Aux fuel target (2 * 2 ^ j) else 2 ^ j) = 2 ^ k
    by_cases h : 2 ^ j < target
    · rw [if_pos h]
      have h2 : 2 * 2 ^ j = 2 ^ (j + 1) := by rw [Nat.pow_succ, Nat.mul_comm]
      rw [h2]
      exact ih target (j + 1)
    · exact ⟨j, by rw [if_neg h]⟩

/-- The doubling loop reaches the target provided it has enough fuel. -/
theorem growPow2Aux_ge (fuel : Nat) :
    ∀ target cap, 0 < cap → target ≤ 2 ^ fuel * cap →
      target ≤ growPow2Aux fuel target cap := by
  induction fuel with
  | zero =>
    intro target cap _ h
    simpa using h
  | succ fuel ih =>
    intro target cap hpos h
    show target ≤ if cap < target then growPow2Aux fuel target (2 * cap) else cap
    by_cases hc : cap < target
    · rw [if_pos hc]
      apply ih target (2 * cap) (by omega)
      calc target ≤ 2 ^ (fuel + 1) * cap := h
        _ = 2 ^ fuel * (2 * cap) := by ring
    · rw [if_neg hc]; omega

/-- The doubling loop never overshoots a power of two that already meets the
target. -/
theorem growPow2Aux_le (fuel : Nat) :
    ∀ target j m, target ≤ 2 ^ m → j ≤ m →
      growPow2Aux fuel target (2 ^ j) ≤ 2 ^ m := by
  induction fuel with
  | zero =>
    intro target j m _ hjm
    exact Nat.pow_le_pow_right (by omega) hjm
  | succ fuel ih =>
    intro target j m htm hjm
    show (if 2 ^ j < target then growPow2Aux fuel target (2 * 2 ^ j) else 2 ^ j) ≤ 2 ^ m
    by_cases h : 2 ^ j < target
    · rw [if_pos h]
      have hjm' : j < m := by
        by_contra hge
        have : m = j := by omega
        subst this
        omega
      have h2 : 2 * 2 ^ j = 2 ^ (j + 1) := by rw [Nat.pow_succ, Nat.mul_comm]
      rw [h2]
      exact ih target (j + 1) m htm hjm'
    · rw [if_neg h]
      exact Nat.pow_le_pow_right (by omega) hjm

/-- The capacity loop entered at 1 yields a power of two. -/
theorem growPow2_pow (target : Nat) : ∃ k, growPow2 target 1 = 2 ^ k := by
  have h := growPow2Aux_pow target target 0
  simpa [growPow2] using h

/-- The capacity loop entered at 1 reaches the target. -/
theorem growPow2_ge (target : Nat) : target ≤ growPow2 target 1 := by
  have h := growPow2Aux_ge target target 1 (by omega) (by
    have := Nat.lt_two_pow target
    omega)
  simpa [growPow2] using h

/-- The capacity loop entered at 1 is minimal among powers of two meeting the
target. -/
theorem growPow2_min (target m : Nat) (h : target ≤ 2 ^ m) :
    growPow2 target 1 ≤ 2 ^ m := by
  have h2 := growPow2Aux_le target target 0 m h (Nat.zero_le m)
  simpa [growPow2] using h2

end RH

/-- Claim C7 (corrected form): for a non-empty batch whose construction
completes, the physical table size equals twice the smallest power of two
that is `≥ itemCount` (the sizing loop reaches the smallest power of two at
or above `itemCount` and then doubles once) — not the smallest power of two
strictly greater than `itemCount`. -/
theorem C7_sizing (hasher : Nat → Nat) (seedMix : Nat → Nat → Nat → Nat) (bound : Nat)
    (items : List (Nat × Nat)) (st : CHD.ChdState) (hne : items ≠ [])
    (heq : CHD.buildCHD hasher seedMix bound items = some (Except.ok st)) :
    st.sizeOp = 2 * RH.growPow2 items.length 1 ∧
    (∃ k, RH.growPow2 items.length 1 = 2 ^ k) ∧
    items.length ≤ RH.growPow2 items.length 1 ∧
    (∀ m, items.length ≤ 2 ^ m → RH.growPow2 items.length 1 ≤ 2 ^ m) := by
  refine ⟨?_, RH.growPow2_pow items.length, RH.growPow2_ge items.length,
    fun m hm => RH.growPow2_min items.length m hm⟩
  have hlen : ¬ items.length = 0 := by
    intro h0
    exact hne (List.eq_nil_of_length_eq_zero h0)
  unfold CHD.buildCHD at heq
  rw [if_neg hlen] at heq
  by_cases hdup : CHD.dupScan items []
  · rw [if_pos hdup] at heq
    exact absurd (Option.some.inj heq) (by intro h; cases h)
  · rw [if_neg hdup] at heq
    rcases Option.map_eq_some'.mp heq with ⟨r, hr, hok⟩
    rcases r with ⟨t2, s2, o2⟩
    have hlens := CHD.chdProcess_lengths seedMix (CHD.chdTableSize items.length) items
      (CHD.fillBuckets hasher (CHD.chdTableSize items.length) items) bound _ _ _ _ _ _ _ hr
    have hst : st = ⟨t2, s2, o2, items.length⟩ := by
      cases hok
      rfl
    rw [hst]
    show t2.length = 2 * RH.growPow2 items.length 1
    rw [hlens.1, List.length_replicate]
    rfl

/-- Witness for C7 at a concrete completing construction of five items. -/
theorem C7_sizing_witness :
    c7Items ≠ [] ∧ c7Built.sizeOp = 2 * RH.growPow2 c7Items.length 1 :=
  ⟨by decide,
    (C7_sizing idHasher constMix 10 c7Items c7Built (by decide) (by decide)).1⟩

/-- Counterexample for C7 as stated: the batch `c7Items` has five items, its
construction completes with a physical table of 16 slots, but the smallest
power of two strictly greater than 5 is 8. -/
theorem C7_sizing_cex :
    (CHD.buildCHD idHasher constMix 10 c7Items).map (Except.map CHD.ChdState.sizeOp) =
      some (Except.ok 16) ∧
    c7Items.length = 5 ∧ specPow2Gt 5 = 8 ∧ (16 : Nat) ≠ 8 := by
  refine ⟨by decide, by decide, by decide, by decide⟩

/-- Counterexample for C4 as stated: inserting three distinct keys into a
table constructed with explicit capacity 4 (reachable by construction) ends
with `size() = 3` and `capacity() = 4`, and `3 * 100 < 4 * 75` is false —
the strict load-factor inequality does not hold immediately after the call
returns (the doubling happens at the start of the next insert instead). -/
theorem C4_load_factor_cex :
    (RH.insertList idHasher (RH.Table.withCapacity 4) [0, 1, 2]).map
      (fun st => (st.size, st.capacity)) = some (3, 4) ∧
    ¬ (3 * 100 < 4 * 75) := by
  exact ⟨by decide, by decide⟩

/-- Claim C3 (evaluation at the failing input): after `tryEmplace(0)` then
`tryEmplace(32)` on a default-constructed table under an identity hash, the
bucket at position 1 stores key 32 with recorded distance 0, although its
ideal slot `(hash + distance) % capacity` is 0, i.e. one probe step away —
the recorded distance does not equal the actual displacement, the Robin Hood
invariant is broken, and `find(32)` returns null even though 32 is stored in
the table. -/
theorem C3_tryEmplace_invariant_violation :
    c3State.map (fun st => decide ((RH.bAt st 1).key = 32 ∧ (RH.bAt st 1).occupied = true ∧
      (RH.bAt st 1).distance = 0 ∧ ((RH.bAt st 1).hash + (RH.bAt st 1).distance) % st.capacity = 0 ∧
      1 ≠ ((RH.bAt st 1).hash + (RH.bAt st 1).distance) % st.capacity ∧
      st.find idHasher 32 = some none ∧ st.MemKey 32)) = some true := by
  decide

namespace CHD

/-- Under the constant seed-mixing function every seed fails the intra-bucket
collision check for the two-item bucket of `c9Items`: both members map to
slot 0. -/
theorem c9_check_none (seed : Nat) :
    chdCheckSeed Nfx.constMix 4 (List.replicate 4 false) c9Bks seed [(0, 0), (1, 0)] [] =
      none := by
  unfold chdCheckSeed Nfx.constMix
  norm_num [c9Bks]
  unfold chdCheckSeed
  norm_num

/-- The seed search for the two-item bucket of `c9Items` fails at every fuel
bound and every starting seed. -/
theorem c9_findSeed_none :
    ∀ bound seed, chdFindSeed Nfx.constMix 4 (List.replicate 4 false) c9Bks
      [(0, 0), (1, 0)] bound seed = none := by
  intro bound
  induction bound with
  | zero => intro seed; rfl
  | succ bound ih =>
    intro seed
    show (match chdCheckSeed Nfx.constMix 4 (List.replicate 4 false) c9Bks seed
        [(0, 0), (1, 0)] [] with
      | some ps => some (seed, ps)
      | none => chdFindSeed Nfx.constMix 4 (List.replicate 4 false) c9Bks
          [(0, 0), (1, 0)] bound (seed + 1)) = none
    rw [c9_check_none seed]
    exact ih (seed + 1)

/-- A successful seed check at seed `start + d` makes the search from `start`
succeed within fuel `d + 1`. -/
theorem chdFindSeed_of_check (seedMix : Nat → Nat → Nat → Nat) (ts : Nat)
    (occ : List Bool) (bks : List (List (Nat × Nat))) (bucket : List (Nat × Nat)) :
    ∀ d start, (chdCheckSeed seedMix ts occ bks (start + d) bucket []).isSome = true →
      (chdFindSeed seedMix ts occ bks bucket (d + 1) start).isSome = true := by
  intro d
  induction d with
  | zero =>
    intro start h
    show (match chdCheckSeed seedMix ts occ bks start bucket [] with
      | some ps => some (start, ps)
      | none => chdFindSeed seedMix ts occ bks bucket 0 (start + 1)).isSome = true
    rcases hc : chdCheckSeed seedMix ts occ bks start bucket [] with _ | ps
    · rw [Nat.add_zero, hc] at h; exact absurd h (by simp)
    · rfl
  | succ d ih =>
    intro start h
    show (match chdCheckSeed seedMix ts occ bks start bucket [] with
      | some ps => some (start, ps)
      | none => chdFindSeed seedMix ts occ bks bucket (d + 1) (start + 1)).isSome = true
    rcases hc : chdCheckSeed seedMix ts occ bks start bucket [] with _ | ps
    · apply ih (start + 1)
      have : start + 1 + d = start + (d + 1) := by omega
      rw [this]
      exact h
    · rfl

/-- A successful search yields a seed at or above the starting seed whose
check passes. -/
theorem chdFindSeed_to_check (seedMix : Nat → Nat → Nat → Nat) (ts : Nat)
    (occ : List Bool) (bks : List (List (Nat × Nat))) (bucket : List (Nat × Nat)) :
    ∀ bound start, (chdFindSeed seedMix ts occ bks bucket bound start).isSome = true →
      ∃ s, start ≤ s ∧ (chdCheckSeed seedMix ts occ bks s bucket []).isSome = true := by
  intro bound
  induction bound with
  | zero => intro start h; exact absurd h (by simp [chdFindSeed])
  | succ bound ih =>
    intro start h
    have hunf : chdFindSeed seedMix ts occ bks bucket (bound + 1) start =
        match chdCheckSeed seedMix ts occ bks start bucket [] with
        | some ps => some (start, ps)
        | none => chdFindSeed seedMix ts occ bks bucket bound (start + 1) := rfl
    rcases hc : chdCheckSeed seedMix ts occ bks start bucket [] with _ | ps
    · rw [hunf, hc] at h
      rcases ih (start + 1) h with ⟨s, hs, hcs⟩
      exact ⟨s, by omega, hcs⟩
    · exact ⟨start, Nat.le_refl start, by rw [hc]; rfl⟩

end CHD

/-- Counterexample for C9 as stated: `c9Items` is a duplicate-free batch, and
`constHasher`/`constMix` satisfy the stated capability contracts (pure and
deterministic; `constMix` always lands in `[0, tableSize)`), yet the
construction does not terminate: it returns `none` at every seed-search fuel
bound, because both items hash into home bucket 0 and every seed maps them to
the same slot, failing the intra-bucket collision check forever. -/
theorem C9_termination_cex :
    (c9Items.map Prod.fst).Nodup ∧
    (∀ s h, constMix s h (CHD.chdTableSize c9Items.length) < CHD.chdTableSize c9Items.length) ∧
    (∀ bound, CHD.buildCHD constHasher constMix bound c9Items = none) := by
  refine ⟨by decide, ?_, ?_⟩
  · intro s h
    change (0 : Nat) < 4
    decide
  · intro bound
    have hstep : CHD.chdProcess constMix 4 c9Items c9Bks bound [(0, [(0, 0), (1, 0)])]
        (List.replicate 4 (0, 0)) (List.replicate 4 0) (List.replicate 4 false) = none := by
      rw [CHD.chdProcess, if_neg (by decide), CHD.c9_findSeed_none bound 1]
    unfold CHD.buildCHD
    rw [if_neg (by decide), if_neg (by decide)]
    have hts : CHD.chdTableSize c9Items.length = 4 := by decide
    have hfb : CHD.fillBuckets constHasher (CHD.chdTableSize c9Items.length) c9Items =
        c9Bks := by decide
    have hsort : CHD.sortBySizeDesc
        ((CHD.fillBuckets constHasher (CHD.chdTableSize c9Items.length) c9Items).enum.filter
          (fun p => !p.2.isEmpty)) = [(0, [(0, 0), (1, 0)])] := by decide
    rw [hsort, hfb, hts, hstep]
    rfl

/-- Claim C9 (corrected form): the per-bucket seed search of the CHD build
(seeds 1, 2, 3, …) terminates exactly when some seed passes the three
collision checks for that bucket against the current table state; the stated
capability contracts alone do not guarantee that such a seed exists, so the
construction need not terminate. -/
theorem C9_seed_search_terminates_iff (seedMix : Nat → Nat → Nat → Nat) (ts : Nat)
    (occ : List Bool) (bks : List (List (Nat × Nat))) (bucket : List (Nat × Nat)) :
    (∃ bound, (CHD.chdFindSeed seedMix ts occ bks bucket bound 1).isSome = true) ↔
    (∃ s, 1 ≤ s ∧ (CHD.chdCheckSeed seedMix ts occ bks s bucket []).isSome = true) := by
  constructor
  · intro ⟨bound, h⟩
    exact CHD.chdFindSeed_to_check seedMix ts occ bks bucket bound 1 h
  · intro ⟨s, hs, h⟩
    refine ⟨(s - 1) + 1, ?_⟩
    apply CHD.chdFindSeed_of_check seedMix ts occ bks bucket (s - 1) 1
    have heq : 1 + (s - 1) = s := by omega
    rw [heq]
    exact h

namespace RH

/-- Capacity is positive under the slot invariant. -/
theorem SlotInv.cap_pos {hasher : Nat → Nat} {st : Table} (h : SlotInv hasher st) :
    0 < st.capacity := by
  rcases h.cap_pow with ⟨k, hk⟩
  rw [hk]
  exact Nat.pos_pow_of_pos k (by omega)

/-- Masking is reduction modulo the capacity under the slot invariant. -/
theorem SlotInv.land_mask {hasher : Nat → Nat} {st : Table} (h : SlotInv hasher st)
    (x : Nat) : x &&& st.mask = x % st.capacity := by
  rcases h.cap_pow with ⟨k, hk⟩
  rw [h.mask_eq, hk]
  exact Nat.and_pow_two_sub_one_eq_mod x k

/-- Reading an in-bounds position. -/
theorem bAt_eq_getElem {st : Table} {i : Nat} (h : i < st.buckets.length) :
    bAt st i = st.buckets[i] := List.getD_eq_getElem st.buckets Bucket.emptyB h

/-- Reading a just-written position. -/
theorem bAt_setB_self {st : Table} {i : Nat} (h : i < st.buckets.length) (b : Bucket) :
    bAt (setB st i b) i = b := by
  show (st.buckets.set i b).getD i Bucket.emptyB = b
  rw [List.getD_eq_getElem _ _ (by simpa using h)]
  exact List.getElem_set_self (by simpa using h)

/-- Reading an unwritten position. -/
theorem bAt_setB_ne {st : Table} {i : Nat} (j : Nat) (b : Bucket) (hne : i ≠ j) :
    bAt (setB st i b) j = bAt st j := by
  show (st.buckets.set i b).getD j Bucket.emptyB = st.buckets.getD j Bucket.emptyB
  by_cases hj : j < st.buckets.length
  · rw [List.getD_eq_getElem _ _ (by simpa using hj), List.getD_eq_getElem _ _ hj]
    exact List.getElem_set_ne hne _
  · rw [List.getD_eq_default _ _ (by simpa using Nat.le_of_not_lt hj),
      List.getD_eq_default _ _ (Nat.le_of_not_lt hj)]

/-- Structural fields unchanged by a bucket write. -/
theorem setB_fields (st : Table) (i : Nat) (b : Bucket) :
    (setB st i b).capacity = st.capacity ∧ (setB st i b).mask = st.mask ∧
      (setB st i b).size = st.size ∧ (setB st i b).buckets.length = st.buckets.length := by
  refine ⟨rfl, rfl, rfl, ?_⟩
  exact List.length_set st.buckets i b

/-- Additive description of `countP` after a single-position write. -/
theorem countP_set_add (p : Bucket → Bool) :
    ∀ (l : List Bucket) (i : Nat) (a : Bucket), i < l.length →
      (l.set i a).countP p + (if p (l.getD i Bucket.emptyB) then 1 else 0) =
        l.countP p + (if p a then 1 else 0) := by
  intro l
  induction l with
  | nil => intro i a h; simp at h
  | cons x xs ih =>
    intro i a h
    cases i with
    | zero =>
      simp only [List.set_cons_zero, List.getD_cons_zero, List.countP_cons]
      omega
    | succ i =>
      have hi : i < xs.length := by simpa using h
      have h2 := ih i a hi
      simp only [List.set_cons_succ, List.getD_cons_succ, List.countP_cons]
      omega

/-- Occupied-bucket count after writing an occupied bucket over an occupied
slot. -/
theorem occCount_set_occ_occ {st : Table} {i : Nat} {b : Bucket}
    (hlen : i < st.buckets.length) (hold : (bAt st i).occupied = true)
    (hnew : b.occupied = true) : occCount (setB st i b) = occCount st := by
  have h := countP_set_add (fun c => c.occupied) st.buckets i b hlen
  show (st.buckets.set i b).countP (fun c => c.occupied) = _
  simp only [show (st.buckets.getD i Bucket.emptyB) = bAt st i from rfl, hold, hnew] at h
  norm_num at h
  simp only [occCount]
  omega

/-- Occupied-bucket count after writing an occupied bucket over an empty
slot. -/
theorem occCount_set_unocc_occ {st : Table} {i : Nat} {b : Bucket}
    (hlen : i < st.buckets.length) (hold : (bAt st i).occupied = false)
    (hnew : b.occupied = true) : occCount (setB st i b) = occCount st + 1 := by
  have h := countP_set_add (fun c => c.occupied) st.buckets i b hlen
  show (st.buckets.set i b).countP (fun c => c.occupied) = _
  simp only [show (st.buckets.getD i Bucket.emptyB) = bAt st i from rfl, hold, hnew] at h
  norm_num at h
  simp only [occCount]
  omega

/-- Occupied-bucket count after clearing an occupied slot. -/
theorem occCount_set_occ_unocc {st : Table} {i : Nat} {b : Bucket}
    (hlen : i < st.buckets.length) (hold : (bAt st i).occupied = true)
    (hnew : b.occupied = false) : occCount (setB st i b) + 1 = occCount st := by
  have h := countP_set_add (fun c => c.occupied) st.buckets i b hlen
  show (st.buckets.set i b).countP (fun c => c.occupied) + 1 = _
  simp only [show (st.buckets.getD i Bucket.emptyB) = bAt st i from rfl, hold, hnew] at h
  norm_num at h
  simp only [occCount]
  omega

/-- The occupied count is bounded by the number of buckets. -/
theorem occCount_le_len (st : Table) : occCount st ≤ st.buckets.length :=
  List.countP_le_length _

/-- A table with fewer occupied buckets than capacity has an unoccupied
in-range slot. -/
theorem exists_unocc {hasher : Nat → Nat} {st : Table} (hs : SlotInv hasher st)
    (h : occCount st < st.capacity) :
    ∃ e, e < st.capacity ∧ (bAt st e).occupied = false := by
  by_contra hall
  push_neg at hall
  have hcount : st.buckets.countP (fun c => c.occupied) = st.buckets.length := by
    rw [List.countP_eq_length]
    intro a ha
    rcases List.mem_iff_getElem.mp ha with ⟨i, hi, rfl⟩
    have hi' : i < st.capacity := by rw [← hs.len_eq]; exact hi
    have := hall i hi'
    rw [bAt_eq_getElem hi] at this
    simpa using this
  rw [occCount, hcount, hs.len_eq] at h
  omega

/-- Adding a multiple-free positive offset changes the residue. -/
theorem add_mod_ne {c e : Nat} (a : Nat) (h0 : 0 < e) (hlt : e < c) :
    (a + e) % c ≠ a % c := by
  intro heq
  have hmod : a % c = (a + e) % c := heq.symm
  have hdvd : c ∣ (a + e) - a := (Nat.modEq_iff_dvd' (by omega)).mp hmod
  rw [Nat.add_sub_cancel_left] at hdvd
  have := Nat.le_of_dvd h0 hdvd
  omega

/-- The predecessor of the successor position is the position itself. -/
theorem prev_mod_succ {c : Nat} (hc : 0 < c) (x : Nat) :
    ((x + 1) % c + c - 1) % c = x % c := by
  have h1 : (x + 1) % c + c - 1 = (x + 1) % c + (c - 1) := by omega
  rw [h1, Nat.mod_add_mod, show x + 1 + (c - 1) = x + c by omega, Nat.add_mod_right]

/-- Every in-range slot is reachable by some offset below the capacity. -/
theorem exists_offset {c : Nat} (hc : 0 < c) (e h : Nat) (he : e < c) :
    ∃ u, u < c ∧ (h + u) % c = e := by
  have hr : h % c < c := Nat.mod_lt _ hc
  rcases le_or_lt (h % c) e with hle | hgt
  · refine ⟨e - h % c, by omega, ?_⟩
    rw [Nat.add_mod, Nat.mod_eq_of_lt (show e - h % c < c by omega),
      show h % c + (e - h % c) = e by omega]
    exact Nat.mod_eq_of_lt he
  · refine ⟨c + e - h % c, by omega, ?_⟩
    rw [Nat.add_mod, Nat.mod_eq_of_lt (show c + e - h % c < c by omega),
      show h % c + (c + e - h % c) = c + e by omega, Nat.add_mod_left]
    exact Nat.mod_eq_of_lt he

/-- Walking back from an occupied bucket: every probe position between the
ideal slot and the bucket's position is occupied, with recorded distance at
least the probe step.  This is the probe-chain consequence of `chain_ok`. -/
theorem chain_descend {hasher : Nat → Nat} {st : Table} (hs : SlotInv hasher st)
    {j : Nat} (hj : j < st.capacity) (hocc : (bAt st j).occupied = true) :
    ∀ s, s ≤ (bAt st j).distance →
      (bAt st (((bAt st j).hash + s) % st.capacity)).occupied = true ∧
      s ≤ (bAt st (((bAt st j).hash + s) % st.capacity)).distance := by
  have hc : 0 < st.capacity := hs.cap_pos
  have key : ∀ t, t ≤ (bAt st j).distance →
      (bAt st (((bAt st j).hash + ((bAt st j).distance - t)) % st.capacity)).occupied = true ∧
      (bAt st j).distance - t ≤
        (bAt st (((bAt st j).hash + ((bAt st j).distance - t)) % st.capacity)).distance := by
    intro t
    induction t with
    | zero =>
      intro _
      have hpos : j = ((bAt st j).hash + (bAt st j).distance) % st.capacity :=
        hs.dist_ok j hj hocc
      rw [Nat.sub_zero, ← hpos]
      exact ⟨hocc, Nat.le_refl _⟩
    | succ t ih =>
      intro ht
      have ht' : t ≤ (bAt st j).distance := by omega
      rcases ih ht' with ⟨hocc1, hdist1⟩
      set d := (bAt st j).distance with hd
      set h := (bAt st j).hash with hh
      have hs1 : d - t = (d - (t + 1)) + 1 := by omega
      rw [hs1] at hocc1 hdist1
      have hposlt : (h + (d - (t + 1) + 1)) % st.capacity < st.capacity := Nat.mod_lt _ hc
      have hdpos : 0 < (bAt st ((h + (d - (t + 1) + 1)) % st.capacity)).distance := by omega
      have hchain := hs.chain_ok _ hposlt hocc1 hdpos
      have hprev : prevIdx st ((h + (d - (t + 1) + 1)) % st.capacity) =
          (h + (d - (t + 1))) % st.capacity := by
        show ((h + (d - (t + 1) + 1)) % st.capacity + st.capacity - 1) % st.capacity = _
        rw [show h + (d - (t + 1) + 1) = (h + (d - (t + 1))) + 1 by omega]
        exact prev_mod_succ hc (h + (d - (t + 1)))
      rw [hprev] at hchain
      exact ⟨hchain.1, by omega⟩
  intro s hsle
  have h := key ((bAt st j).distance - s) (by omega)
  rw [show (bAt st j).distance - ((bAt st j).distance - s) = s by omega] at h
  exact h

/-- A position strictly before the probe end cannot be the probe end. -/
theorem probe_pos_ne {hasher : Nat → Nat} {st : Table} (hs : SlotInv hasher st)
    {j : Nat} (hj : j < st.capacity) (hocc : (bAt st j).occupied = true)
    {s : Nat} (hlt : s < (bAt st j).distance) :
    ((bAt st j).hash + s) % st.capacity ≠ j := by
  have hc : 0 < st.capacity := hs.cap_pos
  have hdlt : (bAt st j).distance < st.capacity := hs.dist_lt j hj hocc
  have hdok : j = ((bAt st j).hash + (bAt st j).distance) % st.capacity :=
    hs.dist_ok j hj hocc
  intro heq
  have : (((bAt st j).hash + s) + ((bAt st j).distance - s)) % st.capacity ≠
      ((bAt st j).hash + s) % st.capacity :=
    add_mod_ne _ (by omega) (by omega)
  rw [show ((bAt st j).hash + s) + ((bAt st j).distance - s) =
    (bAt st j).hash + (bAt st j).distance by omega] at this
  rw [heq] at this
  exact this hdok.symm

/-- The find loop locates any stored key: if `k` is stored at slot `j`, the
loop started `s` probe steps into the chain returns a pointer to `k`. -/
theorem findLoop_present {hasher : Nat → Nat} {st : Table} (hs : SlotInv hasher st)
    {j k : Nat} (hj : j < st.capacity) (hocc : (bAt st j).occupied = true)
    (hkey : (bAt st j).key = k) :
    ∀ t s fuel, s + t = (bAt st j).distance → t < fuel →
      findLoop st k (hasher k) fuel ((hasher k + s) % st.capacity) s = some (some k) := by
  have hc : 0 < st.capacity := hs.cap_pos
  have hhash : (bAt st j).hash = hasher k := by
    rw [hs.hash_ok j hj hocc, hkey]
  intro t
  induction t with
  | zero =>
    intro s fuel hs0 hfuel
    rcases fuel with _ | fuel
    · omega
    have hsd : s = (bAt st j).distance := by omega
    subst hsd
    have hpj : (hasher k + (bAt st j).distance) % st.capacity = j := by
      rw [← hhash]
      exact (hs.dist_ok j hj hocc).symm
    rw [hpj]
    show (if (bAt st j).occupied = false ∨ (bAt st j).distance > (bAt st j).distance then
        some none
      else if (bAt st j).hash = hasher k ∧ (bAt st j).key = k then some (some (bAt st j).key)
      else findLoop st k (hasher k) fuel ((j + 1) &&& st.mask) ((bAt st j).distance + 1)) =
      some (some k)
    rw [if_neg (by simp [hocc]), if_pos ⟨hhash, hkey⟩, hkey]
  | succ t ih =>
    intro s fuel hst hfuel
    rcases fuel with _ | fuel
    · omega
    have hslt : s < (bAt st j).distance := by omega
    rcases chain_descend hs hj hocc s (by omega) with ⟨hocc2, hdist2⟩
    rw [hhash] at hocc2 hdist2
    have hplt : (hasher k + s) % st.capacity < st.capacity := Nat.mod_lt _ hc
    have hne : (hasher k + s) % st.capacity ≠ j := by
      have h2 := probe_pos_ne hs hj hocc hslt
      rw [hhash] at h2
      exact h2
    have hkne : (bAt st ((hasher k + s) % st.capacity)).key ≠ k := by
      intro hcontra
      exact hs.distinct _ hplt j hj hocc2 hocc hne (by rw [hcontra, hkey])
    show (if (bAt st ((hasher k + s) % st.capacity)).occupied = false ∨
        s > (bAt st ((hasher k + s) % st.capacity)).distance then some none
      else if (bAt st ((hasher k + s) % st.capacity)).hash = hasher k ∧
        (bAt st ((hasher k + s) % st.capacity)).key = k then
        some (some (bAt st ((hasher k + s) % st.capacity)).key)
      else findLoop st k (hasher k) fuel
        (((hasher k + s) % st.capacity + 1) &&& st.mask) (s + 1)) = some (some k)
    rw [if_neg (by simp [hocc2]; omega), if_neg (by intro hand; exact hkne hand.2)]
    have hland : ((hasher k + s) % st.capacity + 1) &&& st.mask =
        (hasher k + (s + 1)) % st.capacity := by
      rw [hs.land_mask, Nat.mod_add_mod, show hasher k + s + 1 = hasher k + (s + 1) by omega]
    rw [hland]
    exact ih (s + 1) fuel (by omega) (by omega)

/-- The find loop reports absence for any key not stored in the table: the
probe distance strictly increases, and every recorded distance is below the
capacity, so the loop exits within `capacity` steps without a match. -/
theorem findLoop_absent {hasher : Nat → Nat} {st : Table} (hs : SlotInv hasher st)
    {k : Nat} (habs : ∀ j, j < st.capacity → (bAt st j).occupied = true →
      (bAt st j).key ≠ k) :
    ∀ t s fuel, s + t = st.capacity → t < fuel →
      findLoop st k (hasher k) fuel ((hasher k + s) % st.capacity) s = some none := by
  have hc : 0 < st.capacity := hs.cap_pos
  intro t
  induction t with
  | zero =>
    intro s fuel hst hfuel
    rcases fuel with _ | fuel
    · omega
    have hplt : (hasher k + s) % st.capacity < st.capacity := Nat.mod_lt _ hc
    show (if (bAt st ((hasher k + s) % st.capacity)).occupied = false ∨
        s > (bAt st ((hasher k + s) % st.capacity)).distance then some none
      else if (bAt st ((hasher k + s) % st.capacity)).hash = hasher k ∧
        (bAt st ((hasher k + s) % st.capacity)).key = k then
        some (some (bAt st ((hasher k + s) % st.capacity)).key)
      else findLoop st k (hasher k) fuel
        (((hasher k + s) % st.capacity + 1) &&& st.mask) (s + 1)) = some none
    by_cases hoc : (bAt st ((hasher k + s) % st.capacity)).occupied = true
    · have hdlt := hs.dist_lt _ hplt hoc
      rw [if_pos (Or.inr (by omega))]
    · rw [if_pos (Or.inl (by revert hoc; cases (bAt st ((hasher k + s) % st.capacity)).occupied <;> simp))]
  | succ t ih =>
    intro s fuel hst hfuel
    rcases fuel with _ | fuel
    · omega
    have hplt : (hasher k + s) % st.capacity < st.capacity := Nat.mod_lt _ hc
    show (if (bAt st ((hasher k + s) % st.capacity)).occupied = false ∨
        s > (bAt st ((hasher k + s) % st.capacity)).distance then some none
      else if (bAt st ((hasher k + s) % st.capacity)).hash = hasher k ∧
        (bAt st ((hasher k + s) % st.capacity)).key = k then
        some (some (bAt st ((hasher k + s) % st.capacity)).key)
      else findLoop st k (hasher k) fuel
        (((hasher k + s) % st.capacity + 1) &&& st.mask) (s + 1)) = some none
    by_cases hoc' : (bAt st ((hasher k + s) % st.capacity)).occupied = true
    · rcases Nat.lt_or_ge (bAt st ((hasher k + s) % st.capacity)).distance s with hds | hds
      · rw [if_pos (Or.inr (by omega))]
      · rw [if_neg (by simp [hoc']; omega),
          if_neg (by intro hand; exact habs _ hplt hoc' hand.2)]
        have hland : ((hasher k + s) % st.capacity + 1) &&& st.mask =
            (hasher k + (s + 1)) % st.capacity := by
          rw [hs.land_mask, Nat.mod_add_mod,
            show hasher k + s + 1 = hasher k + (s + 1) by omega]
        rw [hland]
        exact ih (s + 1) fuel (by omega) (by omega)
    · rw [if_pos (Or.inl (by revert hoc'; cases (bAt st ((hasher k + s) % st.capacity)).occupied <;> simp))]

/-- Specification of `find` on a present key. -/
theorem find_present {hasher : Nat → Nat} {st : Table} (hs : SlotInv hasher st)
    {k : Nat} (hmem : st.MemKey k) : st.find hasher k = some (some k) := by
  rcases hmem with ⟨j, hj, hocc, hkey⟩
  show findLoop st k (hasher k) (st.capacity + 1) (hasher k &&& st.mask) 0 = some (some k)
  rw [hs.land_mask, show hasher k % st.capacity = (hasher k + 0) % st.capacity by
    rw [Nat.add_zero]]
  exact findLoop_present hs hj hocc hkey (bAt st j).distance 0 (st.capacity + 1)
    (by omega) (by have := hs.dist_lt j hj hocc; omega)

/-- Specification of `find` on an absent key. -/
theorem find_absent {hasher : Nat → Nat} {st : Table} (hs : SlotInv hasher st)
    {k : Nat} (habs : ¬ st.MemKey k) : st.find hasher k = some none := by
  show findLoop st k (hasher k) (st.capacity + 1) (hasher k &&& st.mask) 0 = some none
  rw [hs.land_mask, show hasher k % st.capacity = (hasher k + 0) % st.capacity by
    rw [Nat.add_zero]]
  refine findLoop_absent hs ?_ st.capacity 0 (st.capacity + 1) (by omega) (by omega)
  intro j hj hocc hkey
  exact habs ⟨j, hj, hocc, hkey⟩

/-- The first insertion-probe loop reports an existing key: started `s` probe
steps into the chain of a stored key `k`, it returns `found`. -/
theorem insProbe_found {hasher : Nat → Nat} {st : Table} (hs : SlotInv hasher st)
    {j k : Nat} (hj : j < st.capacity) (hocc : (bAt st j).occupied = true)
    (hkey : (bAt st j).key = k) :
    ∀ t s fuel, s + t = (bAt st j).distance → t < fuel →
      insProbe st k (hasher k) fuel ((hasher k + s) % st.capacity) s =
        some ProbeOut.found := by
  have hc : 0 < st.capacity := hs.cap_pos
  have hhash : (bAt st j).hash = hasher k := by rw [hs.hash_ok j hj hocc, hkey]
  intro t
  induction t with
  | zero =>
    intro s fuel hst hfuel
    rcases fuel with _ | fuel
    · omega
    have hsd : s = (bAt st j).distance := by omega
    subst hsd
    have hpj : (hasher k + (bAt st j).distance) % st.capacity = j := by
      rw [← hhash]
      exact (hs.dist_ok j hj hocc).symm
    rw [hpj]
    show (if (bAt st j).occupied = true then
        if (bAt st j).hash = hasher k ∧ (bAt st j).key = k then some ProbeOut.found
        else if (bAt st j).distance > (bAt st j).distance then
          some (ProbeOut.place j (bAt st j).distance)
        else insProbe st k (hasher k) fuel ((j + 1) &&& st.mask) ((bAt st j).distance + 1)
      else some (ProbeOut.place j (bAt st j).distance)) = some ProbeOut.found
    rw [if_pos hocc, if_pos ⟨hhash, hkey⟩]
  | succ t ih =>
    intro s fuel hst hfuel
    rcases fuel with _ | fuel
    · omega
    have hslt : s < (bAt st j).distance := by omega
    rcases chain_descend hs hj hocc s (by omega) with ⟨hocc2, hdist2⟩
    rw [hhash] at hocc2 hdist2
    have hplt : (hasher k + s) % st.capacity < st.capacity := Nat.mod_lt _ hc
    have hne : (hasher k + s) % st.capacity ≠ j := by
      have h2 := probe_pos_ne hs hj hocc hslt
      rw [hhash] at h2
      exact h2
    have hkne : (bAt st ((hasher k + s) % st.capacity)).key ≠ k := by
      intro hcontra
      exact hs.distinct _ hplt j hj hocc2 hocc hne (by rw [hcontra, hkey])
    show (if (bAt st ((hasher k + s) % st.capacity)).occupied = true then
        if (bAt st ((hasher k + s) % st.capacity)).hash = hasher k ∧
          (bAt st ((hasher k + s) % st.capacity)).key = k then some ProbeOut.found
        else if s > (bAt st ((hasher k + s) % st.capacity)).distance then
          some (ProbeOut.place ((hasher k + s) % st.capacity) s)
        else insProbe st k (hasher k) fuel
          (((hasher k + s) % st.capacity + 1) &&& st.mask) (s + 1)
      else some (ProbeOut.place ((hasher k + s) % st.capacity) s)) = some ProbeOut.found
    rw [if_pos hocc2, if_neg (by intro hand; exact hkne hand.2), if_neg (by omega)]
    have hland : ((hasher k + s) % st.capacity + 1) &&& st.mask =
        (hasher k + (s + 1)) % st.capacity := by
      rw [hs.land_mask, Nat.mod_add_mod, show hasher k + s + 1 = hasher k + (s + 1) by omega]
    rw [hland]
    exact ih (s + 1) fuel (by omega) (by omega)

/-- The first insertion-probe loop on an absent key determines a well-formed
insertion point: the returned probe position and distance match, every
earlier chain position is occupied, the predecessor link satisfies the Robin
Hood chain bound, and the loop stopped on an empty slot or a Robin Hood
break. -/
theorem insProbe_place {hasher : Nat → Nat} {st : Table} (hs : SlotInv hasher st)
    {k : Nat}
    (habs : ∀ j, j < st.capacity → (bAt st j).occupied = true → (bAt st j).key ≠ k)
    {e : Nat} (helt : e < st.capacity) (hemp : (bAt st e).occupied = false) :
    ∀ fuel s,
      (∀ u, u < s → (bAt st ((hasher k + u) % st.capacity)).occupied = true) →
      (0 < s → (bAt st (prevIdx st ((hasher k + s) % st.capacity))).occupied = true ∧
        s ≤ (bAt st (prevIdx st ((hasher k + s) % st.capacity))).distance + 1) →
      st.capacity ≤ s + fuel →
      ∃ p d, insProbe st k (hasher k) fuel ((hasher k + s) % st.capacity) s =
          some (ProbeOut.place p d) ∧
        s ≤ d ∧ p = (hasher k + d) % st.capacity ∧
        (∀ u, u < d → (bAt st ((hasher k + u) % st.capacity)).occupied = true) ∧
        (0 < d → (bAt st (prevIdx st p)).occupied = true ∧
          d ≤ (bAt st (prevIdx st p)).distance + 1) ∧
        ((bAt st p).occupied = false ∨ (bAt st p).distance < d) := by
  have hc : 0 < st.capacity := hs.cap_pos
  intro fuel
  induction fuel with
  | zero =>
    intro s hchain _ hfuel
    exfalso
    rcases exists_offset hc e (hasher k) helt with ⟨u, hu, hue⟩
    have := hchain u (by omega)
    rw [hue] at this
    rw [this] at hemp
    cases hemp
  | succ fuel ih =>
    intro s hchain hpre hfuel
    by_cases hoc : (bAt st ((hasher k + s) % st.capacity)).occupied = true
    · have hplt : (hasher k + s) % st.capacity < st.capacity := Nat.mod_lt _ hc
      have hkne : (bAt st ((hasher k + s) % st.capacity)).key ≠ k := habs _ hplt hoc
      show ∃ p d, (if (bAt st ((hasher k + s) % st.capacity)).occupied = true then
          if (bAt st ((hasher k + s) % st.capacity)).hash = hasher k ∧
            (bAt st ((hasher k + s) % st.capacity)).key = k then some ProbeOut.found
          else if s > (bAt st ((hasher k + s) % st.capacity)).distance then
            some (ProbeOut.place ((hasher k + s) % st.capacity) s)
          else insProbe st k (hasher k) fuel
            (((hasher k + s) % st.capacity + 1) &&& st.mask) (s + 1)
        else some (ProbeOut.place ((hasher k + s) % st.capacity) s)) =
          some (ProbeOut.place p d) ∧ _
      rw [if_pos hoc, if_neg (by intro hand; exact hkne hand.2)]
      by_cases hbreak : s > (bAt st ((hasher k + s) % st.capacity)).distance
      · rw [if_pos hbreak]
        exact ⟨(hasher k + s) % st.capacity, s, rfl, Nat.le_refl s, rfl, hchain, hpre,
          Or.inr (by omega)⟩
      · rw [if_neg hbreak]
        have hland : ((hasher k + s) % st.capacity + 1) &&& st.mask =
            (hasher k + (s + 1)) % st.capacity := by
          rw [hs.land_mask, Nat.mod_add_mod,
            show hasher k + s + 1 = hasher k + (s + 1) by omega]
        rw [hland]
        have hchain' : ∀ u, u < s + 1 →
            (bAt st ((hasher k + u) % st.capacity)).occupied = true := by
          intro u hu
          rcases Nat.lt_or_ge u s with h2 | h2
          · exact hchain u h2
          · have : u = s := by omega
            subst this
            exact hoc
        have hpre' : 0 < s + 1 →
            (bAt st (prevIdx st ((hasher k + (s + 1)) % st.capacity))).occupied = true ∧
            s + 1 ≤ (bAt st (prevIdx st ((hasher k + (s + 1)) % st.capacity))).distance + 1 := by
          intro _
          have hprev : prevIdx st ((hasher k + (s + 1)) % st.capacity) =
              (hasher k + s) % st.capacity := by
            show ((hasher k + (s + 1)) % st.capacity + st.capacity - 1) % st.capacity = _
            rw [show hasher k + (s + 1) = (hasher k + s) + 1 by omega]
            exact prev_mod_succ hc (hasher k + s)
          rw [hprev]
          exact ⟨hoc, by omega⟩
        rcases ih (s + 1) hchain' hpre' (by omega) with
          ⟨p, d, hrun, hd, hp, hch, hpr, hstop⟩
        exact ⟨p, d, hrun, by omega, hp, hch, hpr, hstop⟩
    · show ∃ p d, (if (bAt st ((hasher k + s) % st.capacity)).occupied = true then
          if (bAt st ((hasher k + s) % st.capacity)).hash = hasher k ∧
            (bAt st ((hasher k + s) % st.capacity)).key = k then some ProbeOut.found
          else if s > (bAt st ((hasher k + s) % st.capacity)).distance then
            some (ProbeOut.place ((hasher k + s) % st.capacity) s)
          else insProbe st k (hasher k) fuel
            (((hasher k + s) % st.capacity + 1) &&& st.mask) (s + 1)
        else some (ProbeOut.place ((hasher k + s) % st.capacity) s)) =
          some (ProbeOut.place p d) ∧ _
      rw [if_neg hoc]
      exact ⟨(hasher k + s) % st.capacity, s, rfl, Nat.le_refl s, rfl, hchain, hpre,
        Or.inl (by revert hoc; cases (bAt st ((hasher k + s) % st.capacity)).occupied <;> simp)⟩

/-- Membership split at an occupied slot. -/
theorem memKey_iff_except {st : Table} {pos : Nat} (hpos : pos < st.capacity)
    (hocc : (bAt st pos).occupied = true) (k : Nat) :
    st.MemKey k ↔ st.MemExcept pos k ∨ k = (bAt st pos).key := by
  constructor
  · intro ⟨i, hi, hocci, hkeyi⟩
    by_cases hip : i = pos
    · subst hip
      exact Or.inr hkeyi.symm
    · exact Or.inl ⟨i, hi, hip, hocci, hkeyi⟩
  · intro h
    rcases h with ⟨i, hi, _, hocci, hkeyi⟩ | hk
    · exact ⟨i, hi, hocci, hkeyi⟩
    · exact ⟨pos, hpos, hocc, hk.symm⟩

/-- Membership after overwriting a slot with an occupied bucket. -/
theorem memKey_setB_iff {st : Table} {pos : Nat} (hlen : pos < st.buckets.length)
    (hcap : pos < st.capacity) {b : Bucket} (hb : b.occupied = true) (k : Nat) :
    (setB st pos b).MemKey k ↔ st.MemExcept pos k ∨ k = b.key := by
  constructor
  · intro ⟨i, hi, hocci, hkeyi⟩
    by_cases hip : i = pos
    · subst hip
      rw [bAt_setB_self hlen] at hkeyi
      exact Or.inr hkeyi.symm
    · rw [bAt_setB_ne i b (fun h => hip h.symm)] at hocci hkeyi
      exact Or.inl ⟨i, hi, hip, hocci, hkeyi⟩
  · intro h
    rcases h with ⟨i, hi, hip, hocci, hkeyi⟩ | hk
    · refine ⟨i, hi, ?_, ?_⟩ <;>
        rw [show bAt (setB st pos b) i = bAt st i from
          bAt_setB_ne i b (fun h => hip h.symm)]
      · exact hocci
      · exact hkeyi
    · refine ⟨pos, hcap, ?_, ?_⟩
      · rw [bAt_setB_self hlen]; exact hb
      · rw [bAt_setB_self hlen]; exact hk.symm

/-- Placing the carried candidate at an unoccupied slot preserves the
slot-level invariant, adds one occupied bucket, and adds exactly the
candidate's key. -/
theorem disp_place_post {hasher : Nat → Nat} {st : Table} {pos : Nat} {nb : Bucket}
    (hci : CandInv hasher st pos nb) (hemp : (bAt st pos).occupied = false)
    (hdlt : nb.distance < st.capacity) :
    SlotInv hasher (setB st pos nb) ∧
    occCount (setB st pos nb) = occCount st + 1 ∧
    (∀ k, (setB st pos nb).MemKey k ↔ st.MemKey k ∨ k = nb.key) := by
  have hs := hci.slots
  have hc : 0 < st.capacity := hs.cap_pos
  have hpos : pos < st.capacity := by
    rw [hci.nb_pos]
    exact Nat.mod_lt _ hc
  have hlen : pos < st.buckets.length := by rw [hs.len_eq]; exact hpos
  have hAtSelf : bAt (setB st pos nb) pos = nb := bAt_setB_self hlen nb
  have hAtNe : ∀ i, i ≠ pos → bAt (setB st pos nb) i = bAt st i := by
    intro i hip
    exact bAt_setB_ne i nb (fun h => hip h.symm)
  have hPrevEq : ∀ i, prevIdx (setB st pos nb) i = prevIdx st i := fun _ => rfl
  refine ⟨⟨hs.cap_pow, hs.mask_eq, ?_, ?_, ?_, ?_, ?_, ?_⟩, ?_, ?_⟩
  · show (st.buckets.set pos nb).length = st.capacity
    rw [List.length_set]
    exact hs.len_eq
  · intro i hi hocci
    by_cases hip : i = pos
    · subst hip
      rw [hAtSelf]
      exact hci.nb_hash
    · rw [hAtNe i hip] at hocci ⊢
      exact hs.hash_ok i hi hocci
  · intro i hi hocci
    by_cases hip : i = pos
    · subst hip
      rw [hAtSelf]
      exact hdlt
    · rw [hAtNe i hip] at hocci ⊢
      exact hs.dist_lt i hi hocci
  · intro i hi hocci
    by_cases hip : i = pos
    · subst hip
      rw [hAtSelf]
      exact hci.nb_pos
    · rw [hAtNe i hip] at hocci ⊢
      exact hs.dist_ok i hi hocci
  · intro i hi hocci hdisti
    by_cases hip : i = pos
    · subst hip
      rw [hAtSelf] at hdisti ⊢
      rcases hci.nb_chain hdisti with ⟨hpocc, hpdist⟩
      by_cases hpp : prevIdx st i = i
      · rw [hpp] at hpocc
        rw [hpocc] at hemp
        cases hemp
      · rw [hPrevEq, hAtNe _ hpp]
        exact ⟨hpocc, hpdist⟩
    · rw [hAtNe i hip] at hocci hdisti ⊢
      by_cases hpp' : prevIdx st i = pos
      · exfalso
        rcases hs.chain_ok i hi hocci hdisti with ⟨hpocc, _⟩
        rw [hpp', hemp] at hpocc
        cases hpocc
      · rw [hPrevEq, hAtNe _ hpp']
        exact hs.chain_ok i hi hocci hdisti
  · intro i hi j hj hocci hoccj hne
    by_cases hip : i = pos
    · subst hip
      have hjp : j ≠ i := fun h => hne h.symm
      rw [hAtSelf]
      rw [hAtNe j hjp] at hoccj ⊢
      intro hcontra
      exact hci.nb_fresh j hj hoccj hcontra.symm
    · rw [hAtNe i hip] at hocci ⊢
      by_cases hjp : j = pos
      · subst hjp
        rw [hAtSelf]
        exact hci.nb_fresh i hi hocci
      · rw [hAtNe j hjp] at hoccj ⊢
        exact hs.distinct i hi j hj hocci hoccj hne
  · exact occCount_set_unocc_occ hlen hemp hci.nb_occ
  · intro k
    rw [memKey_setB_iff hlen hpos hci.nb_occ k]
    constructor
    · intro h
      rcases h with ⟨i, hi, _, hocci, hkeyi⟩ | hk
      · exact Or.inl ⟨i, hi, hocci, hkeyi⟩
      · exact Or.inr hk
    · intro h
      rcases h with ⟨i, hi, hocci, hkeyi⟩ | hk
      · by_cases hip : i = pos
        · subst hip
          rw [hemp] at hocci
          cases hocci
        · exact Or.inl ⟨i, hi, hip, hocci, hkeyi⟩
      · exact Or.inr hk

/-- Predecessor of a distinct position at capacity at least 2. -/
theorem prevIdx_ne_self {st : Table} (hcap2 : 2 ≤ st.capacity) {pos : Nat}
    (hpos : pos < st.capacity) : prevIdx st pos ≠ pos := by
  show (pos + st.capacity - 1) % st.capacity ≠ pos
  rw [show pos + st.capacity - 1 = pos + (st.capacity - 1) by omega]
  intro h
  have h2 : (pos + (st.capacity - 1)) % st.capacity ≠ pos % st.capacity :=
    add_mod_ne pos (by omega) (by omega)
  rw [Nat.mod_eq_of_lt hpos] at h2
  exact h2 h

/-- A Robin Hood swap step preserves the displacement-loop invariant: the
incoming bucket replaces the resident, and the evicted resident becomes the
carried candidate one step further with incremented distance. -/
theorem disp_swap_step {hasher : Nat → Nat} {st : Table} {pos : Nat} {nb : Bucket}
    (hci : CandInv hasher st pos nb) (hoc : (bAt st pos).occupied = true)
    (hsw : nb.distance > (bAt st pos).distance) (hdlt : nb.distance < st.capacity)
    (hcap2 : 2 ≤ st.capacity) :
    CandInv hasher (setB st pos nb) ((pos + 1) % st.capacity)
      { bAt st pos with distance := (bAt st pos).distance + 1 } ∧
    occCount (setB st pos nb) = occCount st := by
  have hs := hci.slots
  have hc : 0 < st.capacity := hs.cap_pos
  have hpos : pos < st.capacity := by
    rw [hci.nb_pos]
    exact Nat.mod_lt _ hc
  have hlen : pos < st.buckets.length := by rw [hs.len_eq]; exact hpos
  have hAtSelf : bAt (setB st pos nb) pos = nb := bAt_setB_self hlen nb
  have hAtNe : ∀ i, i ≠ pos → bAt (setB st pos nb) i = bAt st i := by
    intro i hip
    exact bAt_setB_ne i nb (fun h => hip h.symm)
  have hPrevEq : ∀ i, prevIdx (setB st pos nb) i = prevIdx st i := fun _ => rfl
  have hprevne : prevIdx st pos ≠ pos := prevIdx_ne_self hcap2 hpos
  refine ⟨⟨⟨hs.cap_pow, hs.mask_eq, ?_, ?_, ?_, ?_, ?_, ?_⟩, ?_, ?_, ?_, ?_, ?_⟩, ?_⟩
  · show (st.buckets.set pos nb).length = st.capacity
    rw [List.length_set]
    exact hs.len_eq
  · intro i hi hocci
    by_cases hip : i = pos
    · subst hip
      rw [hAtSelf]
      exact hci.nb_hash
    · rw [hAtNe i hip] at hocci ⊢
      exact hs.hash_ok i hi hocci
  · intro i hi hocci
    by_cases hip : i = pos
    · subst hip
      rw [hAtSelf]
      exact hdlt
    · rw [hAtNe i hip] at hocci ⊢
      exact hs.dist_lt i hi hocci
  · intro i hi hocci
    by_cases hip : i = pos
    · subst hip
      rw [hAtSelf]
      exact hci.nb_pos
    · rw [hAtNe i hip] at hocci ⊢
      exact hs.dist_ok i hi hocci
  · intro i hi hocci hdisti
    by_cases hip : i = pos
    · subst hip
      rw [hAtSelf] at hdisti ⊢
      rcases hci.nb_chain hdisti with ⟨hpocc, hpdist⟩
      rw [hPrevEq, hAtNe _ (prevIdx_ne_self hcap2 hi)]
      exact ⟨hpocc, hpdist⟩
    · rw [hAtNe i hip] at hocci hdisti ⊢
      rcases hs.chain_ok i hi hocci hdisti with ⟨hpocc, hpdist⟩
      by_cases hpp : prevIdx st i = pos
      · rw [hPrevEq, hpp, hAtSelf]
        rw [hpp] at hpdist
        exact ⟨hci.nb_occ, by omega⟩
      · rw [hPrevEq, hAtNe _ hpp]
        exact ⟨hpocc, hpdist⟩
  · intro i hi j hj hocci hoccj hne
    by_cases hip : i = pos
    · subst hip
      have hjp : j ≠ i := fun h => hne h.symm
      rw [hAtSelf]
      rw [hAtNe j hjp] at hoccj ⊢
      intro hcontra
      exact hci.nb_fresh j hj hoccj hcontra.symm
    · rw [hAtNe i hip] at hocci ⊢
      by_cases hjp : j = pos
      · subst hjp
        rw [hAtSelf]
        exact hci.nb_fresh i hi hocci
      · rw [hAtNe j hjp] at hoccj ⊢
        exact hs.distinct i hi j hj hocci hoccj hne
  · show ({ bAt st pos with distance := (bAt st pos).distance + 1 }).occupied = true
    exact hoc
  · show (bAt st pos).hash = hasher (bAt st pos).key
    exact hs.hash_ok pos hpos hoc
  · show (pos + 1) % st.capacity =
      ((bAt st pos).hash + ((bAt st pos).distance + 1)) % (setB st pos nb).capacity
    show (pos + 1) % st.capacity =
      ((bAt st pos).hash + ((bAt st pos).distance + 1)) % st.capacity
    conv_lhs => rw [hs.dist_ok pos hpos hoc]
    rw [Nat.mod_add_mod,
      show (bAt st pos).hash + (bAt st pos).distance + 1 =
        (bAt st pos).hash + ((bAt st pos).distance + 1) by omega]
  · intro i hi hocci
    by_cases hip : i = pos
    · subst hip
      rw [hAtSelf]
      intro hcontra
      exact hci.nb_fresh i hi hoc hcontra.symm
    · rw [hAtNe i hip] at hocci ⊢
      exact hs.distinct i hi pos hpos hocci hoc hip
  · intro _
    have hprev1 : prevIdx (setB st pos nb) ((pos + 1) % st.capacity) = pos := by
      show ((pos + 1) % st.capacity + st.capacity - 1) % st.capacity = pos
      rw [prev_mod_succ hc pos]
      exact Nat.mod_eq_of_lt hpos
    rw [hprev1, hAtSelf]
    refine ⟨hci.nb_occ, ?_⟩
    show (bAt st pos).distance + 1 ≤ nb.distance + 1
    omega
  · exact occCount_set_occ_occ hlen hoc hci.nb_occ

/-- A no-swap displacement step preserves the loop invariant: the carried
candidate advances one slot with incremented distance. -/
theorem disp_noswap_step {hasher : Nat → Nat} {st : Table} {pos : Nat} {nb : Bucket}
    (hci : CandInv hasher st pos nb) (hoc : (bAt st pos).occupied = true)
    (hnsw : ¬ nb.distance > (bAt st pos).distance) :
    CandInv hasher st ((pos + 1) % st.capacity) { nb with distance := nb.distance + 1 } := by
  have hs := hci.slots
  have hc : 0 < st.capacity := hs.cap_pos
  have hpos : pos < st.capacity := by
    rw [hci.nb_pos]
    exact Nat.mod_lt _ hc
  refine ⟨hs, hci.nb_occ, hci.nb_hash, ?_, hci.nb_fresh, ?_⟩
  · show (pos + 1) % st.capacity = (nb.hash + (nb.distance + 1)) % st.capacity
    conv_lhs => rw [hci.nb_pos]
    rw [Nat.mod_add_mod,
      show nb.hash + nb.distance + 1 = nb.hash + (nb.distance + 1) by omega]
  · intro _
    have hprev1 : prevIdx st ((pos + 1) % st.capacity) = pos := by
      show ((pos + 1) % st.capacity + st.capacity - 1) % st.capacity = pos
      rw [prev_mod_succ hc pos]
      exact Nat.mod_eq_of_lt hpos
    rw [hprev1]
    refine ⟨hoc, ?_⟩
    show nb.distance + 1 ≤ (bAt st pos).distance + 1
    omega

/-- Run of the Robin Hood displacement loop: with an unoccupied slot `m`
steps ahead and enough fuel, the loop terminates, preserves the slot-level
invariant, adds one occupied bucket, and adds exactly the candidate's key;
the structural fields are unchanged. -/
theorem dispLoop_run {hasher : Nat → Nat} :
    ∀ (m : Nat) (st : Table) (pos : Nat) (nb : Bucket),
      CandInv hasher st pos nb →
      (bAt st ((pos + m) % st.capacity)).occupied = false →
      nb.distance + m < st.capacity →
      ∀ fuel, m < fuel →
      ∃ st2, dispLoop fuel st pos nb = some st2 ∧
        SlotInv hasher st2 ∧
        occCount st2 = occCount st + 1 ∧
        (∀ k, st2.MemKey k ↔ st.MemKey k ∨ k = nb.key) ∧
        st2.capacity = st.capacity ∧ st2.mask = st.mask ∧ st2.size = st.size ∧
        st2.buckets.length = st.buckets.length := by
  intro m
  induction m with
  | zero =>
    intro st pos nb hci hemp hbound fuel hfuel
    have hs := hci.slots
    have hc : 0 < st.capacity := hs.cap_pos
    have hpos : pos < st.capacity := by
      rw [hci.nb_pos]
      exact Nat.mod_lt _ hc
    rw [Nat.add_zero, Nat.mod_eq_of_lt hpos] at hemp
    rcases fuel with _ | fuel
    · omega
    rcases disp_place_post hci hemp (by omega) with ⟨hslot, hcount, hmem⟩
    refine ⟨setB st pos nb, ?_, hslot, hcount, hmem, rfl, rfl, rfl, List.length_set _ _ _⟩
    show (if (bAt st pos).occupied = true then
        if nb.distance > (bAt st pos).distance then
          dispLoop fuel (setB st pos nb) ((pos + 1) &&& st.mask)
            { bAt st pos with distance := (bAt st pos).distance + 1 }
        else dispLoop fuel st ((pos + 1) &&& st.mask)
          { nb with distance := nb.distance + 1 }
      else some (setB st pos nb)) = some (setB st pos nb)
    rw [if_neg (by rw [hemp]; simp)]
  | succ m ih =>
    intro st pos nb hci hemp hbound fuel hfuel
    have hs := hci.slots
    have hc : 0 < st.capacity := hs.cap_pos
    have hpos : pos < st.capacity := by
      rw [hci.nb_pos]
      exact Nat.mod_lt _ hc
    rcases fuel with _ | fuel
    · omega
    by_cases hoc : (bAt st pos).occupied = true
    · have hcap2 : 2 ≤ st.capacity := by
        by_contra hlt
        push_neg at hlt
        have hcap1 : st.capacity = 1 := by omega
        have hpos0 : pos = 0 := by omega
        rw [hcap1, Nat.mod_one] at hemp
        rw [hpos0] at hoc
        rw [hemp] at hoc
        cases hoc
      have hland : (pos + 1) &&& st.mask = (pos + 1) % st.capacity := hs.land_mask _
      have hslotne : (pos + (m + 1)) % st.capacity ≠ pos := by
        intro h
        have h2 : (pos + (m + 1)) % st.capacity ≠ pos % st.capacity :=
          add_mod_ne pos (by omega) (by omega)
        rw [Nat.mod_eq_of_lt hpos] at h2
        exact h2 h
      have hshift : ∀ stx : Table, stx.capacity = st.capacity →
          ((pos + 1) % st.capacity + m) % st.capacity = (pos + (m + 1)) % st.capacity := by
        intro _ _
        rw [Nat.mod_add_mod, show pos + 1 + m = pos + (m + 1) by omega]
      by_cases hsw : nb.distance > (bAt st pos).distance
      · rcases disp_swap_step hci hoc hsw (by omega) hcap2 with ⟨hci1, hcount1⟩
        have hemp1 : (bAt (setB st pos nb)
            (((pos + 1) % st.capacity + m) % (setB st pos nb).capacity)).occupied = false := by
          show (bAt (setB st pos nb)
            (((pos + 1) % st.capacity + m) % st.capacity)).occupied = false
          rw [hshift st rfl, bAt_setB_ne _ nb (fun h => hslotne h.symm)]
          exact hemp
        have hbound1 : ({ bAt st pos with distance := (bAt st pos).distance + 1 }).distance
            + m < (setB st pos nb).capacity := by
          show (bAt st pos).distance + 1 + m < st.capacity
          omega
        rcases ih (setB st pos nb) ((pos + 1) % st.capacity)
            { bAt st pos with distance := (bAt st pos).distance + 1 }
            hci1 hemp1 hbound1 fuel (by omega) with
          ⟨st2, hrun, hslot2, hcount2, hmem2, hcap2', hmask2, hsize2, hlen2⟩
        refine ⟨st2, ?_, hslot2, ?_, ?_, ?_, ?_, ?_, ?_⟩
        · show (if (bAt st pos).occupied = true then
              if nb.distance > (bAt st pos).distance then
                dispLoop fuel (setB st pos nb) ((pos + 1) &&& st.mask)
                  { bAt st pos with distance := (bAt st pos).distance + 1 }
              else dispLoop fuel st ((pos + 1) &&& st.mask)
                { nb with distance := nb.distance + 1 }
            else some (setB st pos nb)) = some st2
          rw [if_pos hoc, if_pos hsw, hland]
          exact hrun
        · rw [hcount2, hcount1]
        · intro k
          have hlenpos : pos < st.buckets.length := by rw [hs.len_eq]; exact hpos
          have hkey1 : ({ bAt st pos with
              distance := (bAt st pos).distance + 1 } : Bucket).key = (bAt st pos).key := rfl
          rw [hmem2 k, hkey1, memKey_setB_iff hlenpos hpos hci.nb_occ k,
            memKey_iff_except hpos hoc k]
          tauto
        · rw [hcap2']; rfl
        · rw [hmask2]; rfl
        · rw [hsize2]; rfl
        · rw [hlen2]
          exact List.length_set _ _ _
      · have hci1 := disp_noswap_step hci hoc hsw
        have hemp1 : (bAt st
            (((pos + 1) % st.capacity + m) % st.capacity)).occupied = false := by
          rw [hshift st rfl]
          exact hemp
        have hbound1 : ({ nb with distance := nb.distance + 1 }).distance + m <
            st.capacity := by
          show nb.distance + 1 + m < st.capacity
          omega
        rcases ih st ((pos + 1) % st.capacity) { nb with distance := nb.distance + 1 }
            hci1 hemp1 hbound1 fuel (by omega) with
          ⟨st2, hrun, hslot2, hcount2, hmem2, hcap2', hmask2, hsize2, hlen2⟩
        refine ⟨st2, ?_, hslot2, hcount2, ?_, hcap2', hmask2, hsize2, hlen2⟩
        · show (if (bAt st pos).occupied = true then
              if nb.distance > (bAt st pos).distance then
                dispLoop fuel (setB st pos nb) ((pos + 1) &&& st.mask)
                  { bAt st pos with distance := (bAt st pos).distance + 1 }
              else dispLoop fuel st ((pos + 1) &&& st.mask)
                { nb with distance := nb.distance + 1 }
            else some (setB st pos nb)) = some st2
          rw [if_pos hoc, if_neg hsw, hland]
          exact hrun
        · intro k
          have hkey1 : ({ nb with distance := nb.distance + 1 } : Bucket).key = nb.key := rfl
          rw [hmem2 k, hkey1]
    · have hemp0 : (bAt st pos).occupied = false := by
        revert hoc
        cases (bAt st pos).occupied <;> simp
      rcases disp_place_post hci hemp0 (by omega) with ⟨hslot, hcount, hmem⟩
      refine ⟨setB st pos nb, ?_, hslot, hcount, hmem, rfl, rfl, rfl, List.length_set _ _ _⟩
      show (if (bAt st pos).occupied = true then
          if nb.distance > (bAt st pos).distance then
            dispLoop fuel (setB st pos nb) ((pos + 1) &&& st.mask)
              { bAt st pos with distance := (bAt st pos).distance + 1 }
          else dispLoop fuel st ((pos + 1) &&& st.mask)
            { nb with distance := nb.distance + 1 }
        else some (setB st pos nb)) = some (setB st pos nb)
      rw [if_neg (by rw [hemp0]; simp)]

/-- The slot-level invariant ignores the `size` field. -/
theorem SlotInv.incSizeInv {hasher : Nat → Nat} {x : Table} (h : SlotInv hasher x) :
    SlotInv hasher (incSize x) :=
  ⟨h.cap_pow, h.mask_eq, h.len_eq, h.hash_ok, h.dist_lt, h.dist_ok, h.chain_ok, h.distinct⟩

/-- Specification of the `insertInternal` body (given room in the table): it
terminates, preserves the slot-level invariant and size accounting, returns
`true` exactly for a fresh key, adds exactly that key, leaves capacity and
mask unchanged, and increments `m_size` exactly on a fresh key. -/
theorem insertCore_spec {hasher : Nat → Nat} {st : Table} (k : Nat)
    (hinv : Inv hasher st) (hroom : occCount st < st.capacity) :
    ∃ b st2, insertCore hasher st k = some (b, st2) ∧
      SlotInv hasher st2 ∧ st2.size = occCount st2 ∧
      ((b = true) ↔ ¬ st.MemKey k) ∧
      (∀ k', st2.MemKey k' ↔ st.MemKey k' ∨ (b = true ∧ k' = k)) ∧
      st2.capacity = st.capacity ∧ st2.mask = st.mask ∧
      st2.size = st.size + (if b then 1 else 0) := by
  have hs := hinv.slots
  have hc : 0 < st.capacity := hs.cap_pos
  have hh : hasher k &&& st.mask = (hasher k + 0) % st.capacity := by
    rw [hs.land_mask, Nat.add_zero]
  have hhomelt : (hasher k + 0) % st.capacity < st.capacity := Nat.mod_lt _ hc
  by_cases hocc0 : (bAt st ((hasher k + 0) % st.capacity)).occupied = true
  · -- home slot occupied: first probe loop runs
    by_cases hmem : st.MemKey k
    · -- existing key: the probe loop finds it and insertInternal returns false
      rcases hmem with ⟨j, hj, hjocc, hjkey⟩
      have hfound := insProbe_found hs hj hjocc hjkey (bAt st j).distance 0 st.capacity
        (by omega) (hs.dist_lt j hj hjocc)
      refine ⟨false, st, ?_, hs, hinv.size_eq, ?_, ?_, rfl, rfl, by simp⟩
      · unfold insertCore
        rw [hh, if_neg (by rw [hocc0]; simp), hfound]
      · simp
        exact ⟨j, hj, hjocc, hjkey⟩
      · intro k'
        simp
    · -- fresh key: probe to the insertion point, then displacement loop
      have habs : ∀ j, j < st.capacity → (bAt st j).occupied = true →
          (bAt st j).key ≠ k := by
        intro j hj hjocc hjkey
        exact hmem ⟨j, hj, hjocc, hjkey⟩
      rcases exists_unocc hs hroom with ⟨e, helt, hemp⟩
      rcases insProbe_place hs habs helt hemp st.capacity 0 (by omega) (by omega)
          (by omega) with ⟨p, d, hrun, _, hp, hch, hpr, _⟩
      have hci : CandInv hasher st p ⟨k, hasher k, d, true⟩ := by
        refine ⟨hs, rfl, rfl, ?_, ?_, ?_⟩
        · show p = (hasher k + d) % st.capacity
          exact hp
        · intro i hi hocci
          exact habs i hi hocci
        · intro hd
          exact hpr hd
      rcases exists_offset hc e (hasher k) helt with ⟨u0, hu0, hu0e⟩
      have hu0d : d ≤ u0 := by
        by_contra hlt
        push_neg at hlt
        have := hch u0 hlt
        rw [hu0e] at this
        rw [this] at hemp
        cases hemp
      have hempm : (bAt st ((p + (u0 - d)) % st.capacity)).occupied = false := by
        rw [hp, Nat.mod_add_mod, show hasher k + d + (u0 - d) = hasher k + u0 by omega,
          hu0e]
        exact hemp
      have hboundm : (⟨k, hasher k, d, true⟩ : Bucket).distance + (u0 - d) <
          st.capacity := by
        show d + (u0 - d) < st.capacity
        omega
      rcases dispLoop_run (u0 - d) st p ⟨k, hasher k, d, true⟩ hci hempm hboundm
          st.capacity (by omega) with
        ⟨st2, hdisp, hslot2, hcount2, hmem2, hcap2, hmask2, hsize2, _⟩
      refine ⟨true, incSize st2, ?_, ?_, ?_, ?_, ?_, ?_, ?_, ?_⟩
      · unfold insertCore
        rw [hh, if_neg (by rw [hocc0]; simp), hrun]
        show Option.map (fun st3 => (true, incSize st3))
          (dispLoop st.capacity st p ⟨k, hasher k, d, true⟩) = some (true, incSize st2)
        rw [hdisp]
        rfl
      · exact hslot2.incSizeInv
      · show st2.size + 1 = occCount (incSize st2)
        show st2.size + 1 = occCount st2
        rw [hsize2, hcount2, hinv.size_eq]
      · simp [hmem]
      · intro k'
        rw [show (incSize st2).MemKey k' = st2.MemKey k' from rfl, hmem2 k']
        simp
      · show st2.capacity = st.capacity
        exact hcap2
      · show st2.mask = st.mask
        exact hmask2
      · show st2.size + 1 = st.size + 1
        rw [hsize2]
  · -- home slot empty: fast path places the key directly
    have hemp0 : (bAt st ((hasher k + 0) % st.capacity)).occupied = false := by
      revert hocc0
      cases (bAt st ((hasher k + 0) % st.capacity)).occupied <;> simp
    have hfresh : ¬ st.MemKey k := by
      intro ⟨j, hj, hjocc, hjkey⟩
      rcases chain_descend hs hj hjocc 0 (by omega) with ⟨hocc2, _⟩
      rw [hs.hash_ok j hj hjocc, hjkey] at hocc2
      rw [hocc2] at hemp0
      cases hemp0
    have hci : CandInv hasher st ((hasher k + 0) % st.capacity)
        ⟨k, hasher k, 0, true⟩ := by
      refine ⟨hs, rfl, rfl, rfl, ?_, ?_⟩
      · intro i hi hocci hkeyi
        exact hfresh ⟨i, hi, hocci, hkeyi⟩
      · intro hd
        cases hd
    rcases disp_place_post hci hemp0 hc with ⟨hslot2, hcount2, hmem2⟩
    refine ⟨true, incSize (setB st ((hasher k + 0) % st.capacity) ⟨k, hasher k, 0, true⟩),
      ?_, hslot2.incSizeInv, ?_, by simp [hfresh], ?_, rfl, rfl, by rfl⟩
    · unfold insertCore
      rw [hh, if_pos hemp0]
    · show (setB st ((hasher k + 0) % st.capacity) ⟨k, hasher k, 0, true⟩).size + 1 =
        occCount (setB st ((hasher k + 0) % st.capacity) ⟨k, hasher k, 0, true⟩)
      rw [hcount2]
      show st.size + 1 = occCount st + 1
      rw [hinv.size_eq]
    · intro k'
      rw [show (incSize (setB st ((hasher k + 0) % st.capacity)
            ⟨k, hasher k, 0, true⟩)).MemKey k' =
          (setB st ((hasher k + 0) % st.capacity) ⟨k, hasher k, 0, true⟩).MemKey k'
          from rfl,
        hmem2 k']
      simp

/-- Every bucket of a freshly allocated table is value-initialized. -/
theorem bAt_fresh (c i : Nat) : bAt (freshTable c) i = Bucket.emptyB := by
  show (List.replicate c Bucket.emptyB).getD i Bucket.emptyB = Bucket.emptyB
  by_cases hi : i < c
  · rw [List.getD_eq_getElem _ _ (by simpa using hi)]
    simp
  · exact List.getD_eq_default _ _ (by simpa using Nat.le_of_not_lt hi)

/-- A freshly allocated table of power-of-two capacity satisfies the full
invariant. -/
theorem inv_freshTable (hasher : Nat → Nat) (c : Nat) (hpow : ∃ k, c = 2 ^ k) :
    Inv hasher (freshTable c) := by
  have hocc : ∀ i, (bAt (freshTable c) i).occupied = false := by
    intro i
    rw [bAt_fresh]
    rfl
  refine ⟨⟨hpow, rfl, List.length_replicate c _, ?_, ?_, ?_, ?_, ?_⟩, ?_,
    Or.inl (by show 0 * 100 ≤ c * 75; omega)⟩
  · intro i _ hocci
    rw [hocc i] at hocci
    cases hocci
  · intro i _ hocci
    rw [hocc i] at hocci
    cases hocci
  · intro i _ hocci
    rw [hocc i] at hocci
    cases hocci
  · intro i _ hocci
    rw [hocc i] at hocci
    cases hocci
  · intro i _ j _ hocci
    rw [hocc i] at hocci
    cases hocci
  · show (0 : Nat) = (List.replicate c Bucket.emptyB).countP (fun b => b.occupied)
    refine (List.countP_eq_zero.mpr ?_).symm
    intro a ha
    rw [List.eq_of_mem_replicate ha]
    decide

/-- No key is a member of a freshly allocated table. -/
theorem memKey_fresh (c k : Nat) : ¬ (freshTable c).MemKey k := by
  intro ⟨i, _, hocci, _⟩
  rw [bAt_fresh] at hocci
  cases hocci

/-- Both nesting depths of `insertInternal` reduce to the core body when no
resize is due. -/
theorem insertInternalF_no_resize (hasher : Nat → Nat) (rf : Nat) (st : Table) (k : Nat)
    (hn : st.shouldResize = false) :
    insertInternalF hasher rf st k = insertCore hasher st k := by
  cases rf with
  | zero => show (if st.shouldResize then none else insertCore hasher st k) = _; rw [hn]; rfl
  | succ rf =>
    show (if st.shouldResize then _ else insertCore hasher st k) = _
    rw [hn]
    rfl

/-- Load-factor step: a power-of-two-capacity table strictly below the resize
threshold stays at or below the 75% bound after one insertion (capacities 1
and 2 excepted). -/
theorem lf_step {cap size : Nat} (hpow : ∃ k, cap = 2 ^ k)
    (hlt : size * 100 < cap * 75) : (size + 1) * 100 ≤ cap * 75 ∨ cap ≤ 2 := by
  rcases hpow with ⟨k, rfl⟩
  match k with
  | 0 => exact Or.inr (by norm_num)
  | 1 => exact Or.inr (by norm_num)
  | k + 2 =>
    left
    have hc : 2 ^ (k + 2) = 4 * 2 ^ k := by ring
    rw [hc] at hlt ⊢
    omega

/-- Membership stated over the bucket list. -/
theorem memKey_iff_exists_mem {hasher : Nat → Nat} {st : Table} (hs : SlotInv hasher st)
    (k : Nat) :
    st.MemKey k ↔ ∃ b ∈ st.buckets, b.occupied = true ∧ b.key = k := by
  constructor
  · intro ⟨i, hi, hocci, hkeyi⟩
    have hilen : i < st.buckets.length := by rw [hs.len_eq]; exact hi
    refine ⟨st.buckets[i], List.getElem_mem hilen, ?_, ?_⟩
    · rw [← bAt_eq_getElem hilen]; exact hocci
    · rw [← bAt_eq_getElem hilen]; exact hkeyi
  · intro ⟨b, hb, hocc, hkey⟩
    rcases List.mem_iff_getElem.mp hb with ⟨i, hilen, rfl⟩
    refine ⟨i, by rw [← hs.len_eq]; exact hilen, ?_, ?_⟩
    · rw [bAt_eq_getElem hilen]; exact hocc
    · rw [bAt_eq_getElem hilen]; exact hkey

/-- Run of the re-insertion sweep of `resize`/`reserve`: with pairwise
distinct keys that are fresh for the accumulator and a final size within the
load-factor bound, the sweep succeeds, preserves the invariant, and the
result holds exactly the accumulated and swept keys. -/
theorem reinsert_go {hasher : Nat → Nat} (rf : Nat) :
    ∀ (l : List Bucket) (acc : Table), Inv hasher acc →
      (acc.size + l.countP (fun b => b.occupied)) * 100 ≤ acc.capacity * 75 →
      (∀ b ∈ l, b.occupied = true → ¬ acc.MemKey b.key) →
      l.Pairwise (fun a b => a.occupied = true → b.occupied = true → a.key ≠ b.key) →
      ∃ st2, reinsertList (insertInternalF hasher rf) l acc = some st2 ∧ Inv hasher st2 ∧
        st2.size = acc.size + l.countP (fun b => b.occupied) ∧
        st2.capacity = acc.capacity ∧ st2.mask = acc.mask ∧
        (∀ k, st2.MemKey k ↔ acc.MemKey k ∨ ∃ b ∈ l, b.occupied = true ∧ b.key = k) := by
  intro l
  induction l with
  | nil =>
    intro acc hinv _ _ _
    exact ⟨acc, rfl, hinv, by simp, rfl, rfl, by simp⟩
  | cons b rest ih =>
    intro acc hinv hplf hfresh hpair
    rcases List.pairwise_cons.mp hpair with ⟨hhead, hpair'⟩
    by_cases hbocc : b.occupied = true
    · have hcnt : (b :: rest).countP (fun x => x.occupied) =
          rest.countP (fun x => x.occupied) + 1 := by
        rw [List.countP_cons, hbocc]
        simp
      have hcap : 0 < acc.capacity := hinv.slots.cap_pos
      have hnlf : acc.size * 100 < acc.capacity * 75 := by
        rw [hcnt] at hplf
        omega
      have hnres : acc.shouldResize = false := by
        rw [Table.shouldResize, decide_eq_false_iff_not, MAX_LOAD_FACTOR_PERCENT]
        omega
      have hroom : occCount acc < acc.capacity := by
        rw [← hinv.size_eq]
        omega
      rcases insertCore_spec b.key hinv hroom with
        ⟨bb, st1, hrun1, hslot1, hsize1, hbfresh, hmem1, hcap1, hmask1, hsz1⟩
      have hbb : bb = true := hbfresh.mpr (hfresh b (List.mem_cons_self b rest) hbocc)
      subst hbb
      norm_num at hsz1
      have hinv1 : Inv hasher st1 := by
        refine ⟨hslot1, hsize1, ?_⟩
        rw [hsz1, hcap1]
        rcases lf_step hinv.slots.cap_pow hnlf with h | h
        · exact Or.inl h
        · exact Or.inr h
      have hplf1 : (st1.size + rest.countP (fun x => x.occupied)) * 100 ≤
          st1.capacity * 75 := by
        rw [hsz1, hcap1]
        rw [hcnt] at hplf
        omega
      have hfresh1 : ∀ b2 ∈ rest, b2.occupied = true → ¬ st1.MemKey b2.key := by
        intro b2 hb2 hb2occ hmemb2
        rcases (hmem1 b2.key).mp hmemb2 with hacc | ⟨_, hkey⟩
        · exact hfresh b2 (List.mem_cons_of_mem b hb2) hb2occ hacc
        · exact hhead b2 hb2 hbocc hb2occ hkey.symm
      rcases ih st1 hinv1 hplf1 hfresh1 hpair' with
        ⟨st2, hrun2, hinv2, hsize2, hcap2, hmask2, hmem2⟩
      refine ⟨st2, ?_, hinv2, ?_, ?_, ?_, ?_⟩
      · show (if b.occupied = true then
            (insertInternalF hasher rf acc b.key).bind
              (fun r => reinsertList (insertInternalF hasher rf) rest r.2)
          else reinsertList (insertInternalF hasher rf) rest acc) = some st2
        rw [if_pos hbocc, insertInternalF_no_resize hasher rf acc b.key hnres, hrun1]
        exact hrun2
      · rw [hsize2, hsz1, hcnt]
        omega
      · rw [hcap2, hcap1]
      · rw [hmask2, hmask1]
      · intro k
        rw [hmem2 k]
        constructor
        · intro h
          rcases h with h1 | ⟨b2, hb2, hocc2, hkey2⟩
          · rcases (hmem1 k).mp h1 with hacc | ⟨_, hkey⟩
            · exact Or.inl hacc
            · exact Or.inr ⟨b, List.mem_cons_self b rest, hbocc, hkey.symm⟩
          · exact Or.inr ⟨b2, List.mem_cons_of_mem b hb2, hocc2, hkey2⟩
        · intro h
          rcases h with hacc | ⟨b2, hb2, hocc2, hkey2⟩
          · exact Or.inl ((hmem1 k).mpr (Or.inl hacc))
          · rcases List.mem_cons.mp hb2 with rfl | hb2'
            · exact Or.inl ((hmem1 k).mpr (Or.inr ⟨rfl, hkey2.symm⟩))
            · exact Or.inr ⟨b2, hb2', hocc2, hkey2⟩
    · have hcnt : (b :: rest).countP (fun x => x.occupied) =
          rest.countP (fun x => x.occupied) := by
        rw [List.countP_cons]
        simp [hbocc]
      rcases ih acc hinv (by rw [hcnt] at hplf; exact hplf)
          (fun b2 hb2 => hfresh b2 (List.mem_cons_of_mem b hb2)) hpair' with
        ⟨st2, hrun2, hinv2, hsize2, hcap2, hmask2, hmem2⟩
      refine ⟨st2, ?_, hinv2, by rw [hsize2, hcnt], hcap2, hmask2, ?_⟩
      · show (if b.occupied = true then
            (insertInternalF hasher rf acc b.key).bind
              (fun r => reinsertList (insertInternalF hasher rf) rest r.2)
          else reinsertList (insertInternalF hasher rf) rest acc) = some st2
        rw [if_neg hbocc]
        exact hrun2
      · intro k
        rw [hmem2 k]
        constructor
        · intro h
          rcases h with h1 | ⟨b2, hb2, hocc2, hkey2⟩
          · exact Or.inl h1
          · exact Or.inr ⟨b2, List.mem_cons_of_mem b hb2, hocc2, hkey2⟩
        · intro h
          rcases h with hacc | ⟨b2, hb2, hocc2, hkey2⟩
          · exact Or.inl hacc
          · rcases List.mem_cons.mp hb2 with rfl | hb2'
            · exact absurd hocc2 hbocc
            · exact Or.inr ⟨b2, hb2', hocc2, hkey2⟩

/-- Pairwise distinctness of the bucket list follows from the indexed
distinctness invariant. -/
theorem pairwise_of_distinct {hasher : Nat → Nat} {st : Table} (hs : SlotInv hasher st) :
    st.buckets.Pairwise
      (fun a b => a.occupied = true → b.occupied = true → a.key ≠ b.key) := by
  rw [List.pairwise_iff_getElem]
  intro i j hi hj hij hocci hoccj
  have hi' : i < st.capacity := by rw [← hs.len_eq]; exact hi
  have hj' : j < st.capacity := by rw [← hs.len_eq]; exact hj
  rw [← bAt_eq_getElem hi] at hocci ⊢
  rw [← bAt_eq_getElem hj] at hoccj ⊢
  exact hs.distinct i hi' j hj' hocci hoccj (by omega)

/-- Specification of `resize`: it terminates, doubles the capacity, keeps
the size and the key set, restores the invariant, and leaves the new table
strictly below the resize threshold. -/
theorem resize_spec {hasher : Nat → Nat} {st : Table} (hinv : Inv hasher st) (rf : Nat) :
    ∃ st2, Table.resizeOp hasher rf st = some st2 ∧ Inv hasher st2 ∧
      st2.capacity = 2 * st.capacity ∧ st2.size = st.size ∧
      (∀ k, st2.MemKey k ↔ st.MemKey k) ∧ st2.shouldResize = false := by
  have hs := hinv.slots
  have hc : 0 < st.capacity := hs.cap_pos
  have hszle : st.size ≤ st.capacity := by
    rw [hinv.size_eq]
    have h1 := occCount_le_len st
    rw [hs.len_eq] at h1
    exact h1
  have hpow2 : ∃ k, 2 * st.capacity = 2 ^ k := by
    rcases hs.cap_pow with ⟨k, hk⟩
    exact ⟨k + 1, by rw [hk]; ring⟩
  have hfreshInv : Inv hasher (freshTable (2 * st.capacity)) :=
    inv_freshTable hasher _ hpow2
  have hcnt : st.buckets.countP (fun b => b.occupied) = st.size := by
    rw [hinv.size_eq]; rfl
  have hplf : ((freshTable (2 * st.capacity)).size +
      st.buckets.countP (fun b => b.occupied)) * 100 ≤
      (freshTable (2 * st.capacity)).capacity * 75 := by
    show (0 + st.buckets.countP (fun b => b.occupied)) * 100 ≤ 2 * st.capacity * 75
    rw [hcnt]
    rcases hinv.lf_ok with h | h
    · omega
    · omega
  rcases reinsert_go rf st.buckets (freshTable (2 * st.capacity)) hfreshInv hplf
      (fun b _ _ => memKey_fresh _ b.key) (pairwise_of_distinct hs) with
    ⟨st2, hrun, hinv2, hsize2, hcap2, _, hmem2⟩
  refine ⟨st2, hrun, hinv2, ?_, ?_, ?_, ?_⟩
  · rw [hcap2]; rfl
  · rw [hsize2, hcnt]
    show 0 + st.size = st.size
    omega
  · intro k
    rw [hmem2 k]
    constructor
    · intro h
      rcases h with h | hex
      · exact absurd h (memKey_fresh _ k)
      · exact (memKey_iff_exists_mem hs k).mpr hex
    · intro h
      exact Or.inr ((memKey_iff_exists_mem hs k).mp h)
  · rw [Table.shouldResize, decide_eq_false_iff_not, MAX_LOAD_FACTOR_PERCENT]
    have h2 : st2.capacity = 2 * st.capacity := by rw [hcap2]; rfl
    have h3 : st2.size = st.size := by
      rw [hsize2, hcnt]
      show 0 + st.size = st.size
      omega
    rw [h2, h3]
    omega

/-- Specification of `insert` (`insertInternal` with the automatic-resize
depth actually needed under the invariant): it terminates, preserves the
invariant, returns `true` exactly for a fresh key, adds exactly that key,
increments `size` exactly on a fresh key, and keeps or doubles the
capacity. -/
theorem insert_spec {hasher : Nat → Nat} {st : Table} (k : Nat) (hinv : Inv hasher st) :
    ∃ b st2, st.insert hasher k = some (b, st2) ∧ Inv hasher st2 ∧
      ((b = true) ↔ ¬ st.MemKey k) ∧
      (∀ k', st2.MemKey k' ↔ st.MemKey k' ∨ (b = true ∧ k' = k)) ∧
      st2.size = st.size + (if b then 1 else 0) ∧
      (st2.capacity = st.capacity ∨ st2.capacity = 2 * st.capacity) := by
  have hs := hinv.slots
  have hc : 0 < st.capacity := hs.cap_pos
  by_cases hres : st.shouldResize = true
  · rcases resize_spec hinv 0 with ⟨stR, hrunR, hinvR, hcapR, hsizeR, hmemR, hnresR⟩
    have hroomR : occCount stR < stR.capacity := by
      rw [Table.shouldResize, decide_eq_false_iff_not, MAX_LOAD_FACTOR_PERCENT] at hnresR
      rw [← hinvR.size_eq]
      have hcR : 0 < stR.capacity := hinvR.slots.cap_pos
      omega
    rcases insertCore_spec k hinvR hroomR with
      ⟨b, st2, hrun2, hslot2, hsize2, hbfresh, hmem2, hcap2, _, hsz2⟩
    have hnlfR : stR.size * 100 < stR.capacity * 75 := by
      rw [Table.shouldResize, decide_eq_false_iff_not, MAX_LOAD_FACTOR_PERCENT] at hnresR
      omega
    refine ⟨b, st2, ?_, ⟨hslot2, hsize2, ?_⟩, ?_, ?_, ?_, ?_⟩
    · show insertInternalF hasher 1 st k = some (b, st2)
      show (if st.shouldResize then
          (reinsertList (insertInternalF hasher 0) st.buckets
            (freshTable (2 * st.capacity))).bind (fun r => insertCore hasher r k)
        else insertCore hasher st k) = some (b, st2)
      rw [if_pos hres]
      rw [show reinsertList (insertInternalF hasher 0) st.buckets
          (freshTable (2 * st.capacity)) = Table.resizeOp hasher 0 st from rfl, hrunR]
      exact hrun2
    · rw [hsz2, hcap2]
      rcases b with _ | _
      · simp only [Bool.false_eq_true, if_false, Nat.add_zero]
        rcases lf_step hinvR.slots.cap_pow hnlfR with h | h
        · exact Or.inl (by omega)
        · exact Or.inr h
      · simp only [if_pos]
        rcases lf_step hinvR.slots.cap_pow hnlfR with h | h
        · exact Or.inl (by omega)
        · exact Or.inr h
    · rw [hbfresh, hmemR k]
    · intro k'
      rw [hmem2 k', hmemR k']
    · rw [hsz2, hsizeR]
    · right
      rw [hcap2, hcapR]
  · have hnres : st.shouldResize = false := by
      revert hres
      cases st.shouldResize <;> simp
    have hnlf : st.size * 100 < st.capacity * 75 := by
      rw [Table.shouldResize, decide_eq_false_iff_not, MAX_LOAD_FACTOR_PERCENT] at hnres
      omega
    have hroom : occCount st < st.capacity := by
      rw [← hinv.size_eq]
      omega
    rcases insertCore_spec k hinv hroom with
      ⟨b, st2, hrun2, hslot2, hsize2, hbfresh, hmem2, hcap2, _, hsz2⟩
    refine ⟨b, st2, ?_, ⟨hslot2, hsize2, ?_⟩, hbfresh, hmem2, hsz2, Or.inl hcap2⟩
    · show insertInternalF hasher 1 st k = some (b, st2)
      rw [insertInternalF_no_resize hasher 1 st k hnres]
      exact hrun2
    · rw [hsz2, hcap2]
      rcases b with _ | _
      · simp only [Bool.false_eq_true, if_false, Nat.add_zero]
        rcases lf_step hinv.slots.cap_pow hnlf with h | h
        · exact Or.inl (by omega)
        · exact Or.inr h
      · simp only [if_pos]
        rcases lf_step hinv.slots.cap_pow hnlf with h | h
        · exact Or.inl (by omega)
        · exact Or.inr h

/-- The default-constructed table satisfies the invariant. -/
theorem inv_emptyTable (hasher : Nat → Nat) : Inv hasher Table.emptyTable :=
  inv_freshTable hasher 32 ⟨5, by norm_num⟩

/-- A table from the explicit-capacity constructor satisfies the invariant. -/
theorem inv_withCapacity (hasher : Nat → Nat) (n : Nat) :
    Inv hasher (Table.withCapacity n) :=
  inv_freshTable hasher (growPow2 n 1) (growPow2_pow n)

/-- Specification of a sequence of inserts: it terminates, preserves the
invariant, and the final key set is the initial one plus the inserted keys. -/
theorem insertList_spec {hasher : Nat → Nat} :
    ∀ (ks : List Nat) (st : Table), Inv hasher st →
      ∃ st2, insertList hasher st ks = some st2 ∧ Inv hasher st2 ∧
        (∀ k', st2.MemKey k' ↔ st.MemKey k' ∨ k' ∈ ks) := by
  intro ks
  induction ks with
  | nil =>
    intro st hinv
    exact ⟨st, rfl, hinv, by simp⟩
  | cons k ks ih =>
    intro st hinv
    rcases insert_spec k hinv with ⟨b, st1, hrun1, hinv1, hbfresh, hmem1, _, _⟩
    rcases ih st1 hinv1 with ⟨st2, hrun2, hinv2, hmem2⟩
    have hstep : insertList hasher st (k :: ks) = insertList hasher st1 ks := by
      show ((some st).bind (fun t => (t.insert hasher k).map Prod.snd) |>
          (fun acc => ks.foldl (fun acc k => acc.bind
            (fun t => (t.insert hasher k).map Prod.snd)) acc)) =
        insertList hasher st1 ks
      rw [show (some st).bind (fun t => (t.insert hasher k).map Prod.snd) =
        (st.insert hasher k).map Prod.snd from rfl, hrun1]
      rfl
    refine ⟨st2, by rw [hstep]; exact hrun2, hinv2, ?_⟩
    intro k'
    have hcase : b = true ∨ (b = false ∧ st.MemKey k) := by
      rcases b with _ | _
      · refine Or.inr ⟨rfl, ?_⟩
        by_contra hmemk
        have := hbfresh.mpr hmemk
        cases this
      · exact Or.inl rfl
    rw [hmem2 k', hmem1 k']
    rcases hcase with rfl | ⟨rfl, hmemk⟩
    · constructor
      · intro h
        rcases h with (h | ⟨_, rfl⟩) | h
        · exact Or.inl h
        · exact Or.inr (List.mem_cons_self _ _)
        · exact Or.inr (List.mem_cons_of_mem _ h)
      · intro h
        rcases h with h | h
        · exact Or.inl (Or.inl h)
        · rcases List.mem_cons.mp h with rfl | h2
          · exact Or.inl (Or.inr ⟨rfl, rfl⟩)
          · exact Or.inr h2
    · constructor
      · intro h
        rcases h with (h | ⟨hfalse, _⟩) | h
        · exact Or.inl h
        · cases hfalse
        · exact Or.inr (List.mem_cons_of_mem _ h)
      · intro h
        rcases h with h | h
        · exact Or.inl (Or.inl h)
        · rcases List.mem_cons.mp h with rfl | h2
          · exact Or.inl (Or.inl hmemk)
          · exact Or.inr h2

/-- Distinct offsets below the capacity land on distinct slots. -/
theorem mod_off_inj {c : Nat} (j : Nat) {v1 v2 : Nat} (h1 : v1 < c) (h2 : v2 < c)
    (he : (j + v1) % c = (j + v2) % c) : v1 = v2 := by
  rcases Nat.lt_trichotomy v1 v2 with h | h | h
  · exfalso
    have hne := @add_mod_ne c (v2 - v1) (j + v1) (by omega) (by omega)
    rw [show j + v1 + (v2 - v1) = j + v2 by omega] at hne
    exact hne he.symm
  · exact h
  · exfalso
    have hne := @add_mod_ne c (v1 - v2) (j + v2) (by omega) (by omega)
    rw [show j + v2 + (v1 - v2) = j + v1 by omega] at hne
    exact hne he

/-- The erase probe loop locates any stored key: if `k` is stored at slot
`j`, the loop started `s` probe steps into the chain returns position `j`. -/
theorem eraseFind_present {hasher : Nat → Nat} {st : Table} (hs : SlotInv hasher st)
    {j k : Nat} (hj : j < st.capacity) (hocc : (bAt st j).occupied = true)
    (hkey : (bAt st j).key = k) :
    ∀ t s fuel, s + t = (bAt st j).distance → t < fuel →
      eraseFind st k (hasher k) fuel ((hasher k + s) % st.capacity) s = some (some j) := by
  have hc : 0 < st.capacity := hs.cap_pos
  have hhash : (bAt st j).hash = hasher k := by rw [hs.hash_ok j hj hocc, hkey]
  intro t
  induction t with
  | zero =>
    intro s fuel hs0 hfuel
    rcases fuel with _ | fuel
    · omega
    have hsd : s = (bAt st j).distance := by omega
    subst hsd
    have hpj : (hasher k + (bAt st j).distance) % st.capacity = j := by
      rw [← hhash]
      exact (hs.dist_ok j hj hocc).symm
    rw [hpj]
    show (if (bAt st j).distance ≤ (bAt st j).distance ∧ (bAt st j).occupied = true then
        if (bAt st j).hash = hasher k ∧ (bAt st j).key = k then some (some j)
        else eraseFind st k (hasher k) fuel ((j + 1) &&& st.mask) ((bAt st j).distance + 1)
      else some none) = some (some j)
    rw [if_pos ⟨Nat.le_refl _, hocc⟩, if_pos ⟨hhash, hkey⟩]
  | succ t ih =>
    intro s fuel hst hfuel
    rcases fuel with _ | fuel
    · omega
    have hslt : s < (bAt st j).distance := by omega
    rcases chain_descend hs hj hocc s (by omega) with ⟨hocc2, hdist2⟩
    rw [hhash] at hocc2 hdist2
    have hplt : (hasher k + s) % st.capacity < st.capacity := Nat.mod_lt _ hc
    have hne : (hasher k + s) % st.capacity ≠ j := by
      have h2 := probe_pos_ne hs hj hocc hslt
      rw [hhash] at h2
      exact h2
    have hkne : (bAt st ((hasher k + s) % st.capacity)).key ≠ k := by
      intro hcontra
      exact hs.distinct _ hplt j hj hocc2 hocc hne (by rw [hcontra, hkey])
    show (if s ≤ (bAt st ((hasher k + s) % st.capacity)).distance ∧
        (bAt st ((hasher k + s) % st.capacity)).occupied = true then
        if (bAt st ((hasher k + s) % st.capacity)).hash = hasher k ∧
            (bAt st ((hasher k + s) % st.capacity)).key = k then
          some (some ((hasher k + s) % st.capacity))
        else eraseFind st k (hasher k) fuel
          (((hasher k + s) % st.capacity + 1) &&& st.mask) (s + 1)
      else some none) = some (some j)
    rw [if_pos ⟨hdist2, hocc2⟩, if_neg (fun hand => hkne hand.2)]
    have hland : ((hasher k + s) % st.capacity + 1) &&& st.mask =
        (hasher k + (s + 1)) % st.capacity := by
      rw [hs.land_mask, Nat.mod_add_mod, show hasher k + s + 1 = hasher k + (s + 1) by omega]
    rw [hland]
    exact ih (s + 1) fuel (by omega) (by omega)

/-- The erase probe loop reports absence for any key not stored in the
table. -/
theorem eraseFind_absent {hasher : Nat → Nat} {st : Table} (hs : SlotInv hasher st)
    {k : Nat} (habs : ∀ j, j < st.capacity → (bAt st j).occupied = true →
      (bAt st j).key ≠ k) :
    ∀ t s fuel, s + t = st.capacity → t < fuel →
      eraseFind st k (hasher k) fuel ((hasher k + s) % st.capacity) s = some none := by
  have hc : 0 < st.capacity := hs.cap_pos
  intro t
  induction t with
  | zero =>
    intro s fuel hst hfuel
    rcases fuel with _ | fuel
    · omega
    have hplt : (hasher k + s) % st.capacity < st.capacity := Nat.mod_lt _ hc
    show (if s ≤ (bAt st ((hasher k + s) % st.capacity)).distance ∧
        (bAt st ((hasher k + s) % st.capacity)).occupied = true then
        if (bAt st ((hasher k + s) % st.capacity)).hash = hasher k ∧
            (bAt st ((hasher k + s) % st.capacity)).key = k then
          some (some ((hasher k + s) % st.capacity))
        else eraseFind st k (hasher k) fuel
          (((hasher k + s) % st.capacity + 1) &&& st.mask) (s + 1)
      else some none) = some none
    by_cases hoc : (bAt st ((hasher k + s) % st.capacity)).occupied = true
    · have hdlt := hs.dist_lt _ hplt hoc
      rw [if_neg (fun hand => by omega)]
    · rw [if_neg (fun hand => hoc hand.2)]
  | succ t ih =>
    intro s fuel hst hfuel
    rcases fuel with _ | fuel
    · omega
    have hplt : (hasher k + s) % st.capacity < st.capacity := Nat.mod_lt _ hc
    show (if s ≤ (bAt st ((hasher k + s) % st.capacity)).distance ∧
        (bAt st ((hasher k + s) % st.capacity)).occupied = true then
        if (bAt st ((hasher k + s) % st.capacity)).hash = hasher k ∧
            (bAt st ((hasher k + s) % st.capacity)).key = k then
          some (some ((hasher k + s) % st.capacity))
        else eraseFind st k (hasher k) fuel
          (((hasher k + s) % st.capacity + 1) &&& st.mask) (s + 1)
      else some none) = some none
    by_cases hoc : (bAt st ((hasher k + s) % st.capacity)).occupied = true
    · by_cases hsd : s ≤ (bAt st ((hasher k + s) % st.capacity)).distance
      · rw [if_pos ⟨hsd, hoc⟩, if_neg (fun hand => habs _ hplt hoc hand.2)]
        have hland : ((hasher k + s) % st.capacity + 1) &&& st.mask =
            (hasher k + (s + 1)) % st.capacity := by
          rw [hs.land_mask, Nat.mod_add_mod,
            show hasher k + s + 1 = hasher k + (s + 1) by omega]
        rw [hland]
        exact ih (s + 1) fuel (by omega) (by omega)
      · rw [if_neg (fun hand => hsd hand.1)]
    · rw [if_neg (fun hand => hoc hand.2)]

/-- Run of the backward-shift loop of `eraseAtPosition`, described relative
to the starting state: with `u` the offset of the first slot (after the
erased position `j`) that is unoccupied or at its home slot, the loop pulls
the `u - 1` intervening buckets back one slot with decremented distance,
vacates slot `j + u - 1`, and touches nothing else. -/
theorem eraseShift_go :
    ∀ (u : Nat) (f : Nat) (st : Table) (j : Nat),
      (∃ t, st.capacity = 2 ^ t) → st.mask = st.capacity - 1 →
      st.buckets.length = st.capacity →
      j < st.capacity → 1 ≤ u → u ≤ st.capacity - 1 → u < f →
      (bAt st j).occupied = true →
      (∀ v, 1 ≤ v → v < u → (bAt st ((j + v) % st.capacity)).occupied = true ∧
        0 < (bAt st ((j + v) % st.capacity)).distance) →
      ¬ ((bAt st ((j + u) % st.capacity)).occupied = true ∧
        0 < (bAt st ((j + u) % st.capacity)).distance) →
      ∃ st2, eraseShift f st j ((j + 1) &&& st.mask) = some st2 ∧
        st2.capacity = st.capacity ∧ st2.mask = st.mask ∧ st2.size = st.size ∧
        st2.buckets.length = st.buckets.length ∧
        occCount st2 + 1 = occCount st ∧
        (∀ v, v + 1 < u → bAt st2 ((j + v) % st.capacity) =
          { bAt st ((j + v + 1) % st.capacity) with
            distance := (bAt st ((j + v + 1) % st.capacity)).distance - 1 }) ∧
        bAt st2 ((j + (u - 1)) % st.capacity) = Bucket.emptyB ∧
        (∀ w, (∀ v, v < u → w ≠ (j + v) % st.capacity) → bAt st2 w = bAt st w) := by
  intro u
  induction u with
  | zero =>
    intro f st j _ _ _ _ hu1 _ _ _ _ _
    omega
  | succ u ih =>
    intro f st j hpow hmask hlen hj _ hule huf hoccj hH1 hH2
    rcases f with _ | f
    · omega
    have hcap2 : 2 ≤ st.capacity := by omega
    have hc : 0 < st.capacity := by omega
    have hjlen : j < st.buckets.length := by rw [hlen]; exact hj
    have hland : ∀ x : Nat, x &&& st.mask = x % st.capacity := by
      intro x
      rcases hpow with ⟨t, ht⟩
      rw [hmask, ht]
      exact Nat.and_pow_two_sub_one_eq_mod x t
    have hne_j : ∀ w : Nat, 0 < w → w < st.capacity → (j + w) % st.capacity ≠ j := by
      intro w hw0 hwlt heq
      have h2 := @add_mod_ne st.capacity w j hw0 hwlt
      rw [Nat.mod_eq_of_lt hj] at h2
      exact h2 heq
    rcases Nat.eq_zero_or_pos u with hu0 | hu1
    · subst hu0
      simp only [Nat.zero_add] at hH2
      rw [hland (j + 1)]
      refine ⟨setB st j Bucket.emptyB, ?_, rfl, rfl, rfl, List.length_set _ _ _,
        occCount_set_occ_unocc hjlen hoccj rfl, ?_, ?_, ?_⟩
      · show (if (bAt st ((j + 1) % st.capacity)).occupied = true ∧
            (bAt st ((j + 1) % st.capacity)).distance > 0 then
            eraseShift f (setB st j { bAt st ((j + 1) % st.capacity) with
              distance := (bAt st ((j + 1) % st.capacity)).distance - 1 })
              ((j + 1) % st.capacity) (((j + 1) % st.capacity + 1) &&& st.mask)
          else some (setB st j Bucket.emptyB)) = some (setB st j Bucket.emptyB)
        rw [if_neg (fun hand => hH2 ⟨hand.1, hand.2⟩)]
      · intro v hv
        omega
      · have hjj : (j + (0 + 1 - 1)) % st.capacity = j := by
          norm_num
          exact Nat.mod_eq_of_lt hj
        rw [hjj]
        exact bAt_setB_self hjlen _
      · intro w hw
        have hwj : w ≠ j := by
          have h0 := hw 0 (by omega)
          rw [Nat.add_zero, Nat.mod_eq_of_lt hj] at h0
          exact h0
        exact bAt_setB_ne w Bucket.emptyB (fun h => hwj h.symm)
    · have hocc1 : (bAt st ((j + 1) % st.capacity)).occupied = true :=
        (hH1 1 (by omega) (by omega)).1
      have hdist1 : 0 < (bAt st ((j + 1) % st.capacity)).distance :=
        (hH1 1 (by omega) (by omega)).2
      set b0 : Bucket := { bAt st ((j + 1) % st.capacity) with
        distance := (bAt st ((j + 1) % st.capacity)).distance - 1 } with hb0
      have hb0occ : b0.occupied = true := by
        show (bAt st ((j + 1) % st.capacity)).occupied = true
        exact hocc1
      have key_off : ∀ v : Nat, ((j + 1) % st.capacity + v) % st.capacity =
          (j + (1 + v)) % st.capacity := by
        intro v
        rw [Nat.mod_add_mod, show j + 1 + v = j + (1 + v) by omega]
      have hst1len : (setB st j b0).buckets.length = (setB st j b0).capacity := by
        show (st.buckets.set j b0).length = st.capacity
        rw [List.length_set]
        exact hlen
      have hst1H1 : ∀ v, 1 ≤ v → v < u →
          (bAt (setB st j b0) (((j + 1) % st.capacity + v) %
            (setB st j b0).capacity)).occupied = true ∧
          0 < (bAt (setB st j b0) (((j + 1) % st.capacity + v) %
            (setB st j b0).capacity)).distance := by
        intro v hv1 hvu
        show (bAt (setB st j b0) (((j + 1) % st.capacity + v) %
            st.capacity)).occupied = true ∧
          0 < (bAt (setB st j b0) (((j + 1) % st.capacity + v) % st.capacity)).distance
        rw [key_off v,
          bAt_setB_ne _ b0 (fun h => hne_j (1 + v) (by omega) (by omega) h.symm)]
        exact hH1 (1 + v) (by omega) (by omega)
      have hst1H2 : ¬ ((bAt (setB st j b0) (((j + 1) % st.capacity + u) %
            (setB st j b0).capacity)).occupied = true ∧
          0 < (bAt (setB st j b0) (((j + 1) % st.capacity + u) %
            (setB st j b0).capacity)).distance) := by
        show ¬ ((bAt (setB st j b0) (((j + 1) % st.capacity + u) %
            st.capacity)).occupied = true ∧
          0 < (bAt (setB st j b0) (((j + 1) % st.capacity + u) % st.capacity)).distance)
        rw [key_off u, show j + (1 + u) = j + (u + 1) by omega,
          bAt_setB_ne _ b0 (fun h => hne_j (u + 1) (by omega) (by omega) h.symm)]
        exact hH2
      have hst1occ : (bAt (setB st j b0) ((j + 1) % st.capacity)).occupied = true := by
        rw [bAt_setB_ne _ b0 (fun h => hne_j 1 (by omega) (by omega) h.symm)]
        exact hocc1
      obtain ⟨st2, hrun2, hcap2', hmask2, hsize2, hlen2, hocc2, hshift2, hvac2, hunch2⟩ :=
        ih f (setB st j b0) ((j + 1) % st.capacity) hpow hmask hst1len
          (Nat.mod_lt _ hc) hu1 (by show u ≤ st.capacity - 1; omega) (by omega)
          hst1occ hst1H1 hst1H2
      refine ⟨st2, ?_, ?_, ?_, ?_, ?_, ?_, ?_, ?_, ?_⟩
      · rw [hland (j + 1)]
        show (if (bAt st ((j + 1) % st.capacity)).occupied = true ∧
            (bAt st ((j + 1) % st.capacity)).distance > 0 then
            eraseShift f (setB st j { bAt st ((j + 1) % st.capacity) with
              distance := (bAt st ((j + 1) % st.capacity)).distance - 1 })
              ((j + 1) % st.capacity) (((j + 1) % st.capacity + 1) &&& st.mask)
          else some (setB st j Bucket.emptyB)) = some st2
        rw [if_pos ⟨hocc1, hdist1⟩]
        exact hrun2
      · exact hcap2'
      · exact hmask2
      · exact hsize2
      · rw [hlen2]
        exact List.length_set _ _ _
      · have heq : occCount (setB st j b0) = occCount st :=
          occCount_set_occ_occ hjlen hoccj hb0occ
        rw [hocc2, heq]
      · intro v hv
        rcases Nat.eq_zero_or_pos v with hv0 | hv1'
        · subst hv0
          have hwj : ∀ v', v' < u →
              j ≠ ((j + 1) % st.capacity + v') % (setB st j b0).capacity := by
            intro v' hv'
            show j ≠ ((j + 1) % st.capacity + v') % st.capacity
            rw [key_off v']
            exact fun h => hne_j (1 + v') (by omega) (by omega) h.symm
          have hj0 : (j + 0) % st.capacity = j := by
            rw [Nat.add_zero]
            exact Nat.mod_eq_of_lt hj
          rw [hj0]
          have h3 := hunch2 j hwj
          rw [h3, show j + 0 + 1 = j + 1 by omega, bAt_setB_self hjlen b0]
        · have h1 : ((j + 1) % st.capacity + (v - 1)) % st.capacity =
              (j + v) % st.capacity := by
            rw [Nat.mod_add_mod, show j + 1 + (v - 1) = j + v by omega]
          have h2 : ((j + 1) % st.capacity + (v - 1) + 1) % st.capacity =
              (j + v + 1) % st.capacity := by
            rw [show (j + 1) % st.capacity + (v - 1) + 1 =
              (j + 1) % st.capacity + (v - 1 + 1) by omega, Nat.mod_add_mod,
              show j + 1 + (v - 1 + 1) = j + v + 1 by omega]
          have hstep' : bAt st2 (((j + 1) % st.capacity + (v - 1)) % st.capacity) =
              { bAt (setB st j b0) (((j + 1) % st.capacity + (v - 1) + 1) %
                  st.capacity) with
                distance := (bAt (setB st j b0) (((j + 1) % st.capacity + (v - 1) + 1) %
                  st.capacity)).distance - 1 } := hshift2 (v - 1) (by omega)
          rw [h1, h2] at hstep'
          have hsrc : bAt (setB st j b0) ((j + v + 1) % st.capacity) =
              bAt st ((j + v + 1) % st.capacity) := by
            refine bAt_setB_ne _ b0 ?_
            intro h
            have hne := hne_j (v + 1) (by omega) (by omega)
            rw [show j + (v + 1) = j + v + 1 by omega] at hne
            exact hne h.symm
          rw [hsrc] at hstep'
          exact hstep'
      · have hv' : bAt st2 (((j + 1) % st.capacity + (u - 1)) % st.capacity) =
            Bucket.emptyB := hvac2
        rw [Nat.mod_add_mod, show j + 1 + (u - 1) = j + u by omega] at hv'
        rw [show j + (u + 1 - 1) = j + u by omega]
        exact hv'
      · intro w hw
        have hw1 : ∀ v, v < u →
            w ≠ ((j + 1) % st.capacity + v) % (setB st j b0).capacity := by
          intro v hv
          show w ≠ ((j + 1) % st.capacity + v) % st.capacity
          rw [key_off v]
          exact hw (1 + v) (by omega)
        have h3 := hunch2 w hw1
        rw [h3]
        refine bAt_setB_ne _ b0 ?_
        intro h
        exact hw 0 (by omega) (by rw [Nat.add_zero, Nat.mod_eq_of_lt hj]; exact h.symm)

/-- The backward-shift description restores the slot invariant and removes
exactly the key of the erased slot `j` from the key set.  The offset `u` of
the stopping slot may equal the capacity only in the wrap-around case of a
full capacity-2 table, where the stopping slot is the one just rewritten
with distance `1 - 1 = 0` (hypothesis `hwrap`). -/
theorem eraseDesc_conclusions {hasher : Nat → Nat} {st st2 : Table} {j u : Nat}
    (hs : SlotInv hasher st) (hj : j < st.capacity) (hocc : (bAt st j).occupied = true)
    (hu1 : 1 ≤ u) (hule : u ≤ st.capacity)
    (hH1 : ∀ v, 1 ≤ v → v < u → (bAt st ((j + v) % st.capacity)).occupied = true ∧
      0 < (bAt st ((j + v) % st.capacity)).distance)
    (hH2 : u < st.capacity → ¬ ((bAt st ((j + u) % st.capacity)).occupied = true ∧
      0 < (bAt st ((j + u) % st.capacity)).distance))
    (hwrap : u = st.capacity → 1 < u → (bAt st ((j + 1) % st.capacity)).distance = 1)
    (hcap2 : st2.capacity = st.capacity) (hmask2 : st2.mask = st.mask)
    (hlen2 : st2.buckets.length = st.buckets.length)
    (hshift : ∀ v, v + 1 < u → bAt st2 ((j + v) % st.capacity) =
      { bAt st ((j + v + 1) % st.capacity) with
        distance := (bAt st ((j + v + 1) % st.capacity)).distance - 1 })
    (hvac : bAt st2 ((j + (u - 1)) % st.capacity) = Bucket.emptyB)
    (hunch : ∀ w, (∀ v, v < u → w ≠ (j + v) % st.capacity) → bAt st2 w = bAt st w) :
    SlotInv hasher st2 ∧ (∀ k, st2.MemKey k ↔ st.MemExcept j k) := by
  have hc : 0 < st.capacity := hs.cap_pos
  have hvoid : ¬ (Bucket.emptyB.occupied = true) := by decide
  have classify : ∀ w, w < st.capacity →
      (∃ v, v + 1 < u ∧ w = (j + v) % st.capacity) ∨
      w = (j + (u - 1)) % st.capacity ∨
      (∀ v, v < u → w ≠ (j + v) % st.capacity) := by
    intro w hw
    by_cases hex : ∃ v, v < u ∧ w = (j + v) % st.capacity
    · rcases hex with ⟨v, hvu, hveq⟩
      by_cases hv2 : v + 1 < u
      · exact Or.inl ⟨v, hv2, hveq⟩
      · have hveq' : v = u - 1 := by omega
        exact Or.inr (Or.inl (by rw [hveq, hveq']))
    · push_neg at hex
      exact Or.inr (Or.inr hex)
  have hSrc : ∀ v, v + 1 < u → (bAt st ((j + v + 1) % st.capacity)).occupied = true ∧
      0 < (bAt st ((j + v + 1) % st.capacity)).distance := by
    intro v hv
    have h := hH1 (v + 1) (by omega) (by omega)
    rw [show j + (v + 1) = j + v + 1 by omega] at h
    exact h
  have hAfact : ∀ v, v + 1 < u →
      (bAt st2 ((j + v) % st.capacity)).occupied = true ∧
      (bAt st2 ((j + v) % st.capacity)).key = (bAt st ((j + v + 1) % st.capacity)).key ∧
      (bAt st2 ((j + v) % st.capacity)).hash = (bAt st ((j + v + 1) % st.capacity)).hash ∧
      (bAt st2 ((j + v) % st.capacity)).distance =
        (bAt st ((j + v + 1) % st.capacity)).distance - 1 := by
    intro v hv
    rw [hshift v hv]
    exact ⟨(hSrc v hv).1, rfl, rfl, rfl⟩
  have hprev2 : ∀ i : Nat, prevIdx st2 i = (i + st.capacity - 1) % st.capacity := by
    intro i
    show (i + st2.capacity - 1) % st2.capacity = _
    rw [hcap2]
  have hsucc_prev : ∀ i, i < st.capacity →
      ((i + st.capacity - 1) % st.capacity + 1) % st.capacity = i := by
    intro i hi
    rw [show i + st.capacity - 1 = i + (st.capacity - 1) by omega, Nat.mod_add_mod,
      show i + (st.capacity - 1) + 1 = i + st.capacity by omega, Nat.add_mod_right]
    exact Nat.mod_eq_of_lt hi
  have hsource : ∀ w, w < st.capacity → (bAt st2 w).occupied = true →
      ∃ s, s < st.capacity ∧ s ≠ j ∧ (bAt st s).occupied = true ∧
        (bAt st s).key = (bAt st2 w).key ∧
        ((s = w ∧ ∀ v, v < u → w ≠ (j + v) % st.capacity) ∨
          ∃ v, v + 1 < u ∧ w = (j + v) % st.capacity ∧ s = (j + v + 1) % st.capacity) := by
    intro w hw hoccw
    rcases classify w hw with ⟨v, hv, rfl⟩ | hB | hC
    · rcases hAfact v hv with ⟨_, hk, _, _⟩
      refine ⟨(j + v + 1) % st.capacity, Nat.mod_lt _ hc, ?_, (hSrc v hv).1, hk.symm,
        Or.inr ⟨v, hv, rfl, rfl⟩⟩
      intro heq
      have h2 := @add_mod_ne st.capacity (v + 1) j (by omega) (by omega)
      rw [Nat.mod_eq_of_lt hj] at h2
      exact h2 (by rw [show j + (v + 1) = j + v + 1 by omega]; exact heq)
    · exfalso
      rw [hB, hvac] at hoccw
      exact hvoid hoccw
    · refine ⟨w, hw, ?_, ?_, ?_, Or.inl ⟨rfl, hC⟩⟩
      · exact fun h => hC 0 (by omega) (by rw [h, Nat.add_zero, Nat.mod_eq_of_lt hj])
      · rw [← hunch w hC]
        exact hoccw
      · rw [hunch w hC]
  refine ⟨⟨?_, ?_, ?_, ?_, ?_, ?_, ?_, ?_⟩, ?_⟩
  · rw [hcap2]
    exact hs.cap_pow
  · rw [hmask2, hcap2]
    exact hs.mask_eq
  · rw [hlen2, hcap2]
    exact hs.len_eq
  · -- hash_ok
    intro i hi hocc2
    rw [hcap2] at hi
    rcases classify i hi with ⟨v, hv, rfl⟩ | hB | hC
    · rcases hAfact v hv with ⟨_, hk2, hh2, _⟩
      rw [hh2, hk2]
      exact hs.hash_ok _ (Nat.mod_lt _ hc) (hSrc v hv).1
    · exfalso
      rw [hB, hvac] at hocc2
      exact hvoid hocc2
    · rw [hunch i hC] at hocc2 ⊢
      exact hs.hash_ok i hi hocc2
  · -- dist_lt
    intro i hi hocc2
    rw [hcap2] at hi ⊢
    rcases classify i hi with ⟨v, hv, rfl⟩ | hB | hC
    · rcases hAfact v hv with ⟨_, _, _, hd2eq⟩
      rw [hd2eq]
      have := hs.dist_lt _ (Nat.mod_lt _ hc) (hSrc v hv).1
      omega
    · exfalso
      rw [hB, hvac] at hocc2
      exact hvoid hocc2
    · rw [hunch i hC] at hocc2 ⊢
      exact hs.dist_lt i hi hocc2
  · -- dist_ok
    intro i hi hocc2
    rw [hcap2] at hi
    rcases classify i hi with ⟨v, hv, rfl⟩ | hB | hC
    · rcases hAfact v hv with ⟨_, _, hh2, hd2eq⟩
      have hplt : (j + v + 1) % st.capacity < st.capacity := Nat.mod_lt _ hc
      have hso := hSrc v hv
      have hsp := hs.dist_ok _ hplt hso.1
      rw [hcap2, hh2, hd2eq]
      calc (j + v) % st.capacity
          = ((j + v + 1) % st.capacity + st.capacity - 1) % st.capacity :=
            (prev_mod_succ hc (j + v)).symm
        _ = (((bAt st ((j + v + 1) % st.capacity)).hash +
              (bAt st ((j + v + 1) % st.capacity)).distance) % st.capacity +
              st.capacity - 1) % st.capacity := by rw [← hsp]
        _ = ((bAt st ((j + v + 1) % st.capacity)).hash +
              ((bAt st ((j + v + 1) % st.capacity)).distance - 1)) % st.capacity := by
            rw [show (bAt st ((j + v + 1) % st.capacity)).hash +
                (bAt st ((j + v + 1) % st.capacity)).distance =
                (bAt st ((j + v + 1) % st.capacity)).hash +
                ((bAt st ((j + v + 1) % st.capacity)).distance - 1) + 1 by omega]
            exact prev_mod_succ hc _
    · exfalso
      rw [hB, hvac] at hocc2
      exact hvoid hocc2
    · rw [hunch i hC] at hocc2 ⊢
      rw [hcap2]
      exact hs.dist_ok i hi hocc2
  · -- chain_ok
    intro i hi hocc2 hdist2
    rw [hcap2] at hi
    rcases classify i hi with ⟨v, hv, rfl⟩ | hB | hC
    · rcases hAfact v hv with ⟨_, _, _, hd2eq⟩
      rcases Nat.eq_zero_or_pos v with hv0 | hvpos
      · subst hv0
        by_cases hucap : u = st.capacity
        · exfalso
          have hd1 := hwrap hucap (by omega)
          rw [show j + 0 + 1 = j + 1 by omega, hd1] at hd2eq
          omega
        · have hi0 : (j + 0) % st.capacity = j := by
            rw [Nat.add_zero]
            exact Nat.mod_eq_of_lt hj
          have hCprev : ∀ v', v' < u →
              (j + (st.capacity - 1)) % st.capacity ≠ (j + v') % st.capacity := by
            intro v' hv' heq
            have h5 := mod_off_inj j (show st.capacity - 1 < st.capacity by omega)
              (show v' < st.capacity by omega) heq
            omega
          have hprevU := hunch _ hCprev
          have hsplt : (j + 0 + 1) % st.capacity < st.capacity := Nat.mod_lt _ hc
          have hchain1 := hs.chain_ok _ hsplt (hSrc 0 hv).1 (by omega)
          have hpj : prevIdx st ((j + 0 + 1) % st.capacity) = j := by
            show ((j + 0 + 1) % st.capacity + st.capacity - 1) % st.capacity = j
            rw [prev_mod_succ hc (j + 0), Nat.add_zero]
            exact Nat.mod_eq_of_lt hj
          rw [hpj] at hchain1
          have hdj0 : 0 < (bAt st j).distance := by omega
          have hchain0 := hs.chain_ok j hj hocc hdj0
          have hpJ : prevIdx st j = (j + (st.capacity - 1)) % st.capacity := by
            show (j + st.capacity - 1) % st.capacity = _
            rw [show j + st.capacity - 1 = j + (st.capacity - 1) by omega]
          rw [hpJ] at hchain0
          have hq : prevIdx st2 ((j + 0) % st.capacity) =
              (j + (st.capacity - 1)) % st.capacity := by
            rw [hprev2, hi0, show j + st.capacity - 1 = j + (st.capacity - 1) by omega]
          rw [hq, hprevU]
          exact ⟨hchain0.1, by omega⟩
      · rcases hAfact (v - 1) (by omega) with ⟨hoP, _, _, hdPeq⟩
        rw [show j + (v - 1) + 1 = j + v by omega] at hdPeq
        have hsplt : (j + v + 1) % st.capacity < st.capacity := Nat.mod_lt _ hc
        have hchain := hs.chain_ok _ hsplt (hSrc v hv).1 (by omega)
        have hspp : prevIdx st ((j + v + 1) % st.capacity) = (j + v) % st.capacity := by
          show ((j + v + 1) % st.capacity + st.capacity - 1) % st.capacity = _
          exact prev_mod_succ hc (j + v)
        rw [hspp] at hchain
        have hvfact := hH1 v (by omega) (by omega)
        have hq : prevIdx st2 ((j + v) % st.capacity) = (j + (v - 1)) % st.capacity := by
          rw [hprev2, show j + v = j + (v - 1) + 1 by omega]
          exact prev_mod_succ hc (j + (v - 1))
        rw [hq]
        exact ⟨hoP, by omega⟩
    · exfalso
      rw [hB, hvac] at hocc2
      exact hvoid hocc2
    · have hiu := hunch i hC
      have hiocc : (bAt st i).occupied = true := by rw [← hiu]; exact hocc2
      have hidist : 0 < (bAt st i).distance := by rw [← hiu]; exact hdist2
      by_cases hpex : ∃ v, v < u ∧
          (i + st.capacity - 1) % st.capacity = (j + v) % st.capacity
      · rcases hpex with ⟨v, hvu, hpeq⟩
        have hi_succ : i = (j + v + 1) % st.capacity := by
          have h1 := hsucc_prev i hi
          rw [hpeq, Nat.mod_add_mod] at h1
          exact h1.symm
        by_cases hv1 : v + 1 < u
        · exact absurd (by rw [show j + (v + 1) = j + v + 1 by omega]; exact hi_succ)
            (hC (v + 1) hv1)
        · have hiu2 : i = (j + u) % st.capacity := by
            rw [hi_succ, show j + v + 1 = j + u by omega]
          by_cases hucap : u = st.capacity
          · exfalso
            have hij : i = j := by
              rw [hiu2, hucap, Nat.add_mod_right]
              exact Nat.mod_eq_of_lt hj
            exact hC 0 (by omega) (by rw [hij, Nat.add_zero, Nat.mod_eq_of_lt hj])
          · exact absurd ⟨by rw [← hiu2]; exact hiocc, by rw [← hiu2]; exact hidist⟩
              (hH2 (by omega))
      · push_neg at hpex
        have hpU := hunch _ hpex
        have hchain := hs.chain_ok i hi hiocc hidist
        have hpe : prevIdx st i = (i + st.capacity - 1) % st.capacity := rfl
        rw [hpe] at hchain
        rw [hprev2, hpU, hiu]
        exact hchain
  · -- distinct
    intro a ha b hb hocca hoccb hab hkeyeq
    rw [hcap2] at ha hb
    rcases hsource a ha hocca with ⟨sa, hsa, _, hsocca, hska, hta⟩
    rcases hsource b hb hoccb with ⟨sb, hsb, _, hsoccb, hskb, htb⟩
    have hsne : sa ≠ sb := by
      rcases hta with ⟨rfl, hCa⟩ | ⟨va, hva, hweqa, rfl⟩ <;>
        rcases htb with ⟨rfl, hCb⟩ | ⟨vb, hvb, hweqb, rfl⟩
      · exact hab
      · intro h
        exact hCa (vb + 1) (by omega)
          (by rw [show j + (vb + 1) = j + vb + 1 by omega]; exact h)
      · intro h
        exact hCb (va + 1) (by omega)
          (by rw [show j + (va + 1) = j + va + 1 by omega]; exact h.symm)
      · intro h
        have h6 := mod_off_inj j (show va + 1 < st.capacity by omega)
          (show vb + 1 < st.capacity by omega)
          (by rw [show j + (va + 1) = j + va + 1 by omega,
            show j + (vb + 1) = j + vb + 1 by omega]; exact h)
        apply hab
        rw [hweqa, hweqb, show va = vb by omega]
    exact hs.distinct sa hsa sb hsb hsocca hsoccb hsne (by rw [hska, hskb, hkeyeq])
  · -- membership
    intro k
    constructor
    · intro ⟨i, hi, hocci, hkeyi⟩
      rw [hcap2] at hi
      rcases hsource i hi hocci with ⟨s, hslt, hsj, hsocc, hskey, _⟩
      exact ⟨s, hslt, hsj, hsocc, by rw [hskey, hkeyi]⟩
    · intro ⟨i, hi, hij, hocci, hkeyi⟩
      by_cases hiex : ∃ v, v < u ∧ i = (j + v) % st.capacity
      · rcases hiex with ⟨v, hvu, rfl⟩
        have hv1 : 1 ≤ v := by
          rcases Nat.eq_zero_or_pos v with h0 | h
          · exfalso
            apply hij
            subst h0
            rw [Nat.add_zero]
            exact Nat.mod_eq_of_lt hj
          · exact h
        rcases hAfact (v - 1) (by omega) with ⟨ho, hk, _, _⟩
        rw [show j + (v - 1) + 1 = j + v by omega] at hk
        refine ⟨(j + (v - 1)) % st.capacity, ?_, ho, ?_⟩
        · rw [hcap2]
          exact Nat.mod_lt _ hc
        · rw [hk]
          exact hkeyi
      · push_neg at hiex
        refine ⟨i, by rw [hcap2]; exact hi, ?_, ?_⟩
        · rw [hunch i hiex]
          exact hocci
        · rw [hunch i hiex]
          exact hkeyi

/-- Run of `eraseAtPosition` on an occupied slot of an invariant-satisfying
table: it terminates within the fuel bound, restores the slot invariant,
removes one occupied bucket, and the remaining keys are exactly those stored
outside the erased slot. -/
theorem eraseAt_run {hasher : Nat → Nat} {st : Table} (hinv : Inv hasher st)
    {j : Nat} (hj : j < st.capacity) (hocc : (bAt st j).occupied = true) :
    ∃ st2, eraseShift (st.capacity + 1) st j ((j + 1) &&& st.mask) = some st2 ∧
      SlotInv hasher st2 ∧ st2.capacity = st.capacity ∧ st2.mask = st.mask ∧
      st2.size = st.size ∧ occCount st2 + 1 = occCount st ∧
      (∀ k, st2.MemKey k ↔ st.MemExcept j k) := by
  classical
  have hs := hinv.slots
  have hc : 0 < st.capacity := hs.cap_pos
  have hlen := hs.len_eq
  have hjlen : j < st.buckets.length := by rw [hlen]; exact hj
  by_cases hstop : ∃ u, 1 ≤ u ∧ u ≤ st.capacity - 1 ∧
      ¬ ((bAt st ((j + u) % st.capacity)).occupied = true ∧
        0 < (bAt st ((j + u) % st.capacity)).distance)
  · have hex : ∃ u, 1 ≤ u ∧
        ¬ ((bAt st ((j + u) % st.capacity)).occupied = true ∧
          0 < (bAt st ((j + u) % st.capacity)).distance) := by
      rcases hstop with ⟨u, h1, _, h3⟩
      exact ⟨u, h1, h3⟩
    set u0 := Nat.find hex with hu0def
    have hu0spec : 1 ≤ u0 ∧
        ¬ ((bAt st ((j + u0) % st.capacity)).occupied = true ∧
          0 < (bAt st ((j + u0) % st.capacity)).distance) := by
      rw [hu0def]
      exact Nat.find_spec hex
    have hu0le : u0 ≤ st.capacity - 1 := by
      rcases hstop with ⟨u, h1, h2, h3⟩
      have hmin : u0 ≤ u := by
        rw [hu0def]
        exact Nat.find_min' hex ⟨h1, h3⟩
      omega
    have hH1 : ∀ v, 1 ≤ v → v < u0 →
        (bAt st ((j + v) % st.capacity)).occupied = true ∧
        0 < (bAt st ((j + v) % st.capacity)).distance := by
      intro v hv1 hvlt
      by_contra hcon
      rw [hu0def] at hvlt
      exact Nat.find_min hex hvlt ⟨hv1, hcon⟩
    obtain ⟨st2, hrun, hcap2, hmask2, hsize2, hlen2, hocc2, hshift, hvac, hunch⟩ :=
      eraseShift_go u0 (st.capacity + 1) st j hs.cap_pow hs.mask_eq hlen hj
        hu0spec.1 hu0le (by omega) hocc hH1 hu0spec.2
    obtain ⟨hslot2, hmem2⟩ :=
      eraseDesc_conclusions hs hj hocc hu0spec.1 (by omega) hH1
        (fun _ => hu0spec.2) (fun hcap _ => absurd hcap (by omega)) hcap2 hmask2 hlen2
        hshift hvac hunch
    exact ⟨st2, hrun, hslot2, hcap2, hmask2, hsize2, hocc2, hmem2⟩
  · push_neg at hstop
    have hcaple : st.capacity ≤ 2 := by
      by_contra hgt
      push_neg at hgt
      rcases hinv.lf_ok with hlf | hle
      · have hocc_lt : occCount st < st.capacity := by
          rw [← hinv.size_eq]
          omega
        rcases exists_unocc hs hocc_lt with ⟨e, helt, hemp⟩
        rcases exists_offset hc e j helt with ⟨v, hvlt, hveq⟩
        have hv1 : 1 ≤ v := by
          rcases Nat.eq_zero_or_pos v with h0 | h
          · exfalso
            subst h0
            rw [Nat.add_zero, Nat.mod_eq_of_lt hj] at hveq
            rw [← hveq] at hemp
            rw [hocc] at hemp
            cases hemp
          · exact h
        have hsu := hstop v hv1 (by omega)
        rw [hveq] at hsu
        rcases hsu with ⟨h1, _⟩
        rw [hemp] at h1
        cases h1
      · omega
    have hland : ∀ x : Nat, x &&& st.mask = x % st.capacity := fun x => hs.land_mask x
    rcases (show st.capacity = 1 ∨ st.capacity = 2 by omega) with hcap1 | hcap2c
    · have hj0 : j = 0 := by omega
      subst hj0
      have hd0 : (bAt st 0).distance = 0 := by
        have := hs.dist_lt 0 hj hocc
        omega
      have hnp : (0 + 1) &&& st.mask = 0 := by
        rw [hland (0 + 1), hcap1]
      refine ⟨setB st 0 Bucket.emptyB, ?_, ?_, rfl, rfl, rfl,
        occCount_set_occ_unocc hjlen hocc rfl, ?_⟩
      · rw [hnp]
        show (if (bAt st 0).occupied = true ∧ (bAt st 0).distance > 0 then
            eraseShift st.capacity (setB st 0 { bAt st 0 with
              distance := (bAt st 0).distance - 1 }) 0 ((0 + 1) &&& st.mask)
          else some (setB st 0 Bucket.emptyB)) = some (setB st 0 Bucket.emptyB)
        rw [if_neg (fun hand => absurd hand.2 (by rw [hd0]; omega))]
      · refine ⟨hs.cap_pow, hs.mask_eq, ?_, ?_, ?_, ?_, ?_, ?_⟩
        · show (st.buckets.set 0 Bucket.emptyB).length = st.capacity
          rw [List.length_set]
          exact hlen
        · intro i hi hocci
          exfalso
          have hic : i < st.capacity := hi
          have hi0 : i = 0 := by omega
          subst hi0
          rw [bAt_setB_self hjlen _] at hocci
          exact absurd hocci (by decide)
        · intro i hi hocci
          exfalso
          have hic : i < st.capacity := hi
          have hi0 : i = 0 := by omega
          subst hi0
          rw [bAt_setB_self hjlen _] at hocci
          exact absurd hocci (by decide)
        · intro i hi hocci
          exfalso
          have hic : i < st.capacity := hi
          have hi0 : i = 0 := by omega
          subst hi0
          rw [bAt_setB_self hjlen _] at hocci
          exact absurd hocci (by decide)
        · intro i hi hocci
          exfalso
          have hic : i < st.capacity := hi
          have hi0 : i = 0 := by omega
          subst hi0
          rw [bAt_setB_self hjlen _] at hocci
          exact absurd hocci (by decide)
        · intro a ha b hb _ _ hne
          have hac : a < st.capacity := ha
          have hbc : b < st.capacity := hb
          exact absurd (show a = b by omega) hne
      · intro k
        constructor
        · intro ⟨i, hi, hocci, _⟩
          exfalso
          have hic : i < st.capacity := hi
          have hi0 : i = 0 := by omega
          subst hi0
          rw [bAt_setB_self hjlen _] at hocci
          exact absurd hocci (by decide)
        · intro ⟨i, hi, hij, _, _⟩
          exfalso
          omega
    · have hfull := hstop 1 (by omega) (by omega)
      have hd1 : (bAt st ((j + 1) % st.capacity)).distance = 1 := by
        have := hs.dist_lt ((j + 1) % st.capacity) (Nat.mod_lt _ hc) hfull.1
        have h2 := hfull.2
        omega
      set b0 : Bucket := { bAt st ((j + 1) % st.capacity) with
        distance := (bAt st ((j + 1) % st.capacity)).distance - 1 } with hb0
      have hb0occ : b0.occupied = true := hfull.1
      have hb0d : b0.distance = 0 := by
        show (bAt st ((j + 1) % st.capacity)).distance - 1 = 0
        omega
      have hne1 : (j + 1) % st.capacity ≠ j := by
        have h2 := @add_mod_ne st.capacity 1 j (by omega) (by omega)
        rw [Nat.mod_eq_of_lt hj] at h2
        exact h2
      have hst1len : (setB st j b0).buckets.length = (setB st j b0).capacity := by
        show (st.buckets.set j b0).length = st.capacity
        rw [List.length_set]
        exact hlen
      have hpos2 : ((j + 1) % st.capacity + 1) % st.capacity = j := by
        rw [Nat.mod_add_mod, show j + 1 + 1 = j + st.capacity by omega,
          Nat.add_mod_right]
        exact Nat.mod_eq_of_lt hj
      have hgoH2 : ¬ ((bAt (setB st j b0) (((j + 1) % st.capacity + 1) %
            (setB st j b0).capacity)).occupied = true ∧
          0 < (bAt (setB st j b0) (((j + 1) % st.capacity + 1) %
            (setB st j b0).capacity)).distance) := by
        show ¬ ((bAt (setB st j b0) (((j + 1) % st.capacity + 1) %
            st.capacity)).occupied = true ∧
          0 < (bAt (setB st j b0) (((j + 1) % st.capacity + 1) %
            st.capacity)).distance)
        rw [hpos2, bAt_setB_self hjlen b0]
        intro hand
        rw [hb0d] at hand
        exact absurd hand.2 (by omega)
      have hoccj1 : (bAt (setB st j b0) ((j + 1) % st.capacity)).occupied = true := by
        rw [bAt_setB_ne _ b0 (fun h => hne1 h.symm)]
        exact hfull.1
      obtain ⟨st2, hrun2, hcap2', hmask2', hsize2', hlen2', hocc2', hshift2, hvac2,
          hunch2⟩ :=
        eraseShift_go 1 st.capacity (setB st j b0) ((j + 1) % st.capacity) hs.cap_pow
          hs.mask_eq hst1len (Nat.mod_lt _ hc) (by omega)
          (by show (1 : Nat) ≤ st.capacity - 1; omega) (by omega) hoccj1
          (fun v hv1 hvu => by omega) hgoH2
      have hrun : eraseShift (st.capacity + 1) st j ((j + 1) &&& st.mask) = some st2 := by
        rw [hland (j + 1)]
        show (if (bAt st ((j + 1) % st.capacity)).occupied = true ∧
            (bAt st ((j + 1) % st.capacity)).distance > 0 then
            eraseShift st.capacity (setB st j { bAt st ((j + 1) % st.capacity) with
              distance := (bAt st ((j + 1) % st.capacity)).distance - 1 })
              ((j + 1) % st.capacity) (((j + 1) % st.capacity + 1) &&& st.mask)
          else some (setB st j Bucket.emptyB)) = some st2
        rw [if_pos ⟨hfull.1, by omega⟩]
        exact hrun2
      have hcap2f : st2.capacity = st.capacity := hcap2'
      have hmask2f : st2.mask = st.mask := hmask2'
      have hsize2f : st2.size = st.size := hsize2'
      have hlen2f : st2.buckets.length = st.buckets.length := by
        rw [hlen2']
        exact List.length_set _ _ _
      have hoccf : occCount st2 + 1 = occCount st := by
        have heq : occCount (setB st j b0) = occCount st :=
          occCount_set_occ_occ hjlen hocc hb0occ
        rw [hocc2', heq]
      have hshiftf : ∀ v, v + 1 < 2 → bAt st2 ((j + v) % st.capacity) =
          { bAt st ((j + v + 1) % st.capacity) with
            distance := (bAt st ((j + v + 1) % st.capacity)).distance - 1 } := by
        intro v hv
        have hv0 : v = 0 := by omega
        subst hv0
        have hj0 : (j + 0) % st.capacity = j := by
          rw [Nat.add_zero]
          exact Nat.mod_eq_of_lt hj
        rw [hj0, show j + 0 + 1 = j + 1 by omega]
        have hwne : ∀ v', v' < 1 → j ≠ ((j + 1) % st.capacity + v') %
            (setB st j b0).capacity := by
          intro v' hv'
          have hv'0 : v' = 0 := by omega
          subst hv'0
          show j ≠ ((j + 1) % st.capacity + 0) % st.capacity
          rw [Nat.add_zero, Nat.mod_eq_of_lt (Nat.mod_lt _ hc)]
          exact fun h => hne1 h.symm
        have h6 := hunch2 j hwne
        rw [h6, bAt_setB_self hjlen b0]
      have hvacf : bAt st2 ((j + (2 - 1)) % st.capacity) = Bucket.emptyB := by
        have h7 : bAt st2 (((j + 1) % st.capacity + (1 - 1)) %
            (setB st j b0).capacity) = Bucket.emptyB := hvac2
        have h8 : ((j + 1) % st.capacity + (1 - 1)) % st.capacity =
            (j + (2 - 1)) % st.capacity := by
          rw [show (1 : Nat) - 1 = 0 from rfl, Nat.add_zero,
            Nat.mod_eq_of_lt (Nat.mod_lt _ hc), show (2 : Nat) - 1 = 1 from rfl]
        rw [← h8]
        exact h7
      have hunchf : ∀ w, (∀ v, v < 2 → w ≠ (j + v) % st.capacity) →
          bAt st2 w = bAt st w := by
        intro w hw
        have hw1 : ∀ v', v' < 1 → w ≠ ((j + 1) % st.capacity + v') %
            (setB st j b0).capacity := by
          intro v' hv'
          have hv'0 : v' = 0 := by omega
          subst hv'0
          show w ≠ ((j + 1) % st.capacity + 0) % st.capacity
          rw [Nat.add_zero, Nat.mod_eq_of_lt (Nat.mod_lt _ hc)]
          exact hw 1 (by omega)
        rw [hunch2 w hw1]
        refine bAt_setB_ne _ b0 ?_
        intro h
        exact hw 0 (by omega) (by rw [Nat.add_zero, Nat.mod_eq_of_lt hj]; exact h.symm)
      obtain ⟨hslot2, hmem2⟩ :=
        @eraseDesc_conclusions hasher st st2 j 2 hs hj hocc (by omega)
          (by omega)
          (fun v hv1 hvu => by
            have hv1' : v = 1 := by omega
            subst hv1'
            exact hfull)
          (fun hlt => absurd hlt (by omega))
          (fun _ _ => hd1) hcap2f hmask2f hlen2f hshiftf hvacf hunchf
      exact ⟨st2, hrun, hslot2, hcap2f, hmask2f, hsize2f, hoccf, hmem2⟩

/-- Specification of `erase(key)`: it terminates; on a present key it
returns `true`, restores the invariant, decrements the size by one, removes
exactly that key, and keeps the capacity; on an absent key it returns
`false` with the table unchanged. -/
theorem erase_spec {hasher : Nat → Nat} {st : Table} (hinv : Inv hasher st) (k : Nat) :
    ∃ r, st.erase hasher k = some r ∧
      (st.MemKey k →
        r.1 = true ∧ Inv hasher r.2 ∧ r.2.size + 1 = st.size ∧
        ¬ r.2.MemKey k ∧ (∀ k', k' ≠ k → (r.2.MemKey k' ↔ st.MemKey k')) ∧
        r.2.capacity = st.capacity) ∧
      (¬ st.MemKey k → r = (false, st)) := by
  have hs := hinv.slots
  have hc : 0 < st.capacity := hs.cap_pos
  by_cases hmem : st.MemKey k
  · obtain ⟨j, hj, hocc, hkey⟩ := hmem
    have hfind : eraseFind st k (hasher k) (st.capacity + 1)
        ((hasher k) &&& st.mask) 0 = some (some j) := by
      rw [hs.land_mask,
        show hasher k % st.capacity = (hasher k + 0) % st.capacity by rw [Nat.add_zero]]
      exact eraseFind_present hs hj hocc hkey (bAt st j).distance 0 (st.capacity + 1)
        (by omega) (by have := hs.dist_lt j hj hocc; omega)
    obtain ⟨st2, hrun, hslot2, hcap2, hmask2, hsize2, hocc2, hmem2⟩ :=
      eraseAt_run hinv hj hocc
    refine ⟨(true, decSize st2), ?_, ?_, ?_⟩
    · show (match eraseFind st k (hasher k) (st.capacity + 1)
          ((hasher k) &&& st.mask) 0 with
        | none => none
        | some none => some (false, st)
        | some (some pos) =>
          (eraseShift (st.capacity + 1) st pos ((pos + 1) &&& st.mask)).map
            (fun st3 => (true, decSize st3))) = some (true, decSize st2)
      rw [hfind]
      show (eraseShift (st.capacity + 1) st j ((j + 1) &&& st.mask)).map
        (fun st3 => (true, decSize st3)) = some (true, decSize st2)
      rw [hrun]
      rfl
    · intro _
      refine ⟨rfl, ?_, ?_, ?_, ?_, ?_⟩
      · refine ⟨⟨hslot2.cap_pow, hslot2.mask_eq, hslot2.len_eq, hslot2.hash_ok,
          hslot2.dist_lt, hslot2.dist_ok, hslot2.chain_ok, hslot2.distinct⟩, ?_, ?_⟩
        · show st2.size - 1 = occCount st2
          have h9 := hinv.size_eq
          omega
        · show (st2.size - 1) * 100 ≤ st2.capacity * 75 ∨ st2.capacity ≤ 2
          rcases hinv.lf_ok with h | h
          · left
            rw [hcap2]
            omega
          · right
            rw [hcap2]
            exact h
      · show st2.size - 1 + 1 = st.size
        have h9 := hinv.size_eq
        omega
      · intro hmk
        have hmk' : st2.MemKey k := hmk
        rcases (hmem2 k).mp hmk' with ⟨i, hilt, hij, hocci, hkeyi⟩
        exact hs.distinct i hilt j hj hocci hocc hij (by rw [hkeyi, hkey])
      · intro k' hk'
        constructor
        · intro hmk'
          rcases (hmem2 k').mp hmk' with ⟨i, hilt, _, hocci, hkeyi⟩
          exact ⟨i, hilt, hocci, hkeyi⟩
        · intro ⟨i, hilt, hocci, hkeyi⟩
          have hij : i ≠ j := by
            intro hij
            apply hk'
            rw [← hkeyi, hij, hkey]
          exact (hmem2 k').mpr ⟨i, hilt, hij, hocci, hkeyi⟩
      · show st2.capacity = st.capacity
        exact hcap2
    · intro hno
      exact absurd ⟨j, hj, hocc, hkey⟩ hno
  · have hfind : eraseFind st k (hasher k) (st.capacity + 1)
        ((hasher k) &&& st.mask) 0 = some none := by
      rw [hs.land_mask,
        show hasher k % st.capacity = (hasher k + 0) % st.capacity by rw [Nat.add_zero]]
      refine eraseFind_absent hs ?_ st.capacity 0 (st.capacity + 1) (by omega) (by omega)
      intro j hj hocc hkey
      exact hmem ⟨j, hj, hocc, hkey⟩
    refine ⟨(false, st), ?_, fun hmk => absurd hmk hmem, fun _ => rfl⟩
    show (match eraseFind st k (hasher k) (st.capacity + 1)
        ((hasher k) &&& st.mask) 0 with
      | none => none
      | some none => some (false, st)
      | some (some pos) =>
        (eraseShift (st.capacity + 1) st pos ((pos + 1) &&& st.mask)).map
          (fun st3 => (true, decSize st3))) = some (false, st)
    rw [hfind]

/-- Specification of `reserve`: it terminates, never shrinks the capacity,
keeps the size and the key set, and preserves the invariant. -/
theorem reserve_spec {hasher : Nat → Nat} {st : Table} (hinv : Inv hasher st) (n : Nat) :
    ∃ st2, Table.reserveOp hasher st n = some st2 ∧ Inv hasher st2 ∧
      st2.size = st.size ∧ st.capacity ≤ st2.capacity ∧
      (∀ k, st2.MemKey k ↔ st.MemKey k) := by
  have hs := hinv.slots
  have hc : 0 < st.capacity := hs.cap_pos
  by_cases h1 : n > st.capacity
  · by_cases h2 : growPow2 n 1 > st.capacity
    · have hszle : st.size ≤ st.capacity := by
        rw [hinv.size_eq]
        have hl := occCount_le_len st
        rw [hs.len_eq] at hl
        exact hl
      have hpowN := growPow2_pow n
      have h2cap : 2 * st.capacity ≤ growPow2 n 1 := by
        rcases hs.cap_pow with ⟨a, ha⟩
        rcases hpowN with ⟨b, hb⟩
        rw [ha, hb] at h2 ⊢
        have hab : a < b := by
          by_contra hle
          push_neg at hle
          have := Nat.pow_le_pow_right (show 1 ≤ 2 by omega) hle
          omega
        calc 2 * 2 ^ a = 2 ^ (a + 1) := by ring
          _ ≤ 2 ^ b := Nat.pow_le_pow_right (by omega) (by omega)
      have hfreshInv : Inv hasher (freshTable (growPow2 n 1)) :=
        inv_freshTable hasher _ hpowN
      have hcnt : st.buckets.countP (fun b => b.occupied) = st.size := by
        rw [hinv.size_eq]
        rfl
      have hplf : ((freshTable (growPow2 n 1)).size +
          st.buckets.countP (fun b => b.occupied)) * 100 ≤
          (freshTable (growPow2 n 1)).capacity * 75 := by
        show (0 + st.buckets.countP (fun b => b.occupied)) * 100 ≤ growPow2 n 1 * 75
        rw [hcnt]
        omega
      rcases reinsert_go 1 st.buckets (freshTable (growPow2 n 1)) hfreshInv hplf
          (fun b _ _ => memKey_fresh _ b.key) (pairwise_of_distinct hs) with
        ⟨st2, hrun, hinv2, hsize2, hcap2, _, hmem2⟩
      refine ⟨st2, ?_, hinv2, ?_, ?_, ?_⟩
      · show (if n > st.capacity then
            if growPow2 n 1 > st.capacity then
              reinsertList (insertInternalF hasher 1) st.buckets
                (freshTable (growPow2 n 1))
            else some st
          else some st) = some st2
        rw [if_pos h1, if_pos h2]
        exact hrun
      · rw [hsize2, hcnt]
        show 0 + st.size = st.size
        omega
      · have h3 : st2.capacity = growPow2 n 1 := by rw [hcap2]; rfl
        omega
      · intro k
        rw [hmem2 k]
        constructor
        · intro h
          rcases h with h | hex
          · exact absurd h (memKey_fresh _ k)
          · exact (memKey_iff_exists_mem hs k).mpr hex
        · intro h
          exact Or.inr ((memKey_iff_exists_mem hs k).mp h)
    · refine ⟨st, ?_, hinv, rfl, Nat.le_refl _, fun k => Iff.rfl⟩
      show (if n > st.capacity then
          if growPow2 n 1 > st.capacity then
            reinsertList (insertInternalF hasher 1) st.buckets
              (freshTable (growPow2 n 1))
          else some st
        else some st) = some st
      rw [if_pos h1, if_neg h2]
  · refine ⟨st, ?_, hinv, rfl, Nat.le_refl _, fun k => Iff.rfl⟩
    show (if n > st.capacity then
        if growPow2 n 1 > st.capacity then
          reinsertList (insertInternalF hasher 1) st.buckets
            (freshTable (growPow2 n 1))
        else some st
      else some st) = some st
    rw [if_neg h1]

end RH

/-- Claim C1: from any invariant-satisfying table state (in particular every
state reachable by construction), a finite sequence of inserts terminates,
and afterwards `find(k)` returns a (non-null) pointer to the entry equal to
`k` for every key `k` of the sequence — the entry last inserted for `k`
(under the modelled `KeyEqual`, equality, all entries inserted for `k`
coincide with `k`). -/
theorem C1_roundtrip (hasher : Nat → Nat) (st : RH.Table) (hinv : RH.Inv hasher st)
    (ks : List Nat) :
    ∃ st2, RH.insertList hasher st ks = some st2 ∧
      ∀ k ∈ ks, st2.find hasher k = some (some k) := by
  rcases RH.insertList_spec ks st hinv with ⟨st2, hrun, hinv2, hmem⟩
  refine ⟨st2, hrun, ?_⟩
  intro k hk
  exact RH.find_present hinv2.slots ((hmem k).mpr (Or.inr hk))

/-- Witness for C1: inserting the keys 3, 1, 2 into a default-constructed
table makes each of them findable. -/
theorem C1_roundtrip_witness :
    ∃ st2, RH.insertList idHasher RH.Table.emptyTable [3, 1, 2] = some st2 ∧
      ∀ k ∈ [3, 1, 2], st2.find idHasher k = some (some k) :=
  C1_roundtrip idHasher RH.Table.emptyTable (RH.inv_emptyTable idHasher) [3, 1, 2]

/-- Claim C4 (corrected form): for every invariant-satisfying table of
capacity at least 4 (in particular every table reachable from the default
constructor) and every insert, immediately after the insert call returns the
non-strict bound `size() * 100 ≤ capacity() * 75` holds; the strict variant
of the claim fails because the bound is attained with equality (see the
counterexample), the doubling being performed at the start of the subsequent
insert that finds the threshold met. -/
theorem C4_load_factor (hasher : Nat → Nat) (st : RH.Table) (hinv : RH.Inv hasher st)
    (hcap : 4 ≤ st.capacity) (k : Nat) :
    ∃ r, st.insert hasher k = some r ∧ r.2.size * 100 ≤ r.2.capacity * 75 := by
  rcases RH.insert_spec k hinv with ⟨b, st2, hrun, hinv2, _, _, _, hcap2⟩
  refine ⟨(b, st2), hrun, ?_⟩
  rcases hinv2.lf_ok with h | h
  · exact h
  · rcases hcap2 with h2 | h2 <;> omega

/-- Witness for C4 at a concrete insert into the default-constructed
table. -/
theorem C4_load_factor_witness :
    ∃ r, RH.Table.emptyTable.insert idHasher 0 = some r ∧
      r.2.size * 100 ≤ r.2.capacity * 75 :=
  C4_load_factor idHasher RH.Table.emptyTable (RH.inv_emptyTable idHasher) (by decide) 0

/-- Claim C5: on any invariant-satisfying (in particular any reachable)
table, `erase(k)` terminates; if it returns `true` then `contains(k)` is
false afterwards, the size has decreased by exactly one, and every other key
present before is still present and findable; if `k` is absent it returns
`false` and the table state is unchanged (the returned state is the input
state itself). -/
theorem C5_erase_postcondition (hasher : Nat → Nat) (st : RH.Table)
    (hinv : RH.Inv hasher st) (k : Nat) :
    ∃ r, st.erase hasher k = some r ∧
      (st.MemKey k →
        r.1 = true ∧ r.2.containsKey hasher k = some false ∧
        r.2.size + 1 = st.size ∧
        (∀ k', k' ≠ k → (r.2.MemKey k' ↔ st.MemKey k')) ∧
        (∀ k', k' ≠ k → st.MemKey k' → r.2.find hasher k' = some (some k'))) ∧
      (¬ st.MemKey k → r = (false, st)) := by
  rcases RH.erase_spec hinv k with ⟨r, hrun, hpres, habs⟩
  refine ⟨r, hrun, ?_, habs⟩
  intro hmk
  rcases hpres hmk with ⟨hb, hinv2, hsz, hnomem, hothers, _⟩
  refine ⟨hb, ?_, hsz, hothers, ?_⟩
  · show (r.2.find hasher k).map Option.isSome = some false
    rw [RH.find_absent hinv2.slots hnomem]
    rfl
  · intro k' hk' hmk'
    exact RH.find_present hinv2.slots ((hothers k' hk').mpr hmk')

/-- Witness for C5 at a concrete erase on the default-constructed table. -/
theorem C5_erase_postcondition_witness :
    ∃ r, RH.Table.emptyTable.erase idHasher 7 = some r ∧
      (RH.Table.emptyTable.MemKey 7 →
        r.1 = true ∧ r.2.containsKey idHasher 7 = some false ∧
        r.2.size + 1 = RH.Table.emptyTable.size ∧
        (∀ k', k' ≠ 7 → (r.2.MemKey k' ↔ RH.Table.emptyTable.MemKey k')) ∧
        (∀ k', k' ≠ 7 → RH.Table.emptyTable.MemKey k' →
          r.2.find idHasher k' = some (some k'))) ∧
      (¬ RH.Table.emptyTable.MemKey 7 → r = (false, RH.Table.emptyTable)) :=
  C5_erase_postcondition idHasher RH.Table.emptyTable (RH.inv_emptyTable idHasher) 7

/-- Claim C6: a resize — automatic (the capacity doubling triggered inside
`insertInternal`) or explicit via `reserve(n)` — terminates and preserves
exactly the key set: afterwards the same keys are present, each findable,
with the same `size()`; by the pairwise key distinctness of the restored
invariant no entry is duplicated, and by the size equality none is
dropped. -/
theorem C6_resize_preserves_membership (hasher : Nat → Nat) (st : RH.Table)
    (hinv : RH.Inv hasher st) (rf n : Nat) :
    (∃ st2, RH.Table.resizeOp hasher rf st = some st2 ∧ st2.size = st.size ∧
      (∀ k, st2.MemKey k ↔ st.MemKey k) ∧
      (∀ k, st.MemKey k → st2.find hasher k = some (some k))) ∧
    (∃ st3, RH.Table.reserveOp hasher st n = some st3 ∧ st3.size = st.size ∧
      (∀ k, st3.MemKey k ↔ st.MemKey k) ∧
      (∀ k, st.MemKey k → st3.find hasher k = some (some k))) := by
  constructor
  · rcases RH.resize_spec hinv rf with ⟨st2, hrun, hinv2, _, hsize, hmem, _⟩
    exact ⟨st2, hrun, hsize, hmem, fun k hk =>
      RH.find_present hinv2.slots ((hmem k).mpr hk)⟩
  · rcases RH.reserve_spec hinv n with ⟨st3, hrun, hinv3, hsize, _, hmem⟩
    exact ⟨st3, hrun, hsize, hmem, fun k hk =>
      RH.find_present hinv3.slots ((hmem k).mpr hk)⟩

/-- Witness for C6: resize and reserve on the default-constructed table at
concrete arguments. -/
theorem C6_resize_preserves_membership_witness :
    (∃ st2, RH.Table.resizeOp idHasher 1 RH.Table.emptyTable = some st2 ∧
      st2.size = RH.Table.emptyTable.size ∧
      (∀ k, st2.MemKey k ↔ RH.Table.emptyTable.MemKey k) ∧
      (∀ k, RH.Table.emptyTable.MemKey k → st2.find idHasher k = some (some k))) ∧
    (∃ st3, RH.Table.reserveOp idHasher RH.Table.emptyTable 64 = some st3 ∧
      st3.size = RH.Table.emptyTable.size ∧
      (∀ k, st3.MemKey k ↔ RH.Table.emptyTable.MemKey k) ∧
      (∀ k, RH.Table.emptyTable.MemKey k → st3.find idHasher k = some (some k))) :=
  C6_resize_preserves_membership idHasher RH.Table.emptyTable
    (RH.inv_emptyTable idHasher) 1 64

namespace CHD

/-- Read of a just-written list position. -/
theorem getD_set_self {α : Type} (l : List α) (i : Nat) (a d : α) (h : i < l.length) :
    (l.set i a).getD i d = a := by
  rw [List.getD_eq_getElem _ _ (by simpa using h)]
  exact List.getElem_set_self (by simpa using h)

/-- Read of an unwritten list position. -/
theorem getD_set_ne {α : Type} (l : List α) {i : Nat} (j : Nat) (a d : α)
    (hne : i ≠ j) : (l.set i a).getD j d = l.getD j d := by
  by_cases hj : j < l.length
  · rw [List.getD_eq_getElem _ _ (by simpa using hj), List.getD_eq_getElem _ _ hj]
    exact List.getElem_set_ne hne _
  · rw [List.getD_eq_default _ _ (by simpa using Nat.le_of_not_lt hj),
      List.getD_eq_default _ _ (Nat.le_of_not_lt hj)]

/-- In-range read of a replicated list. -/
theorem getD_replicate {α : Type} (n i : Nat) (a d : α) (h : i < n) :
    (List.replicate n a).getD i d = a := by
  rw [List.getD_eq_getElem _ _ (by simpa using h)]
  simp

/-- Out-of-range read of a replicated list. -/
theorem getD_replicate_default {α : Type} (n i : Nat) (a d : α) (h : n ≤ i) :
    (List.replicate n a).getD i d = d :=
  List.getD_eq_default _ _ (by simpa using h)

/-- The default head of a non-empty list is a member. -/
theorem headD_mem {α : Type} {l : List α} (h : l ≠ []) (d : α) : l.headD d ∈ l := by
  cases l with
  | nil => exact absurd rfl h
  | cons x xs => exact List.mem_cons_self x xs

/-- One insertion step of the size sort is a permutation. -/
theorem insertBySizeDesc_perm (x : Nat × List (Nat × Nat)) :
    ∀ l, (insertBySizeDesc x l).Perm (x :: l) := by
  intro l
  induction l with
  | nil => exact List.Perm.refl _
  | cons y ys ih =>
    show (if y.2.length < x.2.length then x :: y :: ys
      else y :: insertBySizeDesc x ys).Perm (x :: y :: ys)
    by_cases h : y.2.length < x.2.length
    · rw [if_pos h]
    · rw [if_neg h]
      exact (ih.cons y).trans (List.Perm.swap x y ys)

/-- The size sort is a permutation, which is all the correctness proofs use
about it. -/
theorem sortBySizeDesc_perm :
    ∀ l : List (Nat × List (Nat × Nat)), (sortBySizeDesc l).Perm l := by
  intro l
  induction l with
  | nil => exact List.Perm.refl _
  | cons x xs ih =>
    show (insertBySizeDesc x (sortBySizeDesc xs)).Perm (x :: xs)
    exact (insertBySizeDesc_perm x (sortBySizeDesc xs)).trans (ih.cons x)

/-- A successful seed search returns a seed at or above the start value whose
collision checks pass. -/
theorem chdFindSeed_sound (seedMix : Nat → Nat → Nat → Nat) (ts : Nat)
    (occ : List Bool) (bks : List (List (Nat × Nat))) (bucket : List (Nat × Nat)) :
    ∀ bound start seed ps,
      chdFindSeed seedMix ts occ bks bucket bound start = some (seed, ps) →
      start ≤ seed ∧ chdCheckSeed seedMix ts occ bks seed bucket [] = some ps := by
  intro bound
  induction bound with
  | zero =>
    intro start seed ps h
    exact absurd h (by simp [chdFindSeed])
  | succ bound ih =>
    intro start seed ps h
    have hunf : chdFindSeed seedMix ts occ bks bucket (bound + 1) start =
        match chdCheckSeed seedMix ts occ bks start bucket [] with
        | some ps' => some (start, ps')
        | none => chdFindSeed seedMix ts occ bks bucket bound (start + 1) := rfl
    rcases hc : chdCheckSeed seedMix ts occ bks start bucket [] with _ | ps'
    · rw [hunf, hc] at h
      rcases ih (start + 1) seed ps h with ⟨hle, hcs⟩
      exact ⟨by omega, hcs⟩
    · rw [hunf, hc] at h
      have h2 := Option.some.inj h
      rw [Prod.mk.injEq] at h2
      obtain ⟨rfl, rfl⟩ := h2
      exact ⟨Nat.le_refl _, hc⟩

/-- Fold invariant of the bucketing pass: the result keeps the table size,
and its members are exactly the accumulator's members plus one entry per
swept index, carrying the item's hash and landing in the bucket addressed by
`hash & (tableSize - 1)`. -/
theorem fillBuckets_go (hasher : Nat → Nat) (ts : Nat) (items : List (Nat × Nat))
    (hts : 0 < ts) :
    ∀ (idxs : List Nat) (acc : List (List (Nat × Nat))), acc.length = ts →
      (idxs.foldl
        (fun bks i =>
          bks.set (hasher (items.getD i (0, 0)).1 &&& (ts - 1))
            (bks.getD (hasher (items.getD i (0, 0)).1 &&& (ts - 1)) [] ++
              [(i, hasher (items.getD i (0, 0)).1)]))
        acc).length = ts ∧
      (∀ b p, p ∈ (idxs.foldl
          (fun bks i =>
            bks.set (hasher (items.getD i (0, 0)).1 &&& (ts - 1))
              (bks.getD (hasher (items.getD i (0, 0)).1 &&& (ts - 1)) [] ++
                [(i, hasher (items.getD i (0, 0)).1)]))
          acc).getD b [] ↔
        (p ∈ acc.getD b [] ∨ (p.1 ∈ idxs ∧
          p.2 = hasher (items.getD p.1 (0, 0)).1 ∧ b = p.2 &&& (ts - 1)))) := by
  intro idxs
  induction idxs with
  | nil =>
    intro acc hlen
    refine ⟨hlen, ?_⟩
    intro b p
    simp
  | cons i rest ih =>
    intro acc hlen
    have hbi_lt : hasher (items.getD i (0, 0)).1 &&& (ts - 1) < ts := by
      have := Nat.and_le_right (n := hasher (items.getD i (0, 0)).1) (m := ts - 1)
      omega
    have hlen' : (acc.set (hasher (items.getD i (0, 0)).1 &&& (ts - 1))
        (acc.getD (hasher (items.getD i (0, 0)).1 &&& (ts - 1)) [] ++
          [(i, hasher (items.getD i (0, 0)).1)])).length = ts := by
      rw [List.length_set]
      exact hlen
    rcases ih _ hlen' with ⟨hl2, hm2⟩
    refine ⟨hl2, ?_⟩
    intro b p
    rw [List.foldl_cons, hm2 b p]
    by_cases hb : hasher (items.getD i (0, 0)).1 &&& (ts - 1) = b
    · rw [← hb, getD_set_self _ _ _ _ (by rw [hlen]; exact hbi_lt)]
      constructor
      · intro hcase
        rcases hcase with hmem | ⟨h1, h2, h3⟩
        · rcases List.mem_append.mp hmem with hmem' | hmem'
          · exact Or.inl hmem'
          · have hp : p = (i, hasher (items.getD i (0, 0)).1) := by
              simpa using hmem'
            subst hp
            exact Or.inr ⟨List.mem_cons_self _ _, rfl, rfl⟩
        · exact Or.inr ⟨List.mem_cons_of_mem _ h1, h2, h3⟩
      · intro hcase
        rcases hcase with hmem | ⟨h1, h2, h3⟩
        · exact Or.inl (List.mem_append.mpr (Or.inl hmem))
        · rcases List.mem_cons.mp h1 with rfl | h1'
          · left
            apply List.mem_append.mpr
            right
            have hp : p = (p.1, hasher (items.getD p.1 (0, 0)).1) := by
              rw [← h2]
            exact List.mem_singleton.mpr hp
          · exact Or.inr ⟨h1', h2, h3⟩
    · rw [getD_set_ne _ _ _ _ hb]
      constructor
      · intro hcase
        rcases hcase with hmem | ⟨h1, h2, h3⟩
        · exact Or.inl hmem
        · exact Or.inr ⟨List.mem_cons_of_mem _ h1, h2, h3⟩
      · intro hcase
        rcases hcase with hmem | ⟨h1, h2, h3⟩
        · exact Or.inl hmem
        · rcases List.mem_cons.mp h1 with rfl | h1'
          · exact absurd
              (show hasher (items.getD p.1 (0, 0)).1 &&& (ts - 1) = b by rw [h3, h2]) hb
          · exact Or.inr ⟨h1', h2, h3⟩

/-- Characterization of the bucketing pass: `tableSize` buckets whose
members are exactly the item indices with their hashes, each in the bucket
addressed by `hash & (tableSize - 1)`. -/
theorem fillBuckets_facts (hasher : Nat → Nat) (ts : Nat) (items : List (Nat × Nat))
    (hts : 0 < ts) :
    (fillBuckets hasher ts items).length = ts ∧
    (∀ b p, p ∈ (fillBuckets hasher ts items).getD b [] ↔
      (p.1 < items.length ∧ p.2 = hasher (items.getD p.1 (0, 0)).1 ∧
        b = p.2 &&& (ts - 1))) := by
  have h := fillBuckets_go hasher ts items hts (List.range items.length)
    (List.replicate ts []) (List.length_replicate _ _)
  have hdef : fillBuckets hasher ts items = (List.range items.length).foldl
      (fun bks i =>
        bks.set (hasher (items.getD i (0, 0)).1 &&& (ts - 1))
          (bks.getD (hasher (items.getD i (0, 0)).1 &&& (ts - 1)) [] ++
            [(i, hasher (items.getD i (0, 0)).1)]))
      (List.replicate ts []) := rfl
  rw [hdef]
  refine ⟨h.1, ?_⟩
  intro b p
  rw [h.2 b p]
  have hrep : (List.replicate ts ([] : List (Nat × Nat))).getD b [] = [] := by
    by_cases hb : b < ts
    · exact getD_replicate _ _ _ _ hb
    · exact getD_replicate_default _ _ _ _ (by omega)
  rw [hrep]
  simp [List.mem_range]

/-- Success conditions of one seed check: the returned positions extend the
accumulator by one masked `seedMix` slot per member, each unoccupied, not
reserved for a single-item bucket, and pairwise fresh. -/
theorem chdCheckSeed_spec (seedMix : Nat → Nat → Nat → Nat) (ts : Nat)
    (occ : List Bool) (bks : List (List (Nat × Nat))) (seed : Nat) :
    ∀ (ms : List (Nat × Nat)) (acc ps : List Nat),
      chdCheckSeed seedMix ts occ bks seed ms acc = some ps →
      ∃ new, ps = acc ++ new ∧ new.length = ms.length ∧
        (∀ q ∈ ms.zip new, q.2 = seedMix seed q.1.2 ts &&& (ts - 1) ∧
          occ.getD q.2 false = false ∧ (bks.getD q.2 []).length ≠ 1) ∧
        (acc.Nodup → ps.Nodup) := by
  intro ms
  induction ms with
  | nil =>
    intro acc ps h
    have h2 : acc = ps := Option.some.inj h
    subst h2
    exact ⟨[], by simp, rfl, by simp, fun hn => hn⟩
  | cons m rest ih =>
    intro acc ps h
    rcases m with ⟨i, hsh⟩
    revert h
    show (if occ.getD (seedMix seed hsh ts &&& (ts - 1)) false = true then none
      else if (bks.getD (seedMix seed hsh ts &&& (ts - 1)) []).length = 1 then none
      else if (seedMix seed hsh ts &&& (ts - 1)) ∈ acc then none
      else chdCheckSeed seedMix ts occ bks seed rest
        (acc ++ [seedMix seed hsh ts &&& (ts - 1)])) = some ps → _
    intro h
    by_cases h1 : occ.getD (seedMix seed hsh ts &&& (ts - 1)) false = true
    · rw [if_pos h1] at h
      exact absurd h (by simp)
    · rw [if_neg h1] at h
      by_cases h2 : (bks.getD (seedMix seed hsh ts &&& (ts - 1)) []).length = 1
      · rw [if_pos h2] at h
        exact absurd h (by simp)
      · rw [if_neg h2] at h
        by_cases h3 : (seedMix seed hsh ts &&& (ts - 1)) ∈ acc
        · rw [if_pos h3] at h
          exact absurd h (by simp)
        · rw [if_neg h3] at h
          rcases ih (acc ++ [seedMix seed hsh ts &&& (ts - 1)]) ps h with
            ⟨new', hps, hlen, hzip, hnd⟩
          refine ⟨(seedMix seed hsh ts &&& (ts - 1)) :: new', ?_, ?_, ?_, ?_⟩
          · rw [hps]
            simp
          · simp [hlen]
          · intro q hq
            rw [List.zip_cons_cons] at hq
            rcases List.mem_cons.mp hq with rfl | hq'
            · refine ⟨rfl, ?_, h2⟩
              revert h1
              cases occ.getD (seedMix seed hsh ts &&& (ts - 1)) false <;> simp
            · exact hzip q hq'
          · intro hnda
            apply hnd
            simp [List.nodup_append, hnda, h3]

/-- Placement of a bucket's members: slots outside the written positions are
untouched, and with pairwise-distinct in-range positions every written slot
ends occupied with its item. -/
theorem placeAll_spec (items : List (Nat × Nat)) :
    ∀ (pairs : List (Nat × Nat)) (table : List (Nat × Nat)) (occ : List Bool),
      (∀ pos, (∀ q ∈ pairs, q.2 ≠ pos) →
        (placeAll items pairs table occ).1.getD pos (0, 0) = table.getD pos (0, 0) ∧
        (placeAll items pairs table occ).2.getD pos false = occ.getD pos false) ∧
      ((pairs.map Prod.snd).Nodup →
        ∀ q ∈ pairs, q.2 < table.length → q.2 < occ.length →
          (placeAll items pairs table occ).2.getD q.2 false = true ∧
          (placeAll items pairs table occ).1.getD q.2 (0, 0) =
            items.getD q.1 (0, 0)) := by
  intro pairs
  induction pairs with
  | nil =>
    intro table occ
    exact ⟨fun pos _ => ⟨rfl, rfl⟩, fun _ q hq => absurd hq (by simp)⟩
  | cons q0 rest ih =>
    intro table occ
    rcases q0 with ⟨i, pos0⟩
    have ihx := ih (table.set pos0 (items.getD i (0, 0))) (occ.set pos0 true)
    constructor
    · intro pos hnp
      have hd := ihx.1 pos (fun q hq => hnp q (List.mem_cons_of_mem _ hq))
      have hne : pos0 ≠ pos := hnp (i, pos0) (List.mem_cons_self _ _)
      constructor
      · show (placeAll items rest (table.set pos0 (items.getD i (0, 0)))
            (occ.set pos0 true)).1.getD pos (0, 0) = table.getD pos (0, 0)
        rw [hd.1, getD_set_ne _ _ _ _ hne]
      · show (placeAll items rest (table.set pos0 (items.getD i (0, 0)))
            (occ.set pos0 true)).2.getD pos false = occ.getD pos false
        rw [hd.2, getD_set_ne _ _ _ _ hne]
    · intro hnd q hq hqt hqo
      rcases List.mem_cons.mp hq with rfl | hq'
      · have hpos0notin : ∀ q' ∈ rest, q'.2 ≠ pos0 := by
          intro q' hq' heq
          rw [List.map_cons, List.nodup_cons] at hnd
          have hmm : q'.2 ∈ rest.map Prod.snd := List.mem_map_of_mem Prod.snd hq'
          rw [heq] at hmm
          exact hnd.1 hmm
        have hd := ihx.1 pos0 hpos0notin
        constructor
        · show (placeAll items rest (table.set pos0 (items.getD i (0, 0)))
              (occ.set pos0 true)).2.getD pos0 false = true
          rw [hd.2, getD_set_self _ _ _ _ hqo]
        · show (placeAll items rest (table.set pos0 (items.getD i (0, 0)))
              (occ.set pos0 true)).1.getD pos0 (0, 0) = items.getD i (0, 0)
          rw [hd.1, getD_set_self _ _ _ _ hqt]
      · have hnd' : (rest.map Prod.snd).Nodup := by
          rw [List.map_cons, List.nodup_cons] at hnd
          exact hnd.2
        exact ihx.2 hnd' q hq' (by rw [List.length_set]; exact hqt)
          (by rw [List.length_set]; exact hqo)

/-- Run of the bucket-processing loop: when it completes, the array lengths
are kept, every occupied slot holds a genuine item, already-placed slots and
the seeds of unlisted buckets persist, negative seeds always encode a direct
slot, and every listed bucket ends up correctly placed — single-item buckets
at their home slot with the negative sentinel, multi-item buckets member by
member at the slots of the found seed. -/
theorem chdProcess_run (seedMix : Nat → Nat → Nat → Nat) (ts n bound : Nat)
    (items : List (Nat × Nat)) (bks : List (List (Nat × Nat)))
    ( _hts : 0 < ts)
    (hmixlt : ∀ s h, seedMix s h ts < ts)
    (hlmix : ∀ s h, seedMix s h ts &&& (ts - 1) = seedMix s h ts)
    (hmem_lt : ∀ b, ∀ p ∈ bks.getD b [], p.1 < n)
    (hmem_home : ∀ b, ∀ p ∈ bks.getD b [], b = p.2 &&& (ts - 1)) :
    ∀ (rest : List (Nat × List (Nat × Nat))) (table : List (Nat × Nat))
      (seeds : List Int) (occ : List Bool),
      (∀ x ∈ rest, x.1 < ts ∧ x.2 = bks.getD x.1 [] ∧ x.2 ≠ []) →
      (rest.map Prod.fst).Nodup →
      table.length = ts → seeds.length = ts → occ.length = ts →
      (∀ pos, occ.getD pos false = true →
        ∃ i, i < n ∧ table.getD pos (0, 0) = items.getD i (0, 0)) →
      (∀ x ∈ rest, x.2.length = 1 → occ.getD x.1 false = false) →
      (∀ b, seeds.getD b 0 < 0 → seeds.getD b 0 = -(Int.ofNat b + 1)) →
      ∀ tableF seedsF occF,
        chdProcess seedMix ts items bks bound rest table seeds occ =
          some (tableF, seedsF, occF) →
        tableF.length = ts ∧ seedsF.length = ts ∧ occF.length = ts ∧
        (∀ pos, occF.getD pos false = true →
          ∃ i, i < n ∧ tableF.getD pos (0, 0) = items.getD i (0, 0)) ∧
        (∀ pos, occ.getD pos false = true → occF.getD pos false = true ∧
          tableF.getD pos (0, 0) = table.getD pos (0, 0)) ∧
        (∀ b, (∀ x ∈ rest, x.1 ≠ b) → seedsF.getD b 0 = seeds.getD b 0) ∧
        (∀ b, seedsF.getD b 0 < 0 → seedsF.getD b 0 = -(Int.ofNat b + 1)) ∧
        (∀ x ∈ rest,
          (x.2.length = 1 → seedsF.getD x.1 0 = -(Int.ofNat x.1 + 1) ∧
            occF.getD x.1 false = true ∧
            tableF.getD x.1 (0, 0) = items.getD (x.2.headD (0, 0)).1 (0, 0)) ∧
          (x.2.length ≠ 1 → ∃ seed, seedsF.getD x.1 0 = Int.ofNat seed ∧
            ∀ p ∈ x.2, occF.getD (seedMix seed p.2 ts) false = true ∧
              tableF.getD (seedMix seed p.2 ts) (0, 0) = items.getD p.1 (0, 0))) := by
  intro rest
  induction rest with
  | nil =>
    intro table seeds occ _ _ hlt hls hlo hI2 _ hI5 tableF seedsF occF hrun
    have h1 := Option.some.inj hrun
    rw [Prod.mk.injEq, Prod.mk.injEq] at h1
    obtain ⟨rfl, rfl, rfl⟩ := h1
    exact ⟨hlt, hls, hlo, hI2, fun pos hp => ⟨hp, rfl⟩, fun b _ => rfl, hI5,
      fun x hx => absurd hx (by simp)⟩
  | cons hd rest' ih =>
    rcases hd with ⟨bIdx, bucket⟩
    intro table seeds occ hR1 hR2 hlt hls hlo hI2 hI4 hI5 tableF seedsF occF hrun
    obtain ⟨hbIdx, hbeq, hbne⟩ := hR1 (bIdx, bucket) (List.mem_cons_self _ _)
    have hR2' : (rest'.map Prod.fst).Nodup := by
      rw [List.map_cons, List.nodup_cons] at hR2
      exact hR2.2
    have hbNotIn : ∀ x ∈ rest', x.1 ≠ bIdx := by
      intro x hx heq
      rw [List.map_cons, List.nodup_cons] at hR2
      have hmm : x.1 ∈ rest'.map Prod.fst := List.mem_map_of_mem Prod.fst hx
      rw [heq] at hmm
      exact hR2.1 hmm
    by_cases hlen1 : bucket.length = 1
    · -- single-item bucket: direct placement at the home slot
      rw [chdProcess, if_pos hlen1] at hrun
      have hhead_lt : (bucket.headD (0, 0)).1 < n := by
        apply hmem_lt bIdx
        rw [← hbeq]
        exact headD_mem hbne _
      have hI2' : ∀ pos, (occ.set bIdx true).getD pos false = true →
          ∃ i, i < n ∧ (table.set bIdx
            (items.getD (bucket.headD (0, 0)).1 (0, 0))).getD pos (0, 0) =
            items.getD i (0, 0) := by
        intro pos hp
        by_cases hpe : bIdx = pos
        · subst hpe
          refine ⟨(bucket.headD (0, 0)).1, hhead_lt, ?_⟩
          rw [getD_set_self _ _ _ _ (by rw [hlt]; exact hbIdx)]
        · rw [getD_set_ne _ _ _ _ hpe] at hp
          rcases hI2 pos hp with ⟨i2, hi2, htab⟩
          exact ⟨i2, hi2, by rw [getD_set_ne _ _ _ _ hpe]; exact htab⟩
      have hI4' : ∀ x ∈ rest', x.2.length = 1 →
          (occ.set bIdx true).getD x.1 false = false := by
        intro x hx hxlen
        rw [getD_set_ne _ _ _ _ (fun he => hbNotIn x hx he.symm)]
        exact hI4 x (List.mem_cons_of_mem _ hx) hxlen
      have hI5' : ∀ b, (seeds.set bIdx (-(Int.ofNat bIdx + 1))).getD b 0 < 0 →
          (seeds.set bIdx (-(Int.ofNat bIdx + 1))).getD b 0 = -(Int.ofNat b + 1) := by
        intro b hneg
        by_cases hbe : bIdx = b
        · subst hbe
          rw [getD_set_self _ _ _ _ (by rw [hls]; exact hbIdx)]
        · rw [getD_set_ne _ _ _ _ hbe] at hneg ⊢
          exact hI5 b hneg
      obtain ⟨hLt, hLs, hLo, hI2F, hPers, hSeedPers, hI5F, hRestF⟩ :=
        ih (table.set bIdx (items.getD (bucket.headD (0, 0)).1 (0, 0)))
          (seeds.set bIdx (-(Int.ofNat bIdx + 1))) (occ.set bIdx true)
          (fun x hx => hR1 x (List.mem_cons_of_mem _ hx)) hR2'
          (by rw [List.length_set]; exact hlt)
          (by rw [List.length_set]; exact hls)
          (by rw [List.length_set]; exact hlo)
          hI2' hI4' hI5' tableF seedsF occF hrun
      have hoccb : occ.getD bIdx false = false :=
        hI4 (bIdx, bucket) (List.mem_cons_self _ _) hlen1
      refine ⟨hLt, hLs, hLo, hI2F, ?_, ?_, hI5F, ?_⟩
      · intro pos hp
        have hpe : bIdx ≠ pos := by
          intro he
          rw [he] at hoccb
          rw [hoccb] at hp
          cases hp
        have h1 : (occ.set bIdx true).getD pos false = true := by
          rw [getD_set_ne _ _ _ _ hpe]
          exact hp
        rcases hPers pos h1 with ⟨ho, ht⟩
        exact ⟨ho, by rw [ht, getD_set_ne _ _ _ _ hpe]⟩
      · intro b hball
        have hbb : bIdx ≠ b := hball (bIdx, bucket) (List.mem_cons_self _ _)
        rw [hSeedPers b (fun x hx => hball x (List.mem_cons_of_mem _ hx)),
          getD_set_ne _ _ _ _ hbb]
      · intro x hx
        rcases List.mem_cons.mp hx with rfl | hx'
        · constructor
          · intro _
            refine ⟨?_, ?_, ?_⟩
            · show seedsF.getD bIdx 0 = -(Int.ofNat bIdx + 1)
              rw [hSeedPers bIdx hbNotIn,
                getD_set_self _ _ _ _ (by rw [hls]; exact hbIdx)]
            · show occF.getD bIdx false = true
              have h1 : (occ.set bIdx true).getD bIdx false = true :=
                getD_set_self _ _ _ _ (by rw [hlo]; exact hbIdx)
              exact (hPers bIdx h1).1
            · show tableF.getD bIdx (0, 0) =
                items.getD (bucket.headD (0, 0)).1 (0, 0)
              have h1 : (occ.set bIdx true).getD bIdx false = true :=
                getD_set_self _ _ _ _ (by rw [hlo]; exact hbIdx)
              rw [(hPers bIdx h1).2,
                getD_set_self _ _ _ _ (by rw [hlt]; exact hbIdx)]
          · intro hne1
            exact absurd hlen1 hne1
        · exact hRestF x hx'
    · -- multi-item bucket: seed search and batch placement
      rw [chdProcess, if_neg hlen1] at hrun
      rcases hfs : chdFindSeed seedMix ts occ bks bucket bound 1 with _ | ⟨seed, ps⟩
      · rw [hfs] at hrun
        exact absurd hrun (by simp)
      rw [hfs] at hrun
      have hrun2 : chdProcess seedMix ts items bks bound rest'
          (placeAll items ((bucket.map Prod.fst).zip ps) table occ).1
          (seeds.set ((bucket.headD (0, 0)).2 &&& (ts - 1)) (Int.ofNat seed))
          (placeAll items ((bucket.map Prod.fst).zip ps) table occ).2 =
          some (tableF, seedsF, occF) := hrun
      obtain ⟨hseed1, hcheck⟩ :=
        chdFindSeed_sound seedMix ts occ bks bucket bound 1 seed ps hfs
      obtain ⟨new, hpsnew, hlennew, hzip, hndf⟩ :=
        chdCheckSeed_spec seedMix ts occ bks seed bucket [] ps hcheck
      rw [List.nil_append] at hpsnew
      subst hpsnew
      have hndps : ps.Nodup := hndf List.nodup_nil
      have hhome : (bucket.headD (0, 0)).2 &&& (ts - 1) = bIdx := by
        have hh := hmem_home bIdx (bucket.headD (0, 0))
          (by rw [← hbeq]; exact headD_mem hbne _)
        exact hh.symm
      rw [hhome] at hrun2
      have hpairs_eq : (bucket.map Prod.fst).zip ps =
          (bucket.zip ps).map (Prod.map Prod.fst id) :=
        List.zip_map_left Prod.fst bucket ps
      have hsnd : ((bucket.map Prod.fst).zip ps).map Prod.snd = ps := by
        apply List.map_snd_zip
        rw [List.length_map]
        omega
      have hndpairs : (((bucket.map Prod.fst).zip ps).map Prod.snd).Nodup := by
        rw [hsnd]
        exact hndps
      have hpairfacts : ∀ q ∈ (bucket.map Prod.fst).zip ps,
          (∃ p ∈ bucket, p.1 = q.1 ∧ q.2 = seedMix seed p.2 ts &&& (ts - 1)) ∧
          occ.getD q.2 false = false ∧ (bks.getD q.2 []).length ≠ 1 := by
        intro q hqmem
        rw [hpairs_eq] at hqmem
        rcases List.mem_map.mp hqmem with ⟨r, hr, hrq⟩
        rcases r with ⟨p, pos⟩
        have hq1 : (p.1, pos) = q := hrq
        obtain rfl := hq1
        obtain ⟨hz1, hz2, hz3⟩ := hzip (p, pos) hr
        exact ⟨⟨p, (List.of_mem_zip hr).1, rfl, hz1⟩, hz2, hz3⟩
      have hnewlt : ∀ q ∈ (bucket.map Prod.fst).zip ps, q.2 < ts := by
        intro q hqmem
        obtain ⟨⟨p, _, _, hq2⟩, _, _⟩ := hpairfacts q hqmem
        rw [hq2, hlmix]
        exact hmixlt seed p.2
      have hpa := placeAll_spec items ((bucket.map Prod.fst).zip ps) table occ
      have hpal := placeAll_lengths items ((bucket.map Prod.fst).zip ps) table occ
      have hmempair : ∀ p ∈ bucket, ∃ pos, (p, pos) ∈ bucket.zip ps := by
        intro p hp
        rcases List.mem_iff_getElem.mp hp with ⟨idx, hidx, hpe⟩
        have hidx2 : idx < ps.length := by omega
        have hzl : idx < (bucket.zip ps).length := by
          rw [List.length_zip, lt_min_iff]
          exact ⟨hidx, hidx2⟩
        refine ⟨ps[idx], List.mem_iff_getElem.mpr ⟨idx, hzl, ?_⟩⟩
        rw [List.getElem_zip, hpe]
      have hI2' : ∀ pos,
          (placeAll items ((bucket.map Prod.fst).zip ps) table occ).2.getD pos
            false = true →
          ∃ i, i < n ∧ (placeAll items ((bucket.map Prod.fst).zip ps) table
            occ).1.getD pos (0, 0) = items.getD i (0, 0) := by
        intro pos hp
        by_cases hq : ∃ q ∈ (bucket.map Prod.fst).zip ps, q.2 = pos
        · rcases hq with ⟨q, hqmem, rfl⟩
          obtain ⟨⟨p, hpmem, hp1, _⟩, _, _⟩ := hpairfacts q hqmem
          have hplt : p.1 < n := by
            apply hmem_lt bIdx
            rw [← hbeq]
            exact hpmem
          have hW2 := hpa.2 hndpairs q hqmem
            (by rw [hlt]; exact hnewlt q hqmem)
            (by rw [hlo]; exact hnewlt q hqmem)
          refine ⟨q.1, ?_, hW2.2⟩
          rw [← hp1]
          exact hplt
        · push_neg at hq
          have hW := hpa.1 pos hq
          rw [hW.2] at hp
          rcases hI2 pos hp with ⟨i2, hi2, htab⟩
          exact ⟨i2, hi2, by rw [hW.1]; exact htab⟩
      have hI4' : ∀ x ∈ rest', x.2.length = 1 →
          (placeAll items ((bucket.map Prod.fst).zip ps) table occ).2.getD
            x.1 false = false := by
        intro x hx hxlen
        obtain ⟨_, hxb, _⟩ := hR1 x (List.mem_cons_of_mem _ hx)
        have hnw : ∀ q ∈ (bucket.map Prod.fst).zip ps, q.2 ≠ x.1 := by
          intro q hqmem heq
          obtain ⟨_, _, hq3⟩ := hpairfacts q hqmem
          rw [heq] at hq3
          apply hq3
          rw [← hxb]
          exact hxlen
        rw [(hpa.1 x.1 hnw).2]
        exact hI4 x (List.mem_cons_of_mem _ hx) hxlen
      have hI5' : ∀ b, (seeds.set bIdx (Int.ofNat seed)).getD b 0 < 0 →
          (seeds.set bIdx (Int.ofNat seed)).getD b 0 = -(Int.ofNat b + 1) := by
        intro b hneg
        by_cases hbe : bIdx = b
        · subst hbe
          rw [getD_set_self _ _ _ _ (by rw [hls]; exact hbIdx)] at hneg
          exact absurd hneg (not_lt.mpr (Int.ofNat_nonneg seed))
        · rw [getD_set_ne _ _ _ _ hbe] at hneg ⊢
          exact hI5 b hneg
      obtain ⟨hLt, hLs, hLo, hI2F, hPers, hSeedPers, hI5F, hRestF⟩ :=
        ih (placeAll items ((bucket.map Prod.fst).zip ps) table occ).1
          (seeds.set bIdx (Int.ofNat seed))
          (placeAll items ((bucket.map Prod.fst).zip ps) table occ).2
          (fun x hx => hR1 x (List.mem_cons_of_mem _ hx)) hR2'
          (by rw [hpal.1]; exact hlt)
          (by rw [List.length_set]; exact hls)
          (by rw [hpal.2]; exact hlo)
          hI2' hI4' hI5' tableF seedsF occF hrun2
      refine ⟨hLt, hLs, hLo, hI2F, ?_, ?_, hI5F, ?_⟩
      · intro pos hp
        have hnw : ∀ q ∈ (bucket.map Prod.fst).zip ps, q.2 ≠ pos := by
          intro q hqmem heq
          obtain ⟨_, hq2, _⟩ := hpairfacts q hqmem
          rw [heq, hp] at hq2
          cases hq2
        have hW := hpa.1 pos hnw
        have h1 : (placeAll items ((bucket.map Prod.fst).zip ps) table
            occ).2.getD pos false = true := by
          rw [hW.2]
          exact hp
        rcases hPers pos h1 with ⟨ho, ht⟩
        exact ⟨ho, by rw [ht, hW.1]⟩
      · intro b hball
        have hbb : bIdx ≠ b := hball (bIdx, bucket) (List.mem_cons_self _ _)
        rw [hSeedPers b (fun x hx => hball x (List.mem_cons_of_mem _ hx)),
          getD_set_ne _ _ _ _ hbb]
      · intro x hx
        rcases List.mem_cons.mp hx with rfl | hx'
        · constructor
          · intro h1'
            exact absurd h1' hlen1
          · intro _
            refine ⟨seed, ?_, ?_⟩
            · show seedsF.getD bIdx 0 = Int.ofNat seed
              rw [hSeedPers bIdx hbNotIn,
                getD_set_self _ _ _ _ (by rw [hls]; exact hbIdx)]
            · show ∀ p ∈ bucket, occF.getD (seedMix seed p.2 ts) false = true ∧
                tableF.getD (seedMix seed p.2 ts) (0, 0) = items.getD p.1 (0, 0)
              intro p hp
              rcases hmempair p hp with ⟨pos, hzmem⟩
              obtain ⟨hz1, _, _⟩ := hzip (p, pos) hzmem
              have hz1' : pos = seedMix seed p.2 ts &&& (ts - 1) := hz1
              have hposval : pos = seedMix seed p.2 ts := by
                rw [hz1']
                exact hlmix seed p.2
              have hqmem : (p.1, pos) ∈ (bucket.map Prod.fst).zip ps := by
                rw [hpairs_eq]
                exact List.mem_map.mpr ⟨(p, pos), hzmem, rfl⟩
              have hposlt : pos < ts := by
                rw [hposval]
                exact hmixlt seed p.2
              have hW2 := hpa.2 hndpairs (p.1, pos) hqmem
                (by show pos < table.length; rw [hlt]; exact hposlt)
                (by show pos < occ.length; rw [hlo]; exact hposlt)
              have h1 : (placeAll items ((bucket.map Prod.fst).zip ps) table
                  occ).2.getD pos false = true := hW2.1
              rcases hPers pos h1 with ⟨ho, ht⟩
              constructor
              · rw [← hposval]
                exact ho
              · rw [← hposval, ht]
                exact hW2.2
        · exact hRestF x hx'

/-- The CHD table size is a power of two. -/
theorem chdTableSize_pow (n : Nat) : ∃ k, chdTableSize n = 2 ^ k := by
  rcases RH.growPow2_pow n with ⟨k, hk⟩
  exact ⟨k + 1, by rw [chdTableSize, hk]; ring⟩

/-- The CHD table size is positive. -/
theorem chdTableSize_pos (n : Nat) : 0 < chdTableSize n := by
  rcases chdTableSize_pow n with ⟨k, hk⟩
  rw [hk]
  exact Nat.pos_pow_of_pos k (by omega)

/-- Correctness of a completed CHD construction on a non-empty batch: every
batch entry is found with its value, and `contains` is false for every key
distinct from all batch keys.  `seedMix` is only assumed to satisfy its
stated contract of landing in `[0, tableSize)`. -/
theorem buildCHD_correct (hasher : Nat → Nat) (seedMix : Nat → Nat → Nat → Nat)
    (bound : Nat) (items : List (Nat × Nat)) (st : ChdState)
    (hne : items ≠ [])
    (hmix : ∀ s h, seedMix s h (chdTableSize items.length) <
      chdTableSize items.length)
    (hbuild : buildCHD hasher seedMix bound items = some (Except.ok st)) :
    (∀ p ∈ items, st.find hasher seedMix p.1 = some p.2) ∧
    (∀ k, (∀ p ∈ items, p.1 ≠ k) → st.containsKey hasher seedMix k = false) := by
  rw [buildCHD] at hbuild
  have hn0 : ¬(items.length = 0) := fun h0 => hne (List.length_eq_zero.mp h0)
  rw [if_neg hn0] at hbuild
  by_cases hdup : dupScan items [] = true
  · rw [if_pos hdup] at hbuild
    exfalso
    have h2 := Option.some.inj hbuild
    cases h2
  rw [if_neg hdup] at hbuild
  set ts := chdTableSize items.length with hts_def
  set bks := fillBuckets hasher ts items with hbks_def
  set sorted := sortBySizeDesc (bks.enum.filter (fun p => !p.2.isEmpty))
    with hsorted_def
  have hts_pos : 0 < ts := chdTableSize_pos items.length
  have hts_pow : ∃ k2, ts = 2 ^ k2 := chdTableSize_pow items.length
  have hfb := fillBuckets_facts hasher ts items hts_pos
  rw [← hbks_def] at hfb
  have hlmix : ∀ s h, seedMix s h ts &&& (ts - 1) = seedMix s h ts := by
    intro s h
    rcases hts_pow with ⟨k2, hk2⟩
    rw [hk2, Nat.and_pow_two_sub_one_eq_mod]
    exact Nat.mod_eq_of_lt (by rw [← hk2]; exact hmix s h)
  have hmem_lt : ∀ b, ∀ p ∈ bks.getD b [], p.1 < items.length :=
    fun b p hp => ((hfb.2 b p).mp hp).1
  have hmem_home : ∀ b, ∀ p ∈ bks.getD b [], b = p.2 &&& (ts - 1) :=
    fun b p hp => ((hfb.2 b p).mp hp).2.2
  have hperm : sorted.Perm (bks.enum.filter (fun p => !p.2.isEmpty)) :=
    sortBySizeDesc_perm _
  have hR1 : ∀ x ∈ sorted, x.1 < ts ∧ x.2 = bks.getD x.1 [] ∧ x.2 ≠ [] := by
    intro x hx
    have hxf := hperm.mem_iff.mp hx
    rw [List.mem_filter] at hxf
    obtain ⟨hxe, hxp⟩ := hxf
    rcases List.mem_iff_getElem.mp hxe with ⟨idx, hidx, hxeq⟩
    have hidx' : idx < bks.length := by rw [← List.enum_length]; exact hidx
    rw [List.getElem_enum] at hxeq
    obtain rfl := hxeq.symm
    refine ⟨?_, ?_, ?_⟩
    · show idx < ts
      rw [← hfb.1]
      exact hidx'
    · show bks[idx] = bks.getD idx []
      exact (List.getD_eq_getElem _ _ hidx').symm
    · show bks[idx] ≠ []
      intro hnil
      rw [show (idx, bks[idx]).2 = bks[idx] from rfl, hnil] at hxp
      simp at hxp
  have hR2 : (sorted.map Prod.fst).Nodup := by
    have hsub : (bks.enum.filter (fun p => !p.2.isEmpty)).Sublist bks.enum :=
      List.filter_sublist _
    have hsub2 := hsub.map Prod.fst
    rw [List.enum_map_fst] at hsub2
    have h1 : ((bks.enum.filter (fun p => !p.2.isEmpty)).map Prod.fst).Nodup :=
      (List.nodup_range _).sublist hsub2
    exact ((hperm.map Prod.fst).nodup_iff).mpr h1
  have hI20 : ∀ pos, (List.replicate ts false).getD pos false = true →
      ∃ i, i < items.length ∧
        (List.replicate ts ((0 : Nat), (0 : Nat))).getD pos (0, 0) =
          items.getD i (0, 0) := by
    intro pos hp
    exfalso
    by_cases hlt : pos < ts
    · rw [getD_replicate _ _ _ _ hlt] at hp
      cases hp
    · rw [getD_replicate_default _ _ _ _ (by omega)] at hp
      cases hp
  have hI40 : ∀ x ∈ sorted, x.2.length = 1 →
      (List.replicate ts false).getD x.1 false = false := by
    intro x hx _
    by_cases hlt : x.1 < ts
    · exact getD_replicate _ _ _ _ hlt
    · exact getD_replicate_default _ _ _ _ (by omega)
  have hI50 : ∀ b, (List.replicate ts (0 : Int)).getD b 0 < 0 →
      (List.replicate ts (0 : Int)).getD b 0 = -(Int.ofNat b + 1) := by
    intro b hb
    exfalso
    by_cases hlt : b < ts
    · rw [getD_replicate _ _ _ _ hlt] at hb
      exact absurd hb (by omega)
    · rw [getD_replicate_default _ _ _ _ (by omega)] at hb
      exact absurd hb (by omega)
  rcases hpr : chdProcess seedMix ts items bks bound sorted
      (List.replicate ts (0, 0)) (List.replicate ts 0)
      (List.replicate ts false) with _ | r
  · rw [hpr] at hbuild
    exact absurd hbuild (by simp)
  rw [hpr] at hbuild
  rcases r with ⟨tableF, r2⟩
  rcases r2 with ⟨seedsF, occF⟩
  have h2 : Except.ok (⟨tableF, seedsF, occF, items.length⟩ : ChdState) =
      Except.ok st := Option.some.inj hbuild
  injection h2 with h3
  subst h3
  obtain ⟨hLenT, hLenS, hLenO, hI2F, _, _, _, hRestF⟩ :=
    chdProcess_run seedMix ts items.length bound items bks hts_pos hmix hlmix
      hmem_lt hmem_home sorted (List.replicate ts (0, 0)) (List.replicate ts 0)
      (List.replicate ts false) hR1 hR2 (List.length_replicate _ _)
      (List.length_replicate _ _) (List.length_replicate _ _) hI20 hI40 hI50
      tableF seedsF occF hpr
  have htne : ¬(tableF.isEmpty = true) := by
    cases htf : tableF with
    | nil =>
      rw [htf] at hLenT
      simp at hLenT
      omega
    | cons a l => simp
  have hpos_eq : ∀ hv, chdPosition seedMix ⟨tableF, seedsF, occF, items.length⟩ hv =
      (if seedsF.getD (hv &&& (tableF.length - 1)) 0 < 0 then
        (-(seedsF.getD (hv &&& (tableF.length - 1)) 0) - 1).toNat
      else seedMix (seedsF.getD (hv &&& (tableF.length - 1)) 0).toNat hv
        tableF.length) := fun hv => rfl
  constructor
  · -- every batch entry is found with its value
    intro p hp
    rcases List.mem_iff_getElem.mp hp with ⟨i, hi, hpe⟩
    have hgetD : items.getD i (0, 0) = p := by
      rw [List.getD_eq_getElem _ _ hi, hpe]
    have hmemb : (i, hasher p.1) ∈ bks.getD (hasher p.1 &&& (ts - 1)) [] := by
      refine (hfb.2 (hasher p.1 &&& (ts - 1)) (i, hasher p.1)).mpr ⟨hi, ?_, rfl⟩
      show hasher p.1 = hasher (items.getD i (0, 0)).1
      rw [hgetD]
    have hbne2 : bks.getD (hasher p.1 &&& (ts - 1)) [] ≠ [] := by
      intro h0
      rw [h0] at hmemb
      simp at hmemb
    have hblt : hasher p.1 &&& (ts - 1) < ts := by
      have := Nat.and_le_right (n := hasher p.1) (m := ts - 1)
      omega
    have hsorted_mem : (hasher p.1 &&& (ts - 1),
        bks.getD (hasher p.1 &&& (ts - 1)) []) ∈ sorted := by
      apply hperm.mem_iff.mpr
      rw [List.mem_filter]
      constructor
      · have hblen : hasher p.1 &&& (ts - 1) < bks.length := by
          rw [hfb.1]
          exact hblt
        refine List.mem_iff_getElem.mpr ⟨hasher p.1 &&& (ts - 1),
          by rw [List.enum_length]; exact hblen, ?_⟩
        rw [List.getElem_enum, List.getD_eq_getElem _ _ hblen]
      · show (!(bks.getD (hasher p.1 &&& (ts - 1)) []).isEmpty) = true
        simp only [Bool.not_eq_true']
        cases hcl : bks.getD (hasher p.1 &&& (ts - 1)) [] with
        | nil => exact absurd hcl hbne2
        | cons a l => rfl
    have hfacts := hRestF (hasher p.1 &&& (ts - 1),
      bks.getD (hasher p.1 &&& (ts - 1)) []) hsorted_mem
    show ChdState.find hasher seedMix ⟨tableF, seedsF, occF, items.length⟩ p.1 =
      some p.2
    by_cases hb1 : (bks.getD (hasher p.1 &&& (ts - 1)) []).length = 1
    · obtain ⟨hseedv, hoccv, htabv⟩ := hfacts.1 hb1
      have hbucket : bks.getD (hasher p.1 &&& (ts - 1)) [] = [(i, hasher p.1)] := by
        rcases hL : bks.getD (hasher p.1 &&& (ts - 1)) [] with _ | ⟨y, t⟩
        · rw [hL] at hmemb
          simp at hmemb
        · rw [hL] at hb1 hmemb
          have ht0 : t = [] := by
            have hlen0 : t.length = 0 := by simpa using hb1
            exact List.length_eq_zero.mp hlen0
          subst ht0
          have hy : (i, hasher p.1) = y := by simpa using hmemb
          rw [← hy]
      rw [hbucket] at htabv
      have hseedv' : seedsF.getD (hasher p.1 &&& (ts - 1)) 0 =
          -(((hasher p.1 &&& (ts - 1) : Nat) : Int) + 1) := hseedv
      have hposv : chdPosition seedMix ⟨tableF, seedsF, occF, items.length⟩
          (hasher p.1) = hasher p.1 &&& (ts - 1) := by
        rw [hpos_eq, hLenT, hseedv']
        rw [if_pos (by omega)]
        omega
      show (if tableF.isEmpty = true then none
        else if occF.getD (chdPosition seedMix
            ⟨tableF, seedsF, occF, items.length⟩ (hasher p.1)) false = true ∧
          (tableF.getD (chdPosition seedMix
            ⟨tableF, seedsF, occF, items.length⟩ (hasher p.1)) (0, 0)).1 = p.1 then
          some (tableF.getD (chdPosition seedMix
            ⟨tableF, seedsF, occF, items.length⟩ (hasher p.1)) (0, 0)).2
        else none) = some p.2
      rw [if_neg htne, hposv]
      have htabv2 : tableF.getD (hasher p.1 &&& (ts - 1)) (0, 0) = p := by
        rw [htabv]
        show items.getD i (0, 0) = p
        exact hgetD
      rw [if_pos ⟨hoccv, by rw [htabv2]⟩, htabv2]
    · obtain ⟨seed, hseedv, hmemfacts⟩ := hfacts.2 hb1
      have hmf := hmemfacts (i, hasher p.1) hmemb
      have hseedv' : seedsF.getD (hasher p.1 &&& (ts - 1)) 0 =
          ((seed : Nat) : Int) := hseedv
      have hposv : chdPosition seedMix ⟨tableF, seedsF, occF, items.length⟩
          (hasher p.1) = seedMix seed (hasher p.1) ts := by
        rw [hpos_eq, hLenT, hseedv']
        rw [if_neg (not_lt.mpr (Int.natCast_nonneg seed))]
        rw [show (((seed : Nat) : Int)).toNat = seed from rfl]
      show (if tableF.isEmpty = true then none
        else if occF.getD (chdPosition seedMix
            ⟨tableF, seedsF, occF, items.length⟩ (hasher p.1)) false = true ∧
          (tableF.getD (chdPosition seedMix
            ⟨tableF, seedsF, occF, items.length⟩ (hasher p.1)) (0, 0)).1 = p.1 then
          some (tableF.getD (chdPosition seedMix
            ⟨tableF, seedsF, occF, items.length⟩ (hasher p.1)) (0, 0)).2
        else none) = some p.2
      rw [if_neg htne, hposv]
      have hocc2 : occF.getD (seedMix seed (hasher p.1) ts) false = true := hmf.1
      have htab2 : tableF.getD (seedMix seed (hasher p.1) ts) (0, 0) = p := by
        have := hmf.2
        rw [hgetD] at this
        exact this
      rw [if_pos ⟨hocc2, by rw [htab2]⟩, htab2]
  · -- contains is false outside the batch keys
    intro k hk
    show (if tableF.isEmpty = true then false
      else decide (occF.getD (chdPosition seedMix
          ⟨tableF, seedsF, occF, items.length⟩ (hasher k)) false = true ∧
        (tableF.getD (chdPosition seedMix
          ⟨tableF, seedsF, occF, items.length⟩ (hasher k)) (0, 0)).1 = k)) = false
    rw [if_neg htne]
    apply decide_eq_false
    intro ⟨ho, hkeq⟩
    rcases hI2F _ ho with ⟨i2, hi2, htv⟩
    have hmem2 : items.getD i2 (0, 0) ∈ items := by
      rw [List.getD_eq_getElem _ _ hi2]
      exact List.getElem_mem _
    apply hk (items.getD i2 (0, 0)) hmem2
    rw [← hkeq, htv]

end CHD

/-- Claim C2: for every input batch with pairwise-distinct keys whose CHD
construction completes (returns the constructed map rather than throwing or
looping), and every `seedMix` satisfying its stated capability contract of
landing in `[0, tableSize)`, `find(k)` returns the value associated with `k`
for every key `k` of the batch, and `contains(k)` is false for every key
equal to no batch key. -/
theorem C2_chd_correctness (hasher : Nat → Nat) (seedMix : Nat → Nat → Nat → Nat)
    (bound : Nat) (items : List (Nat × Nat)) (st : CHD.ChdState)
    (hnodup : (items.map Prod.fst).Nodup)
    (hmix : ∀ s h, seedMix s h (CHD.chdTableSize items.length) <
      CHD.chdTableSize items.length)
    (hbuild : CHD.buildCHD hasher seedMix bound items = some (Except.ok st)) :
    (∀ p ∈ items, st.find hasher seedMix p.1 = some p.2) ∧
    (∀ k, (∀ p ∈ items, p.1 ≠ k) → st.containsKey hasher seedMix k = false) := by
  by_cases hne : items = []
  · subst hne
    have h2 : Except.ok (⟨[], [], [], 0⟩ : CHD.ChdState) = Except.ok st :=
      Option.some.inj hbuild
    injection h2 with h3
    subst h3
    constructor
    · intro p hp
      exact absurd hp (by simp)
    · intro k _
      rfl
  · exact CHD.buildCHD_correct hasher seedMix bound items st hne hmix hbuild

/-- Witness for C2: a concrete two-entry batch under the identity hasher and
the constant (contract-satisfying) seed mixer; the construction completes
with two single-item buckets, and both entries are findable while foreign
keys are reported absent. -/
theorem C2_chd_correctness_witness :
    (∀ p ∈ [((1 : Nat), (10 : Nat)), (2, 20)],
      CHD.ChdState.find idHasher constMix
        ⟨[(0, 0), (1, 10), (2, 20), (0, 0)], [0, -2, -3, 0],
          [false, true, true, false], 2⟩ p.1 = some p.2) ∧
    (∀ k, (∀ p ∈ [((1 : Nat), (10 : Nat)), (2, 20)], p.1 ≠ k) →
      CHD.ChdState.containsKey idHasher constMix
        ⟨[(0, 0), (1, 10), (2, 20), (0, 0)], [0, -2, -3, 0],
          [false, true, true, false], 2⟩ k = false) :=
  C2_chd_correctness idHasher constMix 1 [(1, 10), (2, 20)]
    ⟨[(0, 0), (1, 10), (2, 20), (0, 0)], [0, -2, -3, 0],
      [false, true, true, false], 2⟩
    (by decide) (fun _ _ => (by norm_num : (0 : Nat) < 4)) (by decide)

end Nfx
